import Mathlib

/-!
spm_brainwarp.c : the normal-equation kernel `mrqcof` and the gateway `mexFunction`

A shallow embedding of `mrqcof` and `mexFunction` (src/spm_brainwarp.c) in exact arithmetic.

* C arrays (`double x[]`, `int dim[3]`) are functions `Nat → _`; a store is `upd`.
* `double` is an arbitrary linearly ordered commutative ring `R` (the kernel never divides),
  so every statement holds over the integers, the rationals and the reals.
* `for (k = 0; k < n; k++)` is `loop n`; the three sampling loops
  `for (s = 1; s < dim; s += samp)` are `forGrid dim samp`.
* Buffers obtained from `mxCalloc` start as the zero function.
* `mexFunction` divides, so there `double` is an arbitrary linearly ordered field; a call
  returns `Except Err (Output R)`, the error being the call of `mexErrMsgTxt` that ends it.
  Integers are unbounded.
-/

namespace SpmBrainwarp

/-! ## Arrays and loops -/

/-- Store `v` at index `i` of a flat array. -/
def upd {α : Type} (b : Nat → α) (i : Nat) (v : α) : Nat → α :=
  fun j => if j = i then v else b j

/-- Store `v` at `J[i2][i1][x]` (the nine separately allocated buffers `Jz[i2][i1]`, `Jy[i2][i1]`). -/
def upd3 {α : Type} (J : Nat → Nat → Nat → α) (i2 i1 x : Nat) (v : α) : Nat → Nat → Nat → α :=
  fun p q r => if p = i2 ∧ q = i1 ∧ r = x then v else J p q r

/-- The C loop `for (k = 0; k < n; k++) body`, run on a state. -/
def loop {σ : Type} : Nat → (Nat → σ → σ) → σ → σ
  | 0, _, s => s
  | n + 1, body, s => body n (loop n body s)

/-- Successive values of `s` in `for (s = s; s < dim; s += samp)`, at most `fuel` of them. -/
def gridLoop : Nat → Nat → Nat → Nat → List Nat
  | 0, _, _, _ => []
  | fuel + 1, s, dim, samp =>
    if s < dim then s :: gridLoop fuel (s + samp) dim samp else []

/-- Grid indices visited by `for (s = 1; s < dim; s += samp)`.  The fuel `dim` is enough
whenever `samp ≥ 1` (see `grid_eq_map`). -/
def grid (dim samp : Nat) : List Nat := gridLoop dim 1 dim samp

/-- The sampling loop `for (s = 1; s < dim; s += samp) body`. -/
def forGrid {σ : Type} (dim samp : Nat) (body : Nat → σ → σ) (s : σ) : σ :=
  (grid dim samp).foldl (fun st k => body k st) s

/-! ## Data model -/

/-- Result of one call of the sampling service: value and the three gradient components. -/
structure Sample (R : Type) where
  val : R
  grad : Nat → R

/-- Modelled from the spec: `MAPTYPE` and `resample_d` of spm_vol_utils (not in this file).
A volume has its dimensions `dim[3]` and the Sampling Service
`sample(volume, x, y, z) -> (value, gradient_x, gradient_y, gradient_z)`, which is what
`resample_d(1, vol, &v, gx, gy, gz, x, y, z, 1, 0.0)` returns. -/
structure MAPTYPE (R : Type) where
  dim : Nat → Nat
  resample : R → R → R → Sample R

/-- Arguments of `mrqcof` that are only read. -/
structure Args (R : Type) where
  T : Nat → R
  vol2 : MAPTYPE R
  ni : Nat
  vols1 : Nat → MAPTYPE R
  nx : Nat
  BX : Nat → R
  dBX : Nat → R
  ny : Nat
  BY : Nat → R
  dBY : Nat → R
  nz : Nat
  BZ : Nat → R
  dBZ : Nat → R
  M : Nat → R
  samp : Nat → Nat
  edgeskip : Nat → Int

/-- Output arguments and local buffers of `mrqcof`. -/
structure State (R : Type) where
  alpha : Nat → R
  beta : Nat → R
  alphaxy : Nat → R
  betaxy : Nat → R
  alphax : Nat → R
  betax : Nat → R
  dvdt : Nat → R
  Tz : Nat → R
  Ty : Nat → R
  Jz : Nat → Nat → Nat → R
  Jy : Nat → Nat → Nat → R
  ss : R
  ss_deriv : Nat → R
  nsamp : Nat

section Model

variable {R : Type} [LinearOrderedCommRing R]

/-- `dim1 = vols1[0].dim`. -/
def dim1 (a : Args R) : Nat → Nat := (a.vols1 0).dim

/-- `bx3[0] = dBX; bx3[1] = BX; bx3[2] = BX`. -/
def bx3 (a : Args R) : Nat → Nat → R
  | 0 => a.dBX
  | _ => a.BX

/-- `by3[0] = BY; by3[1] = dBY; by3[2] = BY`. -/
def by3 (a : Args R) : Nat → Nat → R
  | 1 => a.dBY
  | _ => a.BY

/-- `bz3[0] = BZ; bz3[1] = BZ; bz3[2] = dBZ`. -/
def bz3 (a : Args R) : Nat → Nat → R
  | 2 => a.dBZ
  | _ => a.BZ

/-- `ni4 = ni*4`. -/
def ni4 (a : Args R) : Nat := a.ni * 4

/-- `scale1a = T + 3*nx*ny*nz`. -/
def scale1a (a : Args R) (k : Nat) : R := a.T (3 * a.nx * a.ny * a.nz + k)

/-- The index vector `s0[3]` of the three sampling loops. -/
def s0v (sx sy sz : Nat) : Nat → Nat
  | 0 => sx
  | 1 => sy
  | _ => sz

/-- "only zero half the matrix": `for x1 < m { for x2 <= x1: a[m*x1+x2] = 0; b[x1] = 0 }`. -/
def zeroHalf (m : Nat) (ab : (Nat → R) × (Nat → R)) : (Nat → R) × (Nat → R) :=
  loop m (fun x1 st =>
    (loop (x1 + 1) (fun x2 al => upd al (m * x1 + x2) 0) st.1, upd st.2 x1 0)) ab

/-! ## Separable field evaluator -/

/-- The sum stored in `Tz[ny*nx*i1 + x1]` (source lines 102-105), with `ptr1 = T + i1*nz*ny*nx`. -/
def tzVal (a : Args R) (sz i1 x1 : Nat) : R :=
  loop a.nz (fun z1 tmp =>
    tmp + a.T (i1 * (a.nz * a.ny * a.nx) + (x1 + z1 * a.ny * a.nx)) * a.BZ (dim1 a 2 * z1 + sz)) 0

/-- The sum stored in `Jz[i2][i1][x1]` (source lines 110-113). -/
def jzVal (a : Args R) (sz i2 i1 x1 : Nat) : R :=
  loop a.nz (fun z1 tmp =>
    tmp + a.T (i1 * (a.nz * a.ny * a.nx) + (x1 + z1 * a.ny * a.nx))
      * bz3 a i2 (dim1 a 2 * z1 + sz)) 0

/-- Contraction over the z basis for plane `sz` (source lines 98-115): fills `Tz` and `Jz`. -/
def buildZ (a : Args R) (sz : Nat)
    (st : (Nat → R) × (Nat → Nat → Nat → R)) : (Nat → R) × (Nat → Nat → Nat → R) :=
  loop 3 (fun i1 st =>
    loop (a.nx * a.ny) (fun x1 st =>
      (upd st.1 (a.ny * a.nx * i1 + x1) (tzVal a sz i1 x1),
       loop 3 (fun i2 Jz => upd3 Jz i2 i1 x1 (jzVal a sz i2 i1 x1)) st.2)) st) st

/-- The sum stored in `Ty[nx*i1 + x1]` (source lines 134-137), with `ptr1 = Tz + i1*ny*nx`. -/
def tyVal (a : Args R) (sy : Nat) (Tz : Nat → R) (i1 x1 : Nat) : R :=
  loop a.ny (fun y1 tmp =>
    tmp + Tz (i1 * (a.ny * a.nx) + (x1 + y1 * a.nx)) * a.BY (dim1 a 1 * y1 + sy)) 0

/-- The sum stored in `Jy[i2][i1][x1]` (source lines 142-145). -/
def jyVal (a : Args R) (sy : Nat) (Jz : Nat → Nat → Nat → R) (i2 i1 x1 : Nat) : R :=
  loop a.ny (fun y1 tmp =>
    tmp + Jz i2 i1 (x1 + y1 * a.nx) * by3 a i2 (dim1 a 1 * y1 + sy)) 0

/-- Contraction over the y basis for row `sy` (source lines 129-148): fills `Ty` and `Jy`
from `Tz` and `Jz`. -/
def buildY (a : Args R) (sy : Nat) (Tz : Nat → R) (Jz : Nat → Nat → Nat → R)
    (st : (Nat → R) × (Nat → Nat → Nat → R)) : (Nat → R) × (Nat → Nat → Nat → R) :=
  loop 3 (fun i1 st =>
    loop a.nx (fun x1 st =>
      (upd st.1 (a.nx * i1 + x1) (tyVal a sy Tz i1 x1),
       loop 3 (fun i2 Jy => upd3 Jy i2 i1 x1 (jyVal a sy Jz i2 i1 x1)) st.2)) st) st

/-- The warped coordinate `trans[i1]` (source lines 167-170). -/
def trans (a : Args R) (Ty : Nat → R) (s0 : Nat → Nat) (i1 : Nat) : R :=
  loop a.nx (fun x1 tmp => tmp + Ty (i1 * a.nx + x1) * a.BX (dim1 a 0 * x1 + s0 0)) 1
    + (s0 i1 : R)

/-- The Jacobian entry `J[i2][i1]` (source lines 173-179). -/
def jac (a : Args R) (Jy : Nat → Nat → Nat → R) (s0 : Nat → Nat) (i2 i1 : Nat) : R :=
  loop a.nx (fun x1 tmp => tmp + Jy i2 i1 x1 * bx3 a i2 (dim1 a 0 * x1 + s0 0))
    (if i1 = i2 then 1 else 0)

/-- Affine component `s2` (source lines 183-185). -/
def affine (a : Args R) (tr : Nat → R) : Nat → R
  | 0 => a.M (0 + 4 * 0) * tr 0 + a.M (0 + 4 * 1) * tr 1 + a.M (0 + 4 * 2) * tr 2 + a.M (0 + 4 * 3)
  | 1 => a.M (1 + 4 * 0) * tr 0 + a.M (1 + 4 * 1) * tr 1 + a.M (1 + 4 * 2) * tr 2 + a.M (1 + 4 * 3)
  | _ => a.M (2 + 4 * 0) * tr 0 + a.M (2 + 4 * 1) * tr 1 + a.M (2 + 4 * 2) * tr 2 + a.M (2 + 4 * 3)

/-- "is the transformed position in range?" (source lines 189-191). -/
def inRange (a : Args R) (s2 : Nat → R) : Prop :=
  s2 0 ≥ ((1 + a.edgeskip 0 : Int) : R) ∧ s2 0 < (((a.vol2.dim 0 : Int) - a.edgeskip 0 : Int) : R) ∧
  s2 1 ≥ ((1 + a.edgeskip 1 : Int) : R) ∧ s2 1 < (((a.vol2.dim 1 : Int) - a.edgeskip 1 : Int) : R) ∧
  s2 2 ≥ ((1 + a.edgeskip 2 : Int) : R) ∧ s2 2 < (((a.vol2.dim 2 : Int) - a.edgeskip 2 : Int) : R)

instance (a : Args R) (s2 : Nat → R) : Decidable (inRange a s2) :=
  inferInstanceAs (Decidable (_ ∧ _))

/-! ## Voxel residual and design row -/

/-- "affine transform the gradients of object image" (source lines 198-200). -/
def dvds1 (a : Args R) (g : Nat → R) : Nat → R
  | 0 => a.M (0 + 4 * 0) * g 0 + a.M (1 + 4 * 0) * g 1 + a.M (2 + 4 * 0) * g 2
  | 1 => a.M (0 + 4 * 1) * g 0 + a.M (1 + 4 * 1) * g 1 + a.M (2 + 4 * 1) * g 2
  | _ => a.M (0 + 4 * 2) * g 0 + a.M (1 + 4 * 2) * g 1 + a.M (2 + 4 * 2) * g 2

/-- "nonlinear transform the gradients to the same space as the template"
(source lines 203-205). -/
def jacApply (J : Nat → Nat → R) (d : Nat → R) : Nat → R
  | 0 => J 0 0 * d 0 + J 0 1 * d 1 + J 0 2 * d 2
  | 1 => J 1 0 * d 0 + J 1 1 * d 1 + J 1 2 * d 2
  | _ => J 2 0 * d 0 + J 2 1 * d 1 + J 2 2 * d 2

/-- Working values of one voxel: the residual `dv`, the reduced design row `dvdt` and the
gradient `dvds0`. -/
structure Vox (R : Type) where
  dv : R
  dvdt : Nat → R
  dvds0 : Nat → R

/-- Body of the loop over the templates, for template `i1` (source lines 217-240). -/
def templateStep (a : Args R) (s0 : Nat → Nat) (s2 : Nat → R) (i1 : Nat) (w : Vox R) : Vox R :=
  let t := (a.vols1 i1).resample (s0 0 : R) (s0 1 : R) (s0 2 : R)
  let tmp := t.val
  let dvdt := upd w.dvdt (i1 * 4 + 3 * a.nx) tmp
  let dvdt := upd dvdt (i1 * 4 + 1 + 3 * a.nx) (tmp * s2 0)
  let dvdt := upd dvdt (i1 * 4 + 2 + 3 * a.nx) (tmp * s2 1)
  let dvdt := upd dvdt (i1 * 4 + 3 + 3 * a.nx) (tmp * s2 2)
  let dv := w.dv - dvdt (i1 * 4 + 3 * a.nx) * scale1a a (i1 * 4)
  let dv := dv - dvdt (i1 * 4 + 1 + 3 * a.nx) * scale1a a (i1 * 4 + 1)
  let dv := dv - dvdt (i1 * 4 + 2 + 3 * a.nx) * scale1a a (i1 * 4 + 2)
  let dv := dv - dvdt (i1 * 4 + 3 + 3 * a.nx) * scale1a a (i1 * 4 + 3)
  let tmp2 := scale1a a (i1 * 4) + s2 0 * scale1a a (i1 * 4 + 1)
    + s2 1 * scale1a a (i1 * 4 + 2) + s2 2 * scale1a a (i1 * 4 + 3)
  let dvds0 := upd w.dvds0 0 (w.dvds0 0 - t.grad 0 * tmp2)
  let dvds0 := upd dvds0 1 (dvds0 1 - t.grad 1 * tmp2)
  let dvds0 := upd dvds0 2 (dvds0 2 - t.grad 2 * tmp2)
  ⟨dv, dvdt, dvds0⟩

/-- The loop over the templates (source lines 216-240). -/
def templates (a : Args R) (s0 : Nat → Nat) (s2 : Nat → R) (w : Vox R) : Vox R :=
  loop a.ni (templateStep a s0 s2) w

/-- The x part of the design row, written into `dvdt` (source lines 209-213). -/
def spatialRow (a : Args R) (s0 : Nat → Nat) (d1 : Nat → R) (dvdt : Nat → R) : Nat → R :=
  loop 3 (fun i1 d =>
    loop a.nx (fun x1 d => upd d (i1 * a.nx + x1) (-d1 i1 * a.BX (dim1 a 0 * x1 + s0 0))) d) dvdt

/-- `cf Numerical Recipies "mrqcof.c" routine` (source lines 244-250): the outer product of
the reduced design row is added to the lower half of `alphax`, and `dvdt*dv` to `betax`. -/
def accumX (m1 : Nat) (dvdt : Nat → R) (dv : R)
    (ab : (Nat → R) × (Nat → R)) : (Nat → R) × (Nat → R) :=
  loop m1 (fun x1 ab =>
    (loop (x1 + 1) (fun x2 al =>
      upd al (m1 * x1 + x2) (al (m1 * x1 + x2) + dvdt x1 * dvdt x2)) ab.1,
     upd ab.2 x1 (ab.2 x1 + dvdt x1 * dv))) ab

/-- Residual, design row and gradient of the voxel at `s0` (source lines 195-240), from the
row buffers `Ty`, `Jy`; `dvdt` is the buffer as the previous voxel left it. -/
def voxel (a : Args R) (Ty : Nat → R) (Jy : Nat → Nat → Nat → R) (dvdt : Nat → R)
    (s0 : Nat → Nat) : Vox R :=
  let s2 := affine a (trans a Ty s0)
  let smp := a.vol2.resample (s2 0) (s2 1) (s2 2)
  let d1 := dvds1 a smp.grad
  let d0 := jacApply (fun i2 i1 => jac a Jy s0 i2 i1) d1
  templates a s0 s2 ⟨smp.val, spatialRow a s0 d1 dvdt, d0⟩

/-- Body of the innermost sampling loop, for the pixel `s0 = (sx, sy, sz)`
(source lines 160-258). -/
def pixel (a : Args R) (sy sz sx : Nat) (st : State R) : State R :=
  let s0 := s0v sx sy sz
  let s2 := affine a (trans a st.Ty s0)
  if inRange a s2 then
    let w := voxel a st.Ty st.Jy st.dvdt s0
    let ab := accumX (3 * a.nx + ni4 a) w.dvdt w.dv (st.alphax, st.betax)
    let sd := upd st.ss_deriv 0 (st.ss_deriv 0 + w.dvds0 0 * w.dvds0 0)
    let sd := upd sd 1 (sd 1 + w.dvds0 1 * w.dvds0 1)
    let sd := upd sd 2 (sd 2 + w.dvds0 2 * w.dvds0 2)
    { st with
      nsamp := st.nsamp + 1, dvdt := w.dvdt, alphax := ab.1, betax := ab.2,
      ss := st.ss + w.dv * w.dv, ss_deriv := sd }
  else st

/-! ## Kronecker accumulation -/

/-- `for x1 < n { for x2 <= x1: ptr1[m1*x1+x2] += wt * ptr2[m2*x1+x2] }`, where `ptr1`,
`ptr2` are offsets into `al`, `src`. -/
def blockTri (m1 m2 ptr1 ptr2 n : Nat) (wt : R) (src al : Nat → R) : Nat → R :=
  loop n (fun x1 al =>
    loop (x1 + 1) (fun x2 al =>
      upd al (ptr1 + (m1 * x1 + x2))
        (al (ptr1 + (m1 * x1 + x2)) + wt * src (ptr2 + (m2 * x1 + x2)))) al) al

/-- `for x1 < rows { for x2 < cols: ptr1[m1*x1+x2] += wt * ptr2[m2*x1+x2] }`. -/
def blockRect (m1 m2 ptr1 ptr2 rows cols : Nat) (wt : R) (src al : Nat → R) : Nat → R :=
  loop rows (fun x1 al =>
    loop cols (fun x2 al =>
      upd al (ptr1 + (m1 * x1 + x2))
        (al (ptr1 + (m1 * x1 + x2)) + wt * src (ptr2 + (m2 * x1 + x2)))) al) al

/-- "Kronecker tensor products": one lift of the normal equations over a further axis.
The y stage (source lines 260-313) is `kron nx ny ni4 (3*nx*ny+ni4) (3*nx+ni4)` with
`w y = BY[dim1[1]*y+s0[1]]`, source `alphax, betax`, destination `alphaxy, betaxy`;
the z stage (source lines 316-369) is `kron (nx*ny) nz ni4 (3*nx*ny*nz+ni4) (3*nx*ny+ni4)`
with `w z = BZ[dim1[2]*z+s0[2]]`, source `alphaxy, betaxy`, destination `alpha, beta`.
The offsets passed to `blockTri`, `blockRect` are the source's `ptr1`, `ptr2`. -/
def kron (n k ni4 m1 m2 : Nat) (w : Nat → R) (src srcb : Nat → R)
    (dst : (Nat → R) × (Nat → R)) : (Nat → R) × (Nat → R) :=
  let dst := loop k (fun y1 dst =>
    loop 3 (fun i1 dst =>
      (blockRect m1 m2 (n * (m1 * k * 3 + k * i1 + y1)) (n * (m2 * 3 + i1)) ni4 n (w y1) src
        (loop (i1 + 1) (fun i2 al =>
          loop (y1 + 1) (fun y2 al =>
            blockTri m1 m2 (n * (m1 * (k * i1 + y1) + k * i2 + y2)) (n * (m2 * i1 + i2)) n
              (w y1 * w y2) src al) al) dst.1),
       loop n (fun x1 be =>
        upd be (x1 + n * (k * i1 + y1))
          (be (x1 + n * (k * i1 + y1)) + w y1 * srcb (x1 + n * i1))) dst.2)) dst) dst
  loop ni4 (fun x1 dst =>
    (loop (x1 + 1) (fun x2 al =>
      upd al (n * (m1 * k * 3 + k * 3) + (m1 * x1 + x2))
        (al (n * (m1 * k * 3 + k * 3) + (m1 * x1 + x2))
          + src (n * (m2 * 3 + 3) + (m2 * x1 + x2)))) dst.1,
     upd dst.2 (n * k * 3 + x1) (dst.2 (n * k * 3 + x1) + srcb (n * 3 + x1)))) dst

/-! ## Symmetrizer -/

/-- `for x1 < n for x2 < x1: ptr[m*x2+x1] = ptr[m*x1+x2]`, with `ptr = alpha + off`. -/
def mirror (m off n : Nat) (al : Nat → R) : Nat → R :=
  loop n (fun x1 al =>
    loop x1 (fun x2 al => upd al (off + (m * x2 + x1)) (al (off + (m * x1 + x2)))) al) al

/-- The loops `for a1 < count { for a2 <= a1: sub(ptr + n*(m*a1 + a2)) }` of the symmetrizer,
which visit the blocks of side `n` on and below the block diagonal; `ptr` is the offset of the
enclosing block and `sub` the work done on each block, given its offset. -/
def symLoops (m n count ptr : Nat) (sub : Nat → (Nat → R) → Nat → R) (al : Nat → R) : Nat → R :=
  loop count (fun a1 al =>
    loop (a1 + 1) (fun a2 al => sub (ptr + n * (m * a1 + a2)) al) al) al

/-- Source lines 389-400, for one pair `z1, z2`: with `ptry` the offset of the block, the x
blocks `ptrx = ptry + nx*(m1*y1 + y2)` are mirrored, then the whole xy block. -/
def symPlane (m1 nx ny ptry : Nat) (al : Nat → R) : Nat → R :=
  mirror m1 ptry (nx * ny) (symLoops m1 nx ny ptry (fun ptrx => mirror m1 ptrx nx) al)

/-- Source lines 385-404, for one pair `i1, i2`: with `ptrz` the offset of the block, the xy
blocks `ptry = ptrz + nx*ny*(m1*z1 + z2)` are symmetrized, then the whole xyz block mirrored. -/
def symBlock (m1 nx ny nz ptrz : Nat) (al : Nat → R) : Nat → R :=
  mirror m1 ptrz (nx * ny * nz) (symLoops m1 (nx * ny) nz ptrz (symPlane m1 nx ny) al)

/-- "Fill in the symmetric bits" (source lines 379-409): the blocks
`ptrz = alpha + nx*ny*nz*(m1*i1 + i2)`, `i2 <= i1 < 3`, are symmetrized, then the lower
triangle of the whole matrix is mirrored. -/
def symmetrize (nx ny nz ni4 : Nat) (alpha : Nat → R) : Nat → R :=
  let m1 := 3 * nx * ny * nz + ni4
  mirror m1 0 (nx * ny * nz * 3 + ni4)
    (symLoops m1 (nx * ny * nz) 3 0 (symBlock m1 nx ny nz) alpha)

/-- A block operation `op`, given the offset `off = m*r0 + c0` of a block of side `s` of a
matrix with rows of length `m`: no entry outside the block changes; and if the entries of the
block picked by `G` hold the values `V` and `V` meets `Req`, then afterwards all entries of
the block hold `V`. -/
def BlockFix (m s : Nat) (op : Nat → (Nat → R) → Nat → R) (G : Nat → Nat → Prop)
    (Req : (Nat → Nat → R) → Prop) : Prop :=
  (∀ (off : Nat) (al : Nat → R) (j : Nat),
    (∀ p q, p < s → q < s → j ≠ off + (m * p + q)) → op off al j = al j) ∧
  (∀ (off r0 c0 : Nat) (V : Nat → Nat → R) (al : Nat → R), off = m * r0 + c0 → c0 + s ≤ m →
    Req V → (∀ p q, p < s → q < s → G p q → al (off + (m * p + q)) = V p q) →
    ∀ p q, p < s → q < s → op off al (off + (m * p + q)) = V p q)

/-- The entries of a block of side `n*count` that lie in a sub-block on or below the block
diagonal, at a place picked by `G`. -/
def liftG (n count : Nat) (G : Nat → Nat → Prop) : Nat → Nat → Prop :=
  fun P Q => ∃ a1 a2 p q, a2 ≤ a1 ∧ a1 < count ∧ p < n ∧ q < n ∧ G p q ∧
    P = n * a1 + p ∧ Q = n * a2 + q

/-- The values of a block of side `n*count` are symmetric, and those of each of its sub-blocks
of side `n` meet `Req`. -/
def liftReq (n count : Nat) (Req : (Nat → Nat → R) → Prop) : (Nat → Nat → R) → Prop :=
  fun V => (∀ P Q, P < n * count → Q < n * count → V P Q = V Q P) ∧
    ∀ a1 a2, a1 < count → a2 < count → Req (fun p q => V (n * a1 + p) (n * a2 + q))

/-! ## The sampling loops and `mrqcof` -/

/-- Body of the loop over the rows of a plane (source lines 127-314). -/
def row (a : Args R) (sz sy : Nat) (st : State R) : State R :=
  let tj := buildY a sy st.Tz st.Jz (st.Ty, st.Jy)
  let ab := zeroHalf (3 * a.nx + ni4 a) (st.alphax, st.betax)
  let st := forGrid (dim1 a 0) (a.samp 0) (pixel a sy sz)
    { st with Ty := tj.1, Jy := tj.2, alphax := ab.1, betax := ab.2 }
  let xy := kron a.nx a.ny (ni4 a) (3 * a.nx * a.ny + ni4 a) (3 * a.nx + ni4 a)
    (fun y => a.BY (dim1 a 1 * y + sy)) st.alphax st.betax (st.alphaxy, st.betaxy)
  { st with alphaxy := xy.1, betaxy := xy.2 }

/-- Body of the loop over the planes (source lines 96-372). -/
def plane (a : Args R) (sz : Nat) (st : State R) : State R :=
  let tj := buildZ a sz (st.Tz, st.Jz)
  let ab := zeroHalf (3 * a.nx * a.ny + ni4 a) (st.alphaxy, st.betaxy)
  let st := forGrid (dim1 a 1) (a.samp 1) (row a sz)
    { st with Tz := tj.1, Jz := tj.2, alphaxy := ab.1, betaxy := ab.2 }
  let xyz := kron (a.nx * a.ny) a.nz (ni4 a) (3 * a.nx * a.ny * a.nz + ni4 a)
    (3 * a.nx * a.ny + ni4 a) (fun z => a.BZ (dim1 a 2 * z + sz)) st.alphaxy st.betaxy
    (st.alpha, st.beta)
  { st with alpha := xyz.1, beta := xyz.2 }

/-- State on entry to the plane loop (source lines 60-93): the local buffers come zeroed from
`mxCalloc`, the lower half of `alpha`, `beta` and `ss_deriv` are zeroed; `alpha0`, `beta0`,
`sd0` are the caller's output arrays as passed in. -/
def initState (a : Args R) (alpha0 beta0 sd0 : Nat → R) : State R :=
  let ab := zeroHalf (3 * a.nx * a.ny * a.nz + ni4 a) (alpha0, beta0)
  { alpha := ab.1, beta := ab.2,
    alphaxy := fun _ => 0, betaxy := fun _ => 0, alphax := fun _ => 0, betax := fun _ => 0,
    dvdt := fun _ => 0, Tz := fun _ => 0, Ty := fun _ => 0,
    Jz := fun _ _ _ => 0, Jy := fun _ _ _ => 0,
    ss := 0, ss_deriv := upd (upd (upd sd0 2 0) 1 0) 0 0, nsamp := 0 }

/-- State after the last plane, before the symmetrizer. -/
def accumulate (a : Args R) (alpha0 beta0 sd0 : Nat → R) : State R :=
  forGrid (dim1 a 2) (a.samp 2) (plane a) (initState a alpha0 beta0 sd0)

/-- The function `mrqcof`.  Of the returned state, `alpha`, `beta`, `ss` (`*pss`),
`nsamp` (`*pnsamp`) and `ss_deriv` are the outputs. -/
def mrqcof (a : Args R) (alpha0 beta0 sd0 : Nat → R) : State R :=
  let st := accumulate a alpha0 beta0 sd0
  { st with alpha := symmetrize a.nx a.ny a.nz (ni4 a) st.alpha }

/-! ## The voxels of the sampling grid -/

/-- The buffers `Tz`, `Jz` of plane `sz`, built on zeroed storage. -/
def fieldZ (a : Args R) (sz : Nat) : (Nat → R) × (Nat → Nat → Nat → R) :=
  buildZ a sz (fun _ => 0, fun _ _ _ => 0)

/-- The buffers `Ty`, `Jy` of row `sy` of plane `sz`, built on zeroed storage. -/
def fieldY (a : Args R) (sy sz : Nat) : (Nat → R) × (Nat → Nat → Nat → R) :=
  buildY a sy (fieldZ a sz).1 (fieldZ a sz).2 (fun _ => 0, fun _ _ _ => 0)

/-- The warped coordinate `trans[i]` that `mrqcof` computes at the grid point `(sx, sy, sz)`. -/
def transAt (a : Args R) (sx sy sz i : Nat) : R :=
  trans a (fieldY a sy sz).1 (s0v sx sy sz) i

/-- The Jacobian entry `J[i2][i1]` that `mrqcof` computes at the grid point `(sx, sy, sz)`. -/
def jacAt (a : Args R) (sx sy sz i2 i1 : Nat) : R :=
  jac a (fieldY a sy sz).2 (s0v sx sy sz) i2 i1

/-- The transformed position `s2` at the grid point `(sx, sy, sz)`. -/
def s2At (a : Args R) (sx sy sz : Nat) : Nat → R :=
  affine a (trans a (fieldY a sy sz).1 (s0v sx sy sz))

/-- The voxel at `(sx, sy, sz)` passes the range test. -/
def accepted (a : Args R) (sx sy sz : Nat) : Prop := inRange a (s2At a sx sy sz)

instance (a : Args R) (sx sy sz : Nat) : Decidable (accepted a sx sy sz) :=
  inferInstanceAs (Decidable (inRange a _))

/-- Residual, design row and gradient of the voxel at `(sx, sy, sz)`. -/
def voxAt (a : Args R) (sx sy sz : Nat) : Vox R :=
  voxel a (fieldY a sy sz).1 (fieldY a sy sz).2 (fun _ => 0) (s0v sx sy sz)

/-- The buffers `Tz`, `Jz` hold the z contraction of plane `sz` (wherever it is read). -/
def HoldsZ (a : Args R) (sz : Nat) (Tz : Nat → R) (Jz : Nat → Nat → Nat → R) : Prop :=
  (∀ i1 x1, i1 < 3 → x1 < a.nx * a.ny → Tz (a.ny * a.nx * i1 + x1) = tzVal a sz i1 x1) ∧
  (∀ i2 i1 x1, i2 < 3 → i1 < 3 → x1 < a.nx * a.ny → Jz i2 i1 x1 = jzVal a sz i2 i1 x1)

/-- The buffers `Ty`, `Jy` hold the y contraction of row `sy` of plane `sz`. -/
def HoldsY (a : Args R) (sy sz : Nat) (Ty : Nat → R) (Jy : Nat → Nat → Nat → R) : Prop :=
  (∀ i1 x1, i1 < 3 → x1 < a.nx → Ty (a.nx * i1 + x1) = tyVal a sy (fieldZ a sz).1 i1 x1) ∧
  (∀ i2 i1 x1, i2 < 3 → i1 < 3 → x1 < a.nx →
    Jy i2 i1 x1 = jyVal a sy (fieldZ a sz).2 i2 i1 x1)

/-- The factors `(1, s2x, s2y, s2z)[k]` of the four intensity entries of a template. -/
def coupling (s2 : Nat → R) : Nat → R
  | 0 => 1
  | 1 => s2 0
  | 2 => s2 1
  | _ => s2 2

/-- Template `t` sampled at the undeformed grid coordinate `s0`. -/
def tmplVal (a : Args R) (t : Nat) (s0 : Nat → Nat) : R :=
  ((a.vols1 t).resample (s0 0 : R) (s0 1 : R) (s0 2 : R)).val

/-- The moving-image sample `v` at the transformed position of the grid point. -/
def movVal (a : Args R) (sx sy sz : Nat) : R :=
  (a.vol2.resample (s2At a sx sy sz 0) (s2At a sx sy sz 1) (s2At a sx sy sz 2)).val

/-- The affine-transformed gradient `dvds1` of the moving image at the grid point. -/
def gradAt (a : Args R) (sx sy sz : Nat) : Nat → R :=
  dvds1 a (a.vol2.resample (s2At a sx sy sz 0) (s2At a sx sy sz 1) (s2At a sx sy sz 2)).grad

/-- The residual of the voxel at the grid point as the specification words it: the
moving-image sample less, for each template `t`, the template value times
`a_t0 + a_t1*s2x + a_t2*s2y + a_t3*s2z`, with `a_tk = T[3*nx*ny*nz + 4*t + k]`. -/
def residual (a : Args R) (sx sy sz : Nat) : R :=
  movVal a sx sy sz - ∑ t in Finset.range a.ni, tmplVal a t (s0v sx sy sz) *
    (a.T (3 * a.nx * a.ny * a.nz + 4 * t + 0)
      + a.T (3 * a.nx * a.ny * a.nz + 4 * t + 1) * s2At a sx sy sz 0
      + a.T (3 * a.nx * a.ny * a.nz + 4 * t + 2) * s2At a sx sy sz 1
      + a.T (3 * a.nx * a.ny * a.nz + 4 * t + 3) * s2At a sx sy sz 2)

/-- Sum of `f` over the accepted voxels of row `sy` of plane `sz`. -/
def rowSum {β : Type} [AddCommMonoid β] (a : Args R) (sy sz : Nat) (f : Nat → β) : β :=
  ((grid (dim1 a 0) (a.samp 0)).map fun sx => if accepted a sx sy sz then f sx else 0).sum

/-- Sum of `f` over the accepted voxels of plane `sz`. -/
def planeSum {β : Type} [AddCommMonoid β] (a : Args R) (sz : Nat) (f : Nat → Nat → β) : β :=
  ((grid (dim1 a 1) (a.samp 1)).map fun sy => rowSum a sy sz (fun sx => f sx sy)).sum

/-- Entry `r` of the reduced design row `dvdt` (length `3*nx + 4*ni`) of the voxel at the grid
point. -/
def dX (a : Args R) (sx sy sz r : Nat) : R := (voxAt a sx sy sz).dvdt r

/-- Spatial entry `(i, y, x)` of the voxel's design row after the y lift: the y basis value
times the x entry. -/
def dXY (a : Args R) (sx sy sz i y x : Nat) : R :=
  a.BY (dim1 a 1 * y + sy) * dX a sx sy sz (a.nx * i + x)

/-- Spatial entry `(i, z, y, x)` of the voxel's design row after the z lift. -/
def dS (a : Args R) (sx sy sz i z y x : Nat) : R :=
  a.BZ (dim1 a 2 * z + sz) * dXY a sx sy sz i y x

/-- Intensity entry `t < 4*ni` of the voxel's design row. -/
def dI (a : Args R) (sx sy sz t : Nat) : R := dX a sx sy sz (3 * a.nx + t)

/-- Sum of `f` over the accepted voxels of the sampling grid, in the order of the three
sampling loops. -/
def voxelSum {β : Type} [AddCommMonoid β] (a : Args R) (f : Nat → Nat → Nat → β) : β :=
  ((grid (dim1 a 2) (a.samp 2)).map fun sz =>
    ((grid (dim1 a 1) (a.samp 1)).map fun sy =>
      ((grid (dim1 a 0) (a.samp 0)).map fun sx =>
        if accepted a sx sy sz then f sx sy sz else 0).sum).sum).sum

/-! ## The naive normal equations -/

/-- The full design row `d` of the voxel at the grid point, of length
`P = 3*nx*ny*nz + 4*ni`, as the specification words it:
`d[i*nx*ny*nz + x + nx*y + nx*ny*z] = -dvds1[i] * BX[s0x, x] * BY[s0y, y] * BZ[s0z, z]` for
`i < 3`, and `d[3*nx*ny*nz + 4*t + k] = (template t value) * (1, s2x, s2y, s2z)[k]`.
The spatial index `p` is taken apart as `x = p % nx`, `y = p / nx % ny`,
`z = p / (nx*ny) % nz`, `i = p / (nx*ny*nz)`. -/
def designRow (a : Args R) (sx sy sz p : Nat) : R :=
  if p < 3 * a.nx * a.ny * a.nz then
    -gradAt a sx sy sz (p / (a.nx * a.ny * a.nz))
      * a.BX (dim1 a 0 * (p % a.nx) + sx)
      * a.BY (dim1 a 1 * (p / a.nx % a.ny) + sy)
      * a.BZ (dim1 a 2 * (p / (a.nx * a.ny) % a.nz) + sz)
  else
    tmplVal a ((p - 3 * a.nx * a.ny * a.nz) / 4) (s0v sx sy sz)
      * coupling (s2At a sx sy sz) ((p - 3 * a.nx * a.ny * a.nz) % 4)

/-- Entry `(p, q)` of the naive normal-equation matrix: the sum over the accepted sampled
voxels of `d[p]*d[q]`, `d` the dense design row of the voxel. -/
def naiveAlpha (a : Args R) (p q : Nat) : R :=
  voxelSum a (fun sx sy sz => designRow a sx sy sz p * designRow a sx sy sz q)

/-- Entry `p` of the naive right-hand side: the sum over the accepted sampled voxels of
`d[p]*dv`, `dv` the residual of the voxel. -/
def naiveBeta (a : Args R) (p : Nat) : R :=
  voxelSum a (fun sx sy sz => designRow a sx sy sz p * residual a sx sy sz)

/-! ## Concrete inputs -/

/-- A 3x3x3 volume whose sampled value at `(x, y, z)` is `x`, with gradient `(1, 0, 0)`. -/
def rampVol : MAPTYPE ℤ :=
  { dim := fun _ => 3, resample := fun x _ _ => ⟨x, fun k => if k = 0 then 1 else 0⟩ }

/-- The 4x4 identity matrix, stored column by column. -/
def identityM : Nat → ℤ := fun k => if k = 0 ∨ k = 5 ∨ k = 10 ∨ k = 15 then 1 else 0

/-- The degenerate case: one template, one constant basis function per axis, all deformation
coefficients zero, intensity parameters `(1, 0, 0, 0)`, identity affine matrix, and the
moving volume identical to the template. -/
def degenerateArgs : Args ℤ :=
  { T := fun k => if k = 3 then 1 else 0,
    vol2 := rampVol, ni := 1, vols1 := fun _ => rampVol,
    nx := 1, BX := fun _ => 1, dBX := fun _ => 0,
    ny := 1, BY := fun _ => 1, dBY := fun _ => 0,
    nz := 1, BZ := fun _ => 1, dBZ := fun _ => 0,
    M := identityM, samp := fun _ => 1, edgeskip := fun _ => 0 }

/-- Zeroed output storage. -/
def zeroBuf : Nat → ℤ := fun _ => 0

/-- A 5x5x5 volume whose sampled value at `(x, y, z)` is `x + y`, with gradient `(1, 1, 0)`. -/
def wideVol : MAPTYPE ℤ :=
  { dim := fun _ => 5, resample := fun x y _ => ⟨x + y, fun k => if k = 2 then 0 else 1⟩ }

/-- The degenerate case with the 5x5x5 moving volume `wideVol`: the template still has 3
voxels on every axis. -/
def offsetArgs : Args ℤ := { degenerateArgs with vol2 := wideVol }

/-- Two constant basis functions along x, one along y and z, all deformation coefficients
zero, intensity parameters `(1, 0, 0, 0)`, identity affine matrix, a 3x3x3 template and the
5x5x5 moving volume `wideVol`. -/
def twoBasisArgs : Args ℤ :=
  { T := fun k => if k = 6 then 1 else 0,
    vol2 := wideVol, ni := 1, vols1 := fun _ => rampVol,
    nx := 2, BX := fun _ => 1, dBX := fun _ => 0,
    ny := 1, BY := fun _ => 1, dBY := fun _ => 0,
    nz := 1, BZ := fun _ => 1, dBZ := fun _ => 0,
    M := identityM, samp := fun _ => 1, edgeskip := fun _ => 0 }

end Model

/-! ## The gateway `mexFunction` -/

/-- An input array `prhs[i]` as the gateway reads it: `mxGetM`, `mxGetN`, the four type
tests and the data `mxGetPr`. -/
structure MxArray (R : Type) where
  m : Nat
  n : Nat
  isNumeric : Bool
  isComplex : Bool
  isSparse : Bool
  isDouble : Bool
  pr : Nat → R

/-- What `mexFunction` calls from outside this file, taken as parameters: `rint` of libm
together with the conversion to `int` of the assignment it stands in, `sqrt` and `log` of
libm, and `voxdim` of spm_vol_utils, which gives the voxel sizes `pixdim[3]` of a volume. -/
structure Env (R : Type) where
  rint : R → Int
  sqrt : R → R
  log : R → R
  voxdim : MAPTYPE R → Nat → R

/-- The call of `mexFunction`: `nrhs`, `nlhs`, the arrays `prhs[0..10]`, and what `get_maps`
(spm_vol_utils) returns for `prhs[0]` and `prhs[1]`: the templates `map1` with their count
`ni`, and the volumes `map2` with their count `n2` (the `i` of `get_maps(prhs[1], &i)`). -/
structure Input (R : Type) where
  nrhs : Nat
  nlhs : Nat
  prhs : Nat → MxArray R
  map1 : Nat → MAPTYPE R
  ni : Nat
  map2 : Nat → MAPTYPE R
  n2 : Nat

/-- The calls of `mexErrMsgTxt` in `mexFunction`, in the order of the source. -/
inductive Err where
  | usage
  | usageMaps
  | notDouble
  | affineSize
  | xBasis
  | xDeriv
  | yBasis
  | yDeriv
  | zBasis
  | zDeriv
  | transformSize
  | fwhmCount
  | volumeDims
  deriving DecidableEq

/-- The message each call of `mexErrMsgTxt` reports. -/
def Err.msg : Err → String
  | .usage => "Inappropriate usage. ([A,B,var,fwhm]=f(V1,V2,M,BX,BY,BZ,dBX,dBY,dBZ,T,fwhm);)"
  | .usageMaps => "Inappropriate usage."
  | .notDouble => "Inputs must be numeric, real, full and double."
  | .affineSize => "Transformation matrix must be 4x4."
  | .xBasis => "Wrong sized X basis functions."
  | .xDeriv => "Wrong sized X basis function derivatives."
  | .yBasis => "Wrong sized Y basis functions."
  | .yDeriv => "Wrong sized Y basis function derivatives."
  | .zBasis => "Wrong sized Z basis functions."
  | .zDeriv => "Wrong sized Z basis function derivatives."
  | .transformSize => "Transform is wrong size."
  | .fwhmCount => "FWHM should contain one or two values."
  | .volumeDims => "Volumes must have same dimensions."

/-- The outputs `plhs[0..3]`: `alpha`, `beta`, the variance `chi2` and the smoothness
`fwhm3`. -/
structure Output (R : Type) where
  alpha : Nat → R
  beta : Nat → R
  chi2 : R
  fwhm3 : R

section Gateway

variable {R : Type} [LinearOrderedField R]

/-- `#define MAX(a,b) (((a)>(b)) ? (b) : (a))` (source line 441). -/
def MAX (a b : R) : R := if a > b then b else a

/-- `scale`: `for (i = 0; i < m; i++) dat[i] *= s` (source lines 434-439). -/
def scale (m : Nat) (dat : Nat → R) (s : R) : Nat → R :=
  loop m (fun i d => upd d i (d i * s)) dat

/-- The test of the loop over `prhs[0..10]` (source lines 465-466). -/
def badType (x : MxArray R) : Bool :=
  !x.isNumeric || x.isComplex || x.isSparse || !x.isDouble

/-- `nx = mxGetN(prhs[3])`. -/
def nxOf (inp : Input R) : Nat := (inp.prhs 3).n

/-- `ny = mxGetN(prhs[4])`. -/
def nyOf (inp : Input R) : Nat := (inp.prhs 4).n

/-- `nz = mxGetN(prhs[5])`. -/
def nzOf (inp : Input R) : Nat := (inp.prhs 5).n

/-- The checks of source lines 451-533, up to the basis matrices: the first that fails, if
any.  The assignments between them (`M`, `nx`, `BX`, ...) only read the input. -/
def basisError (inp : Input R) : Option Err :=
  if inp.nrhs ≠ 11 ∨ inp.nlhs > 4 then some .usage
  else if inp.n2 ≠ 1 then some .usageMaps
  else if (List.range 11).any (fun i => badType (inp.prhs i)) then some .notDouble
  else if (inp.prhs 2).m ≠ 4 ∨ (inp.prhs 2).n ≠ 4 then some .affineSize
  else if (inp.prhs 3).m ≠ (inp.map1 0).dim 0 then some .xBasis
  else if (inp.prhs 6).m ≠ (inp.map1 0).dim 0 ∨ (inp.prhs 6).n ≠ nxOf inp then some .xDeriv
  else if (inp.prhs 4).m ≠ (inp.map1 0).dim 1 then some .yBasis
  else if (inp.prhs 7).m ≠ (inp.map1 0).dim 1 ∨ (inp.prhs 7).n ≠ nyOf inp then some .yDeriv
  else if (inp.prhs 5).m ≠ (inp.map1 0).dim 2 then some .zBasis
  else if (inp.prhs 8).m ≠ (inp.map1 0).dim 2 ∨ (inp.prhs 8).n ≠ nzOf inp then some .zDeriv
  else none

/-- The test of the loop over the templates (source lines 571-572). -/
def dimsDiffer (inp : Input R) (i : Nat) : Bool :=
  decide ((inp.map1 0).dim 0 ≠ (inp.map1 i).dim 0 ∨ (inp.map1 0).dim 1 ≠ (inp.map1 i).dim 1
    ∨ (inp.map1 0).dim 2 ≠ (inp.map1 i).dim 2)

/-- All the checks of `mexFunction` (source lines 451-573): the first call of
`mexErrMsgTxt` reached, if any.  After the basis matrices come the length of `T`, the number
of smoothness values and the dimensions of the templates; what is computed between them
(`fwhm`, `edgeskip`, `samp`) only reads the input. -/
def configError (inp : Input R) : Option Err :=
  match basisError inp with
  | some e => some e
  | none =>
    if (inp.prhs 9).m * (inp.prhs 9).n ≠ 3 * nxOf inp * nyOf inp * nzOf inp + inp.ni * 4 then
      some .transformSize
    else if ¬((inp.prhs 10).m * (inp.prhs 10).n = 1 ∨ (inp.prhs 10).m * (inp.prhs 10).n = 2) then
      some .fwhmCount
    else if (List.range inp.ni).any (dimsDiffer inp) then some .volumeDims
    else none

/-- `fwhm = mxGetPr(prhs[10])[0]`. -/
def fwhmOf (inp : Input R) : R := (inp.prhs 10).pr 0

/-- The caller's `fwhm2`: the first value again when only one is given, else the second
(source lines 543-552). -/
def fwhm2Of (inp : Input R) : R :=
  if (inp.prhs 10).m * (inp.prhs 10).n = 1 then (inp.prhs 10).pr 0 else (inp.prhs 10).pr 1

/-- `edgeskip[k] = rint(fwhm/pixdim[k]); edgeskip[k] = ((edgeskip[k]<1) ? 0 : edgeskip[k])`,
with `pixdim` the voxel sizes of `map2[0]` (source lines 556-560). -/
def edgeskipOf (env : Env R) (inp : Input R) (k : Nat) : Int :=
  let e := env.rint (fwhmOf inp / env.voxdim (inp.map2 0) k)
  if e < 1 then 0 else e

/-- `samp[k] = rint(fwhm/2.0/pixdim[k]); samp[k] = ((samp[k]<1) ? 1 : samp[k])`, with
`pixdim` the voxel sizes of `map1[0]` (source lines 562-567). -/
def sampOf (env : Env R) (inp : Input R) (k : Nat) : Int :=
  let s := env.rint (fwhmOf inp / 2 / env.voxdim (inp.map1 0) k)
  if s < 1 then 1 else s

/-- The arguments of the call of `mrqcof` (source lines 580-582): `vol2` is `map2`, `vols1`
is `map1`. -/
def mrqcofArgs (env : Env R) (inp : Input R) : Args R :=
  { T := (inp.prhs 9).pr,
    vol2 := inp.map2 0, ni := inp.ni, vols1 := inp.map1,
    nx := nxOf inp, BX := (inp.prhs 3).pr, dBX := (inp.prhs 6).pr,
    ny := nyOf inp, BY := (inp.prhs 4).pr, dBY := (inp.prhs 7).pr,
    nz := nzOf inp, BZ := (inp.prhs 5).pr, dBZ := (inp.prhs 8).pr,
    M := (inp.prhs 2).pr,
    samp := fun k => (sampOf env inp k).toNat,
    edgeskip := edgeskipOf env inp }

/-- The call of `mrqcof` on the zeroed arrays of `mxCreateDoubleMatrix`; of the local
`ss_deriv`, `mrqcof` clears the three entries before it reads them. -/
def mrqcofOut (env : Env R) (inp : Input R) : State R :=
  mrqcof (mrqcofArgs env inp) (fun _ => 0) (fun _ => 0) (fun _ => 0)

/-- The estimated smoothness `fwhm3` (source lines 584-586), with `chi2` as `mrqcof` returned
it and `pixdim` the voxel sizes of `map1[0]`. -/
def fwhm3Of (env : Env R) (inp : Input R) : R :=
  let pixdim := env.voxdim (inp.map1 0)
  let chi2 := (mrqcofOut env inp).ss
  let ss_deriv := (mrqcofOut env inp).ss_deriv
  ((pixdim 0 / env.sqrt (2 * ss_deriv 0 / chi2)) * env.sqrt (8 * env.log 2)
    + (pixdim 1 / env.sqrt (2 * ss_deriv 1 / chi2)) * env.sqrt (8 * env.log 2)
    + (pixdim 2 / env.sqrt (2 * ss_deriv 2 / chi2)) * env.sqrt (8 * env.log 2)) / 3

/-- `if (fwhm3<fwhm2) fwhm2 = fwhm3; if (fwhm2<fwhm) fwhm2 = fwhm;` (source lines 590-593):
the value of `fwhm2` afterwards. -/
def clampFwhm2 (fwhm fwhm2 fwhm3 : R) : R :=
  let fwhm2 := if fwhm3 < fwhm2 then fwhm3 else fwhm2
  if fwhm2 < fwhm then fwhm else fwhm2

/-- The value of `fwhm2` that enters the degrees of freedom. -/
def fwhm2Eff (env : Env R) (inp : Input R) : R :=
  clampFwhm2 (fwhmOf inp) (fwhm2Of inp) (fwhm3Of env inp)

/-- The quotient `(pixdim[k]*samp[k])/(fwhm2*1.0645)` of axis `k`. -/
def dfRatio (env : Env R) (inp : Input R) (k : Nat) : R :=
  (env.voxdim (inp.map1 0) k * (sampOf env inp k : R)) / (fwhm2Eff env inp * 1.0645)

/-- The factor `MAX((pixdim[k]*samp[k])/(fwhm2*1.0645),1.0)` of axis `k`
(source lines 597-599). -/
def dfFactor (env : Env R) (inp : Input R) (k : Nat) : R :=
  MAX (dfRatio env inp k) 1

/-- The degrees of freedom `df` (source lines 597-599). -/
def dfOf (env : Env R) (inp : Input R) : R :=
  (dfFactor env inp 0 * dfFactor env inp 1 * dfFactor env inp 2)
    * ((((mrqcofOut env inp).nsamp : Int)
        - ((3 * nxOf inp * nyOf inp * nzOf inp + inp.ni * 4 : Nat) : Int) : Int) : R)

/-- The variance after `chi2 /= df` (source line 601). -/
def chi2Of (env : Env R) (inp : Input R) : R := (mrqcofOut env inp).ss / dfOf env inp

/-- Source lines 575-605: the outputs are created, `mrqcof` is called, and `alpha`, `beta`
are scaled by `1.0/chi2`. -/
def finish (env : Env R) (inp : Input R) : Output R :=
  let m := 3 * nxOf inp * nyOf inp * nzOf inp + inp.ni * 4
  { alpha := scale (m * m) (mrqcofOut env inp).alpha (1 / chi2Of env inp),
    beta := scale m (mrqcofOut env inp).beta (1 / chi2Of env inp),
    chi2 := chi2Of env inp,
    fwhm3 := fwhm3Of env inp }

/-- The function `mexFunction`: a failed check ends the call in `mexErrMsgTxt`, which does
not return; otherwise the outputs are produced. -/
def mexFunction (env : Env R) (inp : Input R) : Except Err (Output R) :=
  match configError inp with
  | some e => .error e
  | none => .ok (finish env inp)

end Gateway

/-! ## Concrete calls of the gateway -/

/-- Parameters for the concrete calls: rounding to the nearest integer, unit voxel sizes, and
rational stand-ins for `sqrt` and `log`. -/
def plainEnv : Env ℚ :=
  { rint := fun q => ⌊q + 1 / 2⌋, sqrt := fun q => q, log := fun q => q,
    voxdim := fun _ _ => 1 }

/-- A full, real, double array with `m` rows, `n` columns and data `f`. -/
def fullArray (m n : Nat) (f : Nat → ℚ) : MxArray ℚ :=
  { m := m, n := n, isNumeric := true, isComplex := false, isSparse := false,
    isDouble := true, pr := f }

/-- A volume with `d` voxels on every axis whose sampled value at `(x, y, z)` is `x`. -/
def cubeVol (d : Nat) : MAPTYPE ℚ :=
  { dim := fun _ => d, resample := fun x _ _ => ⟨x, fun k => if k = 0 then 1 else 0⟩ }

/-- A call with one 3x3x3 template, a 5x5x5 moving volume, one constant basis function per
axis (3 rows each), the identity affine matrix, `T = (0,0,0,1,0,0,0)` and the single
smoothness value 8. -/
def gatewayInput : Input ℚ :=
  { nrhs := 11, nlhs := 4,
    prhs := fun i =>
      if i = 2 then fullArray 4 4 (fun k => if k = 0 ∨ k = 5 ∨ k = 10 ∨ k = 15 then 1 else 0)
      else if i = 3 ∨ i = 4 ∨ i = 5 then fullArray 3 1 (fun _ => 1)
      else if i = 6 ∨ i = 7 ∨ i = 8 then fullArray 3 1 (fun _ => 0)
      else if i = 9 then fullArray 7 1 (fun k => if k = 3 then 1 else 0)
      else if i = 10 then fullArray 1 1 (fun _ => 8)
      else fullArray 1 1 (fun _ => 0),
    map1 := fun _ => cubeVol 3, ni := 1, map2 := fun _ => cubeVol 5, n2 := 1 }

/-- The call `gatewayInput` with `prhs[i]` replaced by `x`. -/
def withArg (i : Nat) (x : MxArray ℚ) : Input ℚ :=
  { gatewayInput with prhs := fun j => if j = i then x else gatewayInput.prhs j }

/-- A volume with `d0` voxels along x and `d` along y and z whose sampled value at
`(x, y, z)` is `x`. -/
def boxVol (d0 d : Nat) : MAPTYPE ℚ :=
  { dim := fun k => if k = 0 then d0 else d,
    resample := fun x _ _ => ⟨x, fun k => if k = 0 then 1 else 0⟩ }

/-- A call with one 8x2x2 template, a 9x3x3 moving volume, one constant basis function per
axis, the identity affine matrix, `T = (0,0,0,1,0,0,0)` and the single smoothness value
1/4: the grid has 7 voxels, as many as there are parameters. -/
def longInput : Input ℚ :=
  { nrhs := 11, nlhs := 4,
    prhs := fun i =>
      if i = 2 then fullArray 4 4 (fun k => if k = 0 ∨ k = 5 ∨ k = 10 ∨ k = 15 then 1 else 0)
      else if i = 3 then fullArray 8 1 (fun _ => 1)
      else if i = 4 ∨ i = 5 then fullArray 2 1 (fun _ => 1)
      else if i = 6 then fullArray 8 1 (fun _ => 0)
      else if i = 7 ∨ i = 8 then fullArray 2 1 (fun _ => 0)
      else if i = 9 then fullArray 7 1 (fun k => if k = 3 then 1 else 0)
      else if i = 10 then fullArray 1 1 (fun _ => 1 / 4)
      else fullArray 1 1 (fun _ => 0),
    map1 := fun _ => boxVol 8 2, ni := 1, map2 := fun _ => boxVol 9 3, n2 := 1 }

end SpmBrainwarp

/-! ## Lemmas on loops and stores -/

namespace SpmBrainwarp

theorem upd_same {α : Type} (b : Nat → α) (i : Nat) (v : α) : upd b i v i = v := by
  simp [upd]

theorem upd_other {α : Type} (b : Nat → α) {i j : Nat} (v : α) (h : j ≠ i) :
    upd b i v j = b j := by
  simp [upd, h]

theorem loop_zero {σ : Type} (body : Nat → σ → σ) (s : σ) : loop 0 body s = s := rfl

theorem loop_succ {σ : Type} (n : Nat) (body : Nat → σ → σ) (s : σ) :
    loop (n + 1) body s = body n (loop n body s) := rfl

/-- Two loops whose bodies agree below the bound agree. -/
theorem loop_congr {σ : Type} {n : Nat} {f g : Nat → σ → σ} (h : ∀ k, k < n → ∀ s, f k s = g k s)
    (s : σ) : loop n f s = loop n g s := by
  induction n with
  | zero => rfl
  | succ n ih =>
    rw [loop_succ, loop_succ, ih (fun k hk => h k (Nat.lt_succ_of_lt hk)), h n (Nat.lt_succ_self n)]

/-- An invariant of every iteration is an invariant of the loop. -/
theorem loop_inv {σ : Type} (P : σ → Prop) {n : Nat} {body : Nat → σ → σ}
    (h : ∀ k, k < n → ∀ s, P s → P (body k s)) {s : σ} (hs : P s) : P (loop n body s) := by
  induction n with
  | zero => exact hs
  | succ n ih =>
    rw [loop_succ]
    exact h n (Nat.lt_succ_self n) _ (ih (fun k hk => h k (Nat.lt_succ_of_lt hk)))

/-- An observation that every iteration keeps is kept by the loop. -/
theorem loop_keeps {σ β : Type} (obs : σ → β) {n : Nat} {body : Nat → σ → σ}
    (h : ∀ k, k < n → ∀ s, obs (body k s) = obs s) (s : σ) : obs (loop n body s) = obs s := by
  induction n with
  | zero => rfl
  | succ n ih =>
    rw [loop_succ, h n (Nat.lt_succ_self n), ih (fun k hk => h k (Nat.lt_succ_of_lt hk))]

/-- If every iteration adds `g k` to an observation, the loop adds the sum. -/
theorem loop_adds {σ β : Type} [AddCommMonoid β] (obs : σ → β) {n : Nat} {body : Nat → σ → σ}
    {g : Nat → β} (h : ∀ k, k < n → ∀ s, obs (body k s) = obs s + g k) (s : σ) :
    obs (loop n body s) = obs s + ∑ k in Finset.range n, g k := by
  induction n with
  | zero => simp [loop_zero]
  | succ n ih =>
    rw [loop_succ, h n (Nat.lt_succ_self n), ih (fun k hk => h k (Nat.lt_succ_of_lt hk)),
      Finset.sum_range_succ, add_assoc]

/-- If one iteration adds `v` to an observation and the others keep it, the loop adds `v`. -/
theorem loop_adds_once {σ β : Type} [AddCommMonoid β] (obs : σ → β) {n : Nat}
    {body : Nat → σ → σ} {v : β} (k0 : Nat) (hk0 : k0 < n)
    (hit : ∀ s, obs (body k0 s) = obs s + v)
    (miss : ∀ k, k < n → k ≠ k0 → ∀ s, obs (body k s) = obs s) (s : σ) :
    obs (loop n body s) = obs s + v := by
  have h : ∀ k, k < n → ∀ s, obs (body k s) = obs s + (if k = k0 then v else 0) := by
    intro k hk s
    by_cases hkk : k = k0
    · subst hkk; simp [hit]
    · simp [hkk, miss k hk hkk]
  rw [loop_adds obs h, Finset.sum_ite_eq' (Finset.range n) k0 (fun _ => v)]
  simp [hk0]

/-- If an observation is set to `v` by some iteration and every later one keeps it, the loop
sets it to `v`. -/
theorem loop_sets {σ β : Type} (obs : σ → β) {n : Nat} {body : Nat → σ → σ} {v : β}
    (k0 : Nat) (hk0 : k0 < n) (hit : ∀ s, obs (body k0 s) = v)
    (miss : ∀ k, k < n → k0 < k → ∀ s, obs (body k s) = obs s) (s : σ) :
    obs (loop n body s) = v := by
  induction n with
  | zero => omega
  | succ n ih =>
    rw [loop_succ]
    by_cases h : k0 = n
    · subst h; exact hit _
    · have hlt : k0 < n := by omega
      rw [miss n (Nat.lt_succ_self n) hlt]
      exact ih hlt (fun k hk => miss k (Nat.lt_succ_of_lt hk))

/-- A loop that accumulates into a scalar. -/
theorem loop_sum {β : Type} [AddCommMonoid β] (n : Nat) (f : Nat → β) (t0 : β) :
    loop n (fun k t => t + f k) t0 = t0 + ∑ k in Finset.range n, f k :=
  loop_adds (fun t => t) (fun _ _ _ => rfl) t0

/-- A loop on a pair whose components evolve independently. -/
theorem loop_pair {σ τ : Type} (n : Nat) (f : Nat → σ → σ) (g : Nat → τ → τ) (s : σ × τ) :
    loop n (fun k st => (f k st.1, g k st.2)) s = (loop n f s.1, loop n g s.2) := by
  induction n with
  | zero => rfl
  | succ n ih => simp only [loop_succ, ih]

/-! ### Sampling loops -/

theorem foldl_keeps {σ β : Type} (obs : σ → β) (l : List Nat) {body : Nat → σ → σ}
    (h : ∀ k, k ∈ l → ∀ s, obs (body k s) = obs s) (s : σ) :
    obs (l.foldl (fun st k => body k st) s) = obs s := by
  induction l generalizing s with
  | nil => rfl
  | cons x xs ih =>
    rw [List.foldl_cons, ih (fun k hk => h k (List.mem_cons_of_mem _ hk)),
      h x (List.mem_cons_self _ _)]

theorem foldl_adds {σ β : Type} [AddCommMonoid β] (obs : σ → β) (l : List Nat)
    {body : Nat → σ → σ} {g : Nat → β}
    (h : ∀ k, k ∈ l → ∀ s, obs (body k s) = obs s + g k) (s : σ) :
    obs (l.foldl (fun st k => body k st) s) = obs s + (l.map g).sum := by
  induction l generalizing s with
  | nil => simp
  | cons x xs ih =>
    rw [List.foldl_cons, ih (fun k hk => h k (List.mem_cons_of_mem _ hk)),
      h x (List.mem_cons_self _ _), List.map_cons, List.sum_cons, add_assoc]

theorem foldl_inv {σ : Type} (P : σ → Prop) (l : List Nat) {body : Nat → σ → σ}
    (h : ∀ k, k ∈ l → ∀ s, P s → P (body k s)) {s : σ} (hs : P s) :
    P (l.foldl (fun st k => body k st) s) := by
  induction l generalizing s with
  | nil => exact hs
  | cons x xs ih =>
    rw [List.foldl_cons]
    exact ih (fun k hk => h k (List.mem_cons_of_mem _ hk)) (h x (List.mem_cons_self _ _) _ hs)

end SpmBrainwarp

namespace SpmBrainwarp

section Field

variable {R : Type} [LinearOrderedCommRing R]

theorem upd3_same {α : Type} (J : Nat → Nat → Nat → α) (i2 i1 x : Nat) (v : α) :
    upd3 J i2 i1 x v i2 i1 x = v := by
  simp [upd3]

theorem upd3_other {α : Type} (J : Nat → Nat → Nat → α) {i2 i1 x p q r : Nat} (v : α)
    (h : ¬(p = i2 ∧ q = i1 ∧ r = x)) : upd3 J i2 i1 x v p q r = J p q r := by
  simp [upd3, h]

/-- A loop `for i2 < 3: J[i2][i1][x1] = v i2` sets the entry `J[p][i1][x1]`. -/
theorem loop_upd3_hit {α : Type} (J : Nat → Nat → Nat → α) (v : Nat → α) (i1 x1 p : Nat)
    (hp : p < 3) : loop 3 (fun i2 J => upd3 J i2 i1 x1 (v i2)) J p i1 x1 = v p := by
  refine loop_sets (fun J => J p i1 x1) p hp ?_ ?_ J
  · intro J; exact upd3_same _ _ _ _ _
  · intro k _ hk J
    exact upd3_other _ _ (by omega)

theorem loop_upd3_miss {α : Type} (J : Nat → Nat → Nat → α) (v : Nat → α) (i1 x1 p q r : Nat)
    (h : ¬(q = i1 ∧ r = x1)) : loop 3 (fun i2 J => upd3 J i2 i1 x1 (v i2)) J p q r = J p q r := by
  refine loop_keeps (fun J => J p q r) ?_ J
  intro k _ J
  exact upd3_other _ _ (by tauto)

/-- After `buildZ`, `Tz[ny*nx*i1 + x1]` holds the z contraction, whatever `Tz` held before. -/
theorem buildZ_fst (a : Args R) (sz : Nat) (st : (Nat → R) × (Nat → Nat → Nat → R))
    {i1 x1 : Nat} (hi : i1 < 3) (hx : x1 < a.nx * a.ny) :
    (buildZ a sz st).1 (a.ny * a.nx * i1 + x1) = tzVal a sz i1 x1 := by
  have hc : a.nx * a.ny = a.ny * a.nx := Nat.mul_comm _ _
  rw [hc] at hx
  unfold buildZ
  rw [hc]
  refine loop_sets (fun st => st.1 (a.ny * a.nx * i1 + x1)) i1 hi ?_ ?_ st
  · intro s
    refine loop_sets (fun st => st.1 (a.ny * a.nx * i1 + x1)) x1 hx ?_ ?_ s
    · intro s; exact upd_same _ _ _
    · intro k _ hk s
      exact upd_other _ _ (by omega)
  · intro k hk3 hk s
    refine loop_keeps (fun st => st.1 (a.ny * a.nx * i1 + x1)) ?_ s
    intro k' hk' s
    refine upd_other _ _ ?_
    have : a.ny * a.nx * (i1 + 1) ≤ a.ny * a.nx * k := Nat.mul_le_mul_left _ hk
    rw [Nat.mul_add, Nat.mul_one] at this
    omega

/-- After `buildZ`, `Jz[i2][i1][x1]` holds the z contraction. -/
theorem buildZ_snd (a : Args R) (sz : Nat) (st : (Nat → R) × (Nat → Nat → Nat → R))
    {i2 i1 x1 : Nat} (hi2 : i2 < 3) (hi : i1 < 3) (hx : x1 < a.nx * a.ny) :
    (buildZ a sz st).2 i2 i1 x1 = jzVal a sz i2 i1 x1 := by
  unfold buildZ
  refine loop_sets (fun st => st.2 i2 i1 x1) i1 hi ?_ ?_ st
  · intro s
    refine loop_sets (fun st => st.2 i2 i1 x1) x1 hx ?_ ?_ s
    · intro s; exact loop_upd3_hit _ _ _ _ _ hi2
    · intro k _ hk s
      exact loop_upd3_miss _ _ _ _ _ _ _ (by omega)
  · intro k _ hk s
    refine loop_keeps (fun st => st.2 i2 i1 x1) ?_ s
    intro k' _ s
    exact loop_upd3_miss _ _ _ _ _ _ _ (by omega)

/-- After `buildY`, `Ty[nx*i1 + x1]` holds the y contraction of `Tz`. -/
theorem buildY_fst (a : Args R) (sy : Nat) (Tz : Nat → R) (Jz : Nat → Nat → Nat → R)
    (st : (Nat → R) × (Nat → Nat → Nat → R)) {i1 x1 : Nat} (hi : i1 < 3) (hx : x1 < a.nx) :
    (buildY a sy Tz Jz st).1 (a.nx * i1 + x1) = tyVal a sy Tz i1 x1 := by
  unfold buildY
  refine loop_sets (fun st => st.1 (a.nx * i1 + x1)) i1 hi ?_ ?_ st
  · intro s
    refine loop_sets (fun st => st.1 (a.nx * i1 + x1)) x1 hx ?_ ?_ s
    · intro s; exact upd_same _ _ _
    · intro k _ hk s
      exact upd_other _ _ (by omega)
  · intro k hk3 hk s
    refine loop_keeps (fun st => st.1 (a.nx * i1 + x1)) ?_ s
    intro k' hk' s
    refine upd_other _ _ ?_
    have : a.nx * (i1 + 1) ≤ a.nx * k := Nat.mul_le_mul_left _ hk
    rw [Nat.mul_add, Nat.mul_one] at this
    omega

/-- After `buildY`, `Jy[i2][i1][x1]` holds the y contraction of `Jz`. -/
theorem buildY_snd (a : Args R) (sy : Nat) (Tz : Nat → R) (Jz : Nat → Nat → Nat → R)
    (st : (Nat → R) × (Nat → Nat → Nat → R)) {i2 i1 x1 : Nat} (hi2 : i2 < 3) (hi : i1 < 3)
    (hx : x1 < a.nx) : (buildY a sy Tz Jz st).2 i2 i1 x1 = jyVal a sy Jz i2 i1 x1 := by
  unfold buildY
  refine loop_sets (fun st => st.2 i2 i1 x1) i1 hi ?_ ?_ st
  · intro s
    refine loop_sets (fun st => st.2 i2 i1 x1) x1 hx ?_ ?_ s
    · intro s; exact loop_upd3_hit _ _ _ _ _ hi2
    · intro k _ hk s
      exact loop_upd3_miss _ _ _ _ _ _ _ (by omega)
  · intro k _ hk s
    refine loop_keeps (fun st => st.2 i2 i1 x1) ?_ s
    intro k' _ s
    exact loop_upd3_miss _ _ _ _ _ _ _ (by omega)

end Field

end SpmBrainwarp

namespace SpmBrainwarp

section Voxel

variable {R : Type} [LinearOrderedCommRing R]

theorem templateStep_dv (a : Args R) (s0 : Nat → Nat) (s2 : Nat → R) (i1 : Nat) (w : Vox R) :
    (templateStep a s0 s2 i1 w).dv = w.dv +
      -(tmplVal a i1 s0 *
        (scale1a a (i1 * 4) + scale1a a (i1 * 4 + 1) * s2 0 + scale1a a (i1 * 4 + 2) * s2 1
          + scale1a a (i1 * 4 + 3) * s2 2)) := by
  have h1 : i1 * 4 + 3 * a.nx ≠ i1 * 4 + 1 + 3 * a.nx := by omega
  have h2 : i1 * 4 + 3 * a.nx ≠ i1 * 4 + 2 + 3 * a.nx := by omega
  have h3 : i1 * 4 + 3 * a.nx ≠ i1 * 4 + 3 + 3 * a.nx := by omega
  have h4 : i1 * 4 + 1 + 3 * a.nx ≠ i1 * 4 + 2 + 3 * a.nx := by omega
  have h5 : i1 * 4 + 1 + 3 * a.nx ≠ i1 * 4 + 3 + 3 * a.nx := by omega
  have h6 : i1 * 4 + 2 + 3 * a.nx ≠ i1 * 4 + 3 + 3 * a.nx := by omega
  simp only [templateStep, tmplVal, upd_same, upd_other _ _ h1, upd_other _ _ h2,
    upd_other _ _ h3, upd_other _ _ h4, upd_other _ _ h5, upd_other _ _ h6]
  ring

theorem templateStep_dvdt_hit (a : Args R) (s0 : Nat → Nat) (s2 : Nat → R) (i1 : Nat)
    (w : Vox R) {k : Nat} (hk : k < 4) :
    (templateStep a s0 s2 i1 w).dvdt (i1 * 4 + k + 3 * a.nx) = tmplVal a i1 s0 * coupling s2 k := by
  have h1 : i1 * 4 + 3 * a.nx ≠ i1 * 4 + 1 + 3 * a.nx := by omega
  have h2 : i1 * 4 + 3 * a.nx ≠ i1 * 4 + 2 + 3 * a.nx := by omega
  have h3 : i1 * 4 + 3 * a.nx ≠ i1 * 4 + 3 + 3 * a.nx := by omega
  have h4 : i1 * 4 + 1 + 3 * a.nx ≠ i1 * 4 + 2 + 3 * a.nx := by omega
  have h5 : i1 * 4 + 1 + 3 * a.nx ≠ i1 * 4 + 3 + 3 * a.nx := by omega
  have h6 : i1 * 4 + 2 + 3 * a.nx ≠ i1 * 4 + 3 + 3 * a.nx := by omega
  interval_cases k
  · simp only [templateStep, tmplVal, coupling, Nat.add_zero, upd_same, upd_other _ _ h1,
      upd_other _ _ h2, upd_other _ _ h3, mul_one]
  · simp only [templateStep, tmplVal, coupling, upd_same, upd_other _ _ h4, upd_other _ _ h5]
  · simp only [templateStep, tmplVal, coupling, upd_same, upd_other _ _ h6]
  · simp only [templateStep, tmplVal, coupling, upd_same]

theorem templateStep_dvdt_miss (a : Args R) (s0 : Nat → Nat) (s2 : Nat → R) (i1 : Nat)
    (w : Vox R) {j : Nat} (hj : ∀ k, k < 4 → j ≠ i1 * 4 + k + 3 * a.nx) :
    (templateStep a s0 s2 i1 w).dvdt j = w.dvdt j := by
  have h0 := hj 0 (by omega)
  have h1 := hj 1 (by omega)
  have h2 := hj 2 (by omega)
  have h3 := hj 3 (by omega)
  simp only [Nat.add_zero] at h0
  simp only [templateStep, upd_other _ _ h0, upd_other _ _ h1, upd_other _ _ h2,
    upd_other _ _ h3]

/-- The residual after the template loop. -/
theorem templates_dv (a : Args R) (s0 : Nat → Nat) (s2 : Nat → R) (w : Vox R) :
    (templates a s0 s2 w).dv = w.dv + ∑ t in Finset.range a.ni,
      -(tmplVal a t s0 *
        (scale1a a (t * 4) + scale1a a (t * 4 + 1) * s2 0 + scale1a a (t * 4 + 2) * s2 1
          + scale1a a (t * 4 + 3) * s2 2)) :=
  loop_adds (fun w => w.dv) (fun k _ w => templateStep_dv a s0 s2 k w) w

/-- The intensity entries of the design row after the template loop. -/
theorem templates_dvdt_hit (a : Args R) (s0 : Nat → Nat) (s2 : Nat → R) (w : Vox R)
    {t k : Nat} (ht : t < a.ni) (hk : k < 4) :
    (templates a s0 s2 w).dvdt (t * 4 + k + 3 * a.nx) = tmplVal a t s0 * coupling s2 k := by
  unfold templates
  refine loop_sets (fun w => w.dvdt (t * 4 + k + 3 * a.nx)) t ht ?_ ?_ w
  · intro w; exact templateStep_dvdt_hit a s0 s2 t w hk
  · intro t' _ hlt w
    exact templateStep_dvdt_miss a s0 s2 t' w (fun k' hk' => by omega)

/-- The template loop leaves the spatial entries of the design row alone. -/
theorem templates_dvdt_miss (a : Args R) (s0 : Nat → Nat) (s2 : Nat → R) (w : Vox R)
    {j : Nat} (hj : j < 3 * a.nx) : (templates a s0 s2 w).dvdt j = w.dvdt j := by
  unfold templates
  refine loop_keeps (fun w => w.dvdt j) ?_ w
  intro t _ w
  exact templateStep_dvdt_miss a s0 s2 t w (fun k' _ => by omega)

/-- The spatial entries of the design row. -/
theorem spatialRow_hit (a : Args R) (s0 : Nat → Nat) (d1 dvdt : Nat → R) {i1 x1 : Nat}
    (hi : i1 < 3) (hx : x1 < a.nx) :
    spatialRow a s0 d1 dvdt (i1 * a.nx + x1) = -d1 i1 * a.BX (dim1 a 0 * x1 + s0 0) := by
  unfold spatialRow
  refine loop_sets (fun d => d (i1 * a.nx + x1)) i1 hi ?_ ?_ dvdt
  · intro d
    refine loop_sets (fun d => d (i1 * a.nx + x1)) x1 hx ?_ ?_ d
    · intro d; exact upd_same _ _ _
    · intro k _ hk d
      exact upd_other _ _ (by omega)
  · intro k _ hk d
    refine loop_keeps (fun d => d (i1 * a.nx + x1)) ?_ d
    intro k' _ d
    refine upd_other _ _ ?_
    have : (i1 + 1) * a.nx ≤ k * a.nx := Nat.mul_le_mul_right _ hk
    rw [Nat.add_mul, Nat.one_mul] at this
    omega

theorem affine_congr (a : Args R) {tr tr' : Nat → R} (h0 : tr 0 = tr' 0) (h1 : tr 1 = tr' 1)
    (h2 : tr 2 = tr' 2) : affine a tr = affine a tr' := by
  funext k
  match k with
  | 0 => simp only [affine, h0, h1, h2]
  | 1 => simp only [affine, h0, h1, h2]
  | _ + 2 => simp only [affine, h0, h1, h2]

/-- `trans[i1]` reads `Ty` only at `i1*nx + x1`, `x1 < nx`. -/
theorem trans_congr (a : Args R) {Ty Ty' : Nat → R} (s0 : Nat → Nat) (i1 : Nat)
    (h : ∀ x1, x1 < a.nx → Ty (i1 * a.nx + x1) = Ty' (i1 * a.nx + x1)) :
    trans a Ty s0 i1 = trans a Ty' s0 i1 := by
  unfold trans
  rw [loop_congr (fun k hk s => by rw [h k hk])]

/-- `J[i2][i1]` reads `Jy[i2][i1]` only below `nx`. -/
theorem jac_congr (a : Args R) {Jy Jy' : Nat → Nat → Nat → R} (s0 : Nat → Nat) (i2 i1 : Nat)
    (h : ∀ x1, x1 < a.nx → Jy i2 i1 x1 = Jy' i2 i1 x1) :
    jac a Jy s0 i2 i1 = jac a Jy' s0 i2 i1 := by
  unfold jac
  rw [loop_congr (fun k hk s => by rw [h k hk])]

end Voxel

end SpmBrainwarp

namespace SpmBrainwarp

/-! ### Flat indices of a matrix with row length `m` -/

theorem idx2_inj {m r c r' c' : Nat} (hc : c < m) (hc' : c' < m)
    (h : m * r + c = m * r' + c') : r = r' ∧ c = c' := by
  have hr : r = r' := by
    rcases Nat.lt_trichotomy r r' with hlt | heq | hgt
    · have : m * (r + 1) ≤ m * r' := Nat.mul_le_mul_left _ hlt
      rw [Nat.mul_add, Nat.mul_one] at this
      omega
    · exact heq
    · have : m * (r' + 1) ≤ m * r := Nat.mul_le_mul_left _ hgt
      rw [Nat.mul_add, Nat.mul_one] at this
      omega
  subst hr
  exact ⟨rfl, by omega⟩

theorem idx2_ne {m r c s d : Nat} (hc : c < m) (hd : d < m) (h : ¬(r = s ∧ c = d)) :
    m * r + c ≠ m * s + d :=
  fun he => h (idx2_inj hc hd he)

theorem foldl_adds_inv {σ β : Type} [AddCommMonoid β] (P : σ → Prop) (obs : σ → β)
    (l : List Nat) {body : Nat → σ → σ} {g : Nat → β}
    (hP : ∀ k, k ∈ l → ∀ s, P s → P (body k s))
    (h : ∀ k, k ∈ l → ∀ s, P s → obs (body k s) = obs s + g k) {s : σ} (hs : P s) :
    obs (l.foldl (fun st k => body k st) s) = obs s + (l.map g).sum := by
  induction l generalizing s with
  | nil => simp
  | cons x xs ih =>
    rw [List.foldl_cons,
      ih (fun k hk => hP k (List.mem_cons_of_mem _ hk)) (fun k hk => h k (List.mem_cons_of_mem _ hk))
        (hP x (List.mem_cons_self _ _) s hs),
      h x (List.mem_cons_self _ _) s hs, List.map_cons, List.sum_cons, add_assoc]

section Accum

variable {R : Type} [LinearOrderedCommRing R]

/-- `zeroHalf` clears the lower half of the matrix. -/
theorem zeroHalf_fst_hit (m : Nat) (ab : (Nat → R) × (Nat → R)) {r c : Nat} (hr : r < m)
    (hc : c ≤ r) : (zeroHalf m ab).1 (m * r + c) = 0 := by
  unfold zeroHalf
  refine loop_sets (fun st => st.1 (m * r + c)) r hr ?_ ?_ ab
  · intro st
    dsimp only
    generalize st.1 = al
    refine loop_sets (fun al => al (m * r + c)) c (Nat.lt_succ_of_le hc) ?_ ?_ al
    · intro al; exact upd_same _ _ _
    · intro k _ hk al
      exact upd_other _ _ (by omega)
  · intro k hkm hk st
    dsimp only
    generalize st.1 = al
    refine loop_keeps (fun al => al (m * r + c)) ?_ al
    intro k' hk' al
    exact upd_other _ _ (idx2_ne (by omega) (by omega) (by omega))

/-- `zeroHalf` leaves the strict upper half of the matrix alone. -/
theorem zeroHalf_fst_miss (m : Nat) (ab : (Nat → R) × (Nat → R)) {r c : Nat} (hc : c < m)
    (hrc : r < c) : (zeroHalf m ab).1 (m * r + c) = ab.1 (m * r + c) := by
  unfold zeroHalf
  refine loop_keeps (fun st => st.1 (m * r + c)) ?_ ab
  intro k hk st
  dsimp only
  generalize st.1 = al
  refine loop_keeps (fun al => al (m * r + c)) ?_ al
  intro k' hk' al
  exact upd_other _ _ (idx2_ne (by omega) (by omega) (by omega))

/-- `zeroHalf` clears the vector. -/
theorem zeroHalf_snd_hit (m : Nat) (ab : (Nat → R) × (Nat → R)) {r : Nat} (hr : r < m) :
    (zeroHalf m ab).2 r = 0 := by
  unfold zeroHalf
  refine loop_sets (fun st => st.2 r) r hr ?_ ?_ ab
  · intro st; exact upd_same _ _ _
  · intro k _ hk st
    exact upd_other _ _ (by omega)

/-- The x stage adds the product of two entries of the design row to the lower half of
`alphax`. -/
theorem accumX_fst (m : Nat) (dvdt : Nat → R) (dv : R) (ab : (Nat → R) × (Nat → R)) {r c : Nat}
    (hr : r < m) (hc : c ≤ r) :
    (accumX m dvdt dv ab).1 (m * r + c) = ab.1 (m * r + c) + dvdt r * dvdt c := by
  unfold accumX
  refine loop_adds_once (fun st => st.1 (m * r + c)) r hr ?_ ?_ ab
  · intro st
    dsimp only
    generalize st.1 = al
    refine loop_adds_once (fun al => al (m * r + c)) c (Nat.lt_succ_of_le hc) ?_ ?_ al
    · intro al; exact upd_same _ _ _
    · intro k _ hk al
      exact upd_other _ _ (by omega)
  · intro k hkm hk st
    dsimp only
    generalize st.1 = al
    refine loop_keeps (fun al => al (m * r + c)) ?_ al
    intro k' hk' al
    exact upd_other _ _ (idx2_ne (by omega) (by omega) (by omega))

/-- The x stage leaves the strict upper half of `alphax` alone. -/
theorem accumX_fst_miss (m : Nat) (dvdt : Nat → R) (dv : R) (ab : (Nat → R) × (Nat → R))
    {r c : Nat} (hc : c < m) (hrc : r < c) :
    (accumX m dvdt dv ab).1 (m * r + c) = ab.1 (m * r + c) := by
  unfold accumX
  refine loop_keeps (fun st => st.1 (m * r + c)) ?_ ab
  intro k hk st
  dsimp only
  generalize st.1 = al
  refine loop_keeps (fun al => al (m * r + c)) ?_ al
  intro k' hk' al
  exact upd_other _ _ (idx2_ne (by omega) (by omega) (by omega))

/-- The x stage adds `dvdt[r]*dv` to `betax[r]`. -/
theorem accumX_snd (m : Nat) (dvdt : Nat → R) (dv : R) (ab : (Nat → R) × (Nat → R)) {r : Nat}
    (hr : r < m) : (accumX m dvdt dv ab).2 r = ab.2 r + dvdt r * dv := by
  unfold accumX
  refine loop_adds_once (fun st => st.2 r) r hr ?_ ?_ ab
  · intro st; exact upd_same _ _ _
  · intro k _ hk st
    exact upd_other _ _ (by omega)

end Accum

end SpmBrainwarp

namespace SpmBrainwarp

theorem digits_lt {x y n k : Nat} (hx : x < n) (hy : y < k) : x + y * n < n * k := by
  have h : (y + 1) * n ≤ k * n := Nat.mul_le_mul_right _ hy
  rw [Nat.add_mul, Nat.one_mul, Nat.mul_comm k n] at h
  omega

section Pixel

variable {R : Type} [LinearOrderedCommRing R]

theorem holdsZ_fieldZ (a : Args R) (sz : Nat) : HoldsZ a sz (fieldZ a sz).1 (fieldZ a sz).2 :=
  ⟨fun _ _ hi hx => buildZ_fst a sz _ hi hx, fun _ _ _ h2 hi hx => buildZ_snd a sz _ h2 hi hx⟩

theorem holdsZ_buildZ (a : Args R) (sz : Nat) (st : (Nat → R) × (Nat → Nat → Nat → R)) :
    HoldsZ a sz (buildZ a sz st).1 (buildZ a sz st).2 :=
  ⟨fun _ _ hi hx => buildZ_fst a sz _ hi hx, fun _ _ _ h2 hi hx => buildZ_snd a sz _ h2 hi hx⟩

/-- The y contraction reads `Tz` only where the z contraction wrote it. -/
theorem tyVal_congr (a : Args R) (sy sz : Nat) {Tz : Nat → R} {Jz : Nat → Nat → Nat → R}
    (h : HoldsZ a sz Tz Jz) {i1 x1 : Nat} (hi : i1 < 3) (hx : x1 < a.nx) :
    tyVal a sy Tz i1 x1 = tyVal a sy (fieldZ a sz).1 i1 x1 := by
  unfold tyVal
  refine loop_congr (fun y1 hy s => ?_) 0
  have hlt : x1 + y1 * a.nx < a.nx * a.ny := digits_lt hx hy
  have e : i1 * (a.ny * a.nx) + (x1 + y1 * a.nx) = a.ny * a.nx * i1 + (x1 + y1 * a.nx) := by
    rw [Nat.mul_comm i1]
  rw [e, h.1 i1 _ hi hlt, (holdsZ_fieldZ a sz).1 i1 _ hi hlt]

theorem jyVal_congr (a : Args R) (sy sz : Nat) {Tz : Nat → R} {Jz : Nat → Nat → Nat → R}
    (h : HoldsZ a sz Tz Jz) {i2 i1 x1 : Nat} (hi2 : i2 < 3) (hi : i1 < 3) (hx : x1 < a.nx) :
    jyVal a sy Jz i2 i1 x1 = jyVal a sy (fieldZ a sz).2 i2 i1 x1 := by
  unfold jyVal
  refine loop_congr (fun y1 hy s => ?_) 0
  have hlt : x1 + y1 * a.nx < a.nx * a.ny := digits_lt hx hy
  rw [h.2 i2 i1 _ hi2 hi hlt, (holdsZ_fieldZ a sz).2 i2 i1 _ hi2 hi hlt]

theorem holdsY_buildY (a : Args R) (sy sz : Nat) {Tz : Nat → R} {Jz : Nat → Nat → Nat → R}
    (h : HoldsZ a sz Tz Jz) (st : (Nat → R) × (Nat → Nat → Nat → R)) :
    HoldsY a sy sz (buildY a sy Tz Jz st).1 (buildY a sy Tz Jz st).2 :=
  ⟨fun i1 x1 hi hx => by rw [buildY_fst a sy Tz Jz st hi hx, tyVal_congr a sy sz h hi hx],
   fun i2 i1 x1 h2 hi hx => by
    rw [buildY_snd a sy Tz Jz st h2 hi hx, jyVal_congr a sy sz h h2 hi hx]⟩

theorem holdsY_fieldY (a : Args R) (sy sz : Nat) :
    HoldsY a sy sz (fieldY a sy sz).1 (fieldY a sy sz).2 :=
  holdsY_buildY a sy sz (holdsZ_fieldZ a sz) _

/-- In a row whose buffers hold the y contraction, `trans` is the grid point's. -/
theorem trans_of_holdsY (a : Args R) {sy sz : Nat} {Ty : Nat → R} {Jy : Nat → Nat → Nat → R}
    (h : HoldsY a sy sz Ty Jy) (sx i : Nat) (hi : i < 3) :
    trans a Ty (s0v sx sy sz) i = transAt a sx sy sz i := by
  unfold transAt
  refine trans_congr a _ i (fun x1 hx => ?_)
  rw [Nat.mul_comm i, h.1 i x1 hi hx, (holdsY_fieldY a sy sz).1 i x1 hi hx]

theorem jac_of_holdsY (a : Args R) {sy sz : Nat} {Ty : Nat → R} {Jy : Nat → Nat → Nat → R}
    (h : HoldsY a sy sz Ty Jy) (sx i2 i1 : Nat) (hi2 : i2 < 3) (hi : i1 < 3) :
    jac a Jy (s0v sx sy sz) i2 i1 = jacAt a sx sy sz i2 i1 := by
  unfold jacAt
  refine jac_congr a _ i2 i1 (fun x1 hx => ?_)
  rw [h.2 i2 i1 x1 hi2 hi hx, (holdsY_fieldY a sy sz).2 i2 i1 x1 hi2 hi hx]

theorem s2_of_holdsY (a : Args R) {sy sz : Nat} {Ty : Nat → R} {Jy : Nat → Nat → Nat → R}
    (h : HoldsY a sy sz Ty Jy) (sx : Nat) :
    affine a (trans a Ty (s0v sx sy sz)) = s2At a sx sy sz := by
  unfold s2At
  exact affine_congr a
    ((trans_of_holdsY a h sx 0 (by omega)).trans (trans_of_holdsY a (holdsY_fieldY a sy sz) sx 0 (by omega)).symm)
    ((trans_of_holdsY a h sx 1 (by omega)).trans (trans_of_holdsY a (holdsY_fieldY a sy sz) sx 1 (by omega)).symm)
    ((trans_of_holdsY a h sx 2 (by omega)).trans (trans_of_holdsY a (holdsY_fieldY a sy sz) sx 2 (by omega)).symm)

end Pixel

end SpmBrainwarp

namespace SpmBrainwarp

/-- Every index of the reduced design row is a spatial or an intensity entry. -/
theorem reduced_index_cases {nx ni r : Nat} (h : r < 3 * nx + ni * 4) :
    (∃ i x, i < 3 ∧ x < nx ∧ r = i * nx + x) ∨ (∃ t k, t < ni ∧ k < 4 ∧ r = t * 4 + k + 3 * nx) := by
  by_cases hr : r < 3 * nx
  · left
    have hpos : 0 < nx := by omega
    refine ⟨r / nx, r % nx, ?_, Nat.mod_lt _ hpos, ?_⟩
    · exact Nat.div_lt_of_lt_mul (by omega)
    · rw [Nat.mul_comm]; exact (Nat.div_add_mod r nx).symm
  · right
    exact ⟨(r - 3 * nx) / 4, (r - 3 * nx) % 4, by omega, by omega, by omega⟩

section PixelStep

variable {R : Type} [LinearOrderedCommRing R]

/-- The residual of a voxel: the moving-image sample less the templates' contributions. -/
theorem voxel_dv (a : Args R) (Ty : Nat → R) (Jy : Nat → Nat → Nat → R) (dvdt : Nat → R)
    (s0 : Nat → Nat) :
    (voxel a Ty Jy dvdt s0).dv =
      (a.vol2.resample (affine a (trans a Ty s0) 0) (affine a (trans a Ty s0) 1)
        (affine a (trans a Ty s0) 2)).val +
      ∑ t in Finset.range a.ni, -(tmplVal a t s0 *
        (scale1a a (t * 4) + scale1a a (t * 4 + 1) * affine a (trans a Ty s0) 0
          + scale1a a (t * 4 + 2) * affine a (trans a Ty s0) 1
          + scale1a a (t * 4 + 3) * affine a (trans a Ty s0) 2)) := by
  unfold voxel
  exact templates_dv a s0 _ _

theorem voxel_dvdt_spatial (a : Args R) (Ty : Nat → R) (Jy : Nat → Nat → Nat → R)
    (dvdt : Nat → R) (s0 : Nat → Nat) {i x : Nat} (hi : i < 3) (hx : x < a.nx) :
    (voxel a Ty Jy dvdt s0).dvdt (i * a.nx + x) =
      -dvds1 a (a.vol2.resample (affine a (trans a Ty s0) 0) (affine a (trans a Ty s0) 1)
        (affine a (trans a Ty s0) 2)).grad i * a.BX (dim1 a 0 * x + s0 0) := by
  unfold voxel
  have hlt : i * a.nx + x < 3 * a.nx := by
    have : (i + 1) * a.nx ≤ 3 * a.nx := Nat.mul_le_mul_right _ hi
    rw [Nat.add_mul, Nat.one_mul] at this
    omega
  dsimp only
  rw [templates_dvdt_miss a s0 _ _ hlt]
  exact spatialRow_hit a s0 _ _ hi hx

theorem voxel_dvdt_intensity (a : Args R) (Ty : Nat → R) (Jy : Nat → Nat → Nat → R)
    (dvdt : Nat → R) (s0 : Nat → Nat) {t k : Nat} (ht : t < a.ni) (hk : k < 4) :
    (voxel a Ty Jy dvdt s0).dvdt (t * 4 + k + 3 * a.nx) =
      tmplVal a t s0 * coupling (affine a (trans a Ty s0)) k := by
  unfold voxel
  exact templates_dvdt_hit a s0 _ _ ht hk

theorem voxAt_dv (a : Args R) (sx sy sz : Nat) :
    (voxAt a sx sy sz).dv = movVal a sx sy sz +
      ∑ t in Finset.range a.ni, -(tmplVal a t (s0v sx sy sz) *
        (scale1a a (t * 4) + scale1a a (t * 4 + 1) * s2At a sx sy sz 0
          + scale1a a (t * 4 + 2) * s2At a sx sy sz 1
          + scale1a a (t * 4 + 3) * s2At a sx sy sz 2)) :=
  voxel_dv a _ _ _ _

theorem voxAt_dvdt_spatial (a : Args R) (sx sy sz : Nat) {i x : Nat} (hi : i < 3)
    (hx : x < a.nx) :
    (voxAt a sx sy sz).dvdt (i * a.nx + x) = -gradAt a sx sy sz i * a.BX (dim1 a 0 * x + sx) :=
  voxel_dvdt_spatial a _ _ _ _ hi hx

theorem voxAt_dvdt_intensity (a : Args R) (sx sy sz : Nat) {t k : Nat} (ht : t < a.ni)
    (hk : k < 4) :
    (voxAt a sx sy sz).dvdt (t * 4 + k + 3 * a.nx) =
      tmplVal a t (s0v sx sy sz) * coupling (s2At a sx sy sz) k :=
  voxel_dvdt_intensity a _ _ _ _ ht hk

/-- In a row whose buffers hold the y contraction, the residual is the grid point's. -/
theorem voxel_dv_of_holdsY (a : Args R) {sy sz : Nat} {Ty : Nat → R}
    {Jy : Nat → Nat → Nat → R} (h : HoldsY a sy sz Ty Jy) (dvdt : Nat → R) (sx : Nat) :
    (voxel a Ty Jy dvdt (s0v sx sy sz)).dv = (voxAt a sx sy sz).dv := by
  rw [voxel_dv, voxAt_dv, s2_of_holdsY a h sx]
  rfl

/-- In a row whose buffers hold the y contraction, the design row is the grid point's. -/
theorem voxel_dvdt_of_holdsY (a : Args R) {sy sz : Nat} {Ty : Nat → R}
    {Jy : Nat → Nat → Nat → R} (h : HoldsY a sy sz Ty Jy) (dvdt : Nat → R) (sx : Nat)
    {r : Nat} (hr : r < 3 * a.nx + ni4 a) :
    (voxel a Ty Jy dvdt (s0v sx sy sz)).dvdt r = (voxAt a sx sy sz).dvdt r := by
  rcases reduced_index_cases hr with ⟨i, x, hi, hx, rfl⟩ | ⟨t, k, ht, hk, rfl⟩
  · rw [voxel_dvdt_spatial a _ _ _ _ hi hx, voxAt_dvdt_spatial a _ _ _ hi hx,
      s2_of_holdsY a h sx]
    rfl
  · rw [voxel_dvdt_intensity a _ _ _ _ ht hk, voxAt_dvdt_intensity a _ _ _ ht hk,
      s2_of_holdsY a h sx]

theorem pixel_frame (a : Args R) (sy sz sx : Nat) (st : State R) :
    (pixel a sy sz sx st).Ty = st.Ty ∧ (pixel a sy sz sx st).Jy = st.Jy ∧
    (pixel a sy sz sx st).Tz = st.Tz ∧ (pixel a sy sz sx st).Jz = st.Jz ∧
    (pixel a sy sz sx st).alphaxy = st.alphaxy ∧ (pixel a sy sz sx st).betaxy = st.betaxy ∧
    (pixel a sy sz sx st).alpha = st.alpha ∧ (pixel a sy sz sx st).beta = st.beta := by
  unfold pixel
  dsimp only
  split <;> exact ⟨rfl, rfl, rfl, rfl, rfl, rfl, rfl, rfl⟩

theorem pixel_holdsY (a : Args R) (sy sz sx : Nat) (st : State R)
    (h : HoldsY a sy sz st.Ty st.Jy) :
    HoldsY a sy sz (pixel a sy sz sx st).Ty (pixel a sy sz sx st).Jy := by
  rw [(pixel_frame a sy sz sx st).1, (pixel_frame a sy sz sx st).2.1]
  exact h

/-- An accepted voxel adds the square of its residual to `ss`. -/
theorem pixel_ss (a : Args R) (sy sz sx : Nat) (st : State R) (h : HoldsY a sy sz st.Ty st.Jy) :
    (pixel a sy sz sx st).ss = st.ss +
      (if accepted a sx sy sz then (voxAt a sx sy sz).dv * (voxAt a sx sy sz).dv else 0) := by
  unfold pixel accepted
  dsimp only
  rw [s2_of_holdsY a h sx]
  split
  · dsimp only
    rw [voxel_dv_of_holdsY a h]
  · rw [add_zero]

/-- An accepted voxel adds one to the sample count. -/
theorem pixel_nsamp (a : Args R) (sy sz sx : Nat) (st : State R)
    (h : HoldsY a sy sz st.Ty st.Jy) :
    (pixel a sy sz sx st).nsamp = st.nsamp + (if accepted a sx sy sz then 1 else 0) := by
  unfold pixel accepted
  dsimp only
  rw [s2_of_holdsY a h sx]
  split <;> rfl

/-- An accepted voxel adds the product of two entries of its design row to the lower half
of `alphax`. -/
theorem pixel_alphax (a : Args R) (sy sz sx : Nat) (st : State R)
    (h : HoldsY a sy sz st.Ty st.Jy) {r c : Nat} (hr : r < 3 * a.nx + ni4 a) (hc : c ≤ r) :
    (pixel a sy sz sx st).alphax ((3 * a.nx + ni4 a) * r + c) =
      st.alphax ((3 * a.nx + ni4 a) * r + c) +
      (if accepted a sx sy sz then (voxAt a sx sy sz).dvdt r * (voxAt a sx sy sz).dvdt c
       else 0) := by
  unfold pixel accepted
  dsimp only
  rw [s2_of_holdsY a h sx]
  split
  · dsimp only
    rw [accumX_fst _ _ _ _ hr hc, voxel_dvdt_of_holdsY a h _ _ hr,
      voxel_dvdt_of_holdsY a h _ _ (lt_of_le_of_lt hc hr)]
  · rw [add_zero]

/-- An accepted voxel adds the product of a design-row entry and its residual to `betax`. -/
theorem pixel_betax (a : Args R) (sy sz sx : Nat) (st : State R)
    (h : HoldsY a sy sz st.Ty st.Jy) {r : Nat} (hr : r < 3 * a.nx + ni4 a) :
    (pixel a sy sz sx st).betax r = st.betax r +
      (if accepted a sx sy sz then (voxAt a sx sy sz).dvdt r * (voxAt a sx sy sz).dv
       else 0) := by
  unfold pixel accepted
  dsimp only
  rw [s2_of_holdsY a h sx]
  split
  · dsimp only
    rw [accumX_snd _ _ _ _ hr, voxel_dvdt_of_holdsY a h _ _ hr, voxel_dv_of_holdsY a h]
  · rw [add_zero]

end PixelStep

end SpmBrainwarp

namespace SpmBrainwarp

section Threading

variable {R : Type} [LinearOrderedCommRing R]

/-- The pixel loop of a row adds up what the pixels add to an observation. -/
theorem xloop_adds {β : Type} [AddCommMonoid β] (obs : State R → β) (g : Nat → β)
    (a : Args R) (sy sz : Nat)
    (hstep : ∀ sx st, HoldsY a sy sz st.Ty st.Jy → obs (pixel a sy sz sx st) = obs st + g sx)
    (l : List Nat) (st : State R) (h : HoldsY a sy sz st.Ty st.Jy) :
    obs (l.foldl (fun st k => pixel a sy sz k st) st) = obs st + (l.map g).sum :=
  foldl_adds_inv (fun s => HoldsY a sy sz s.Ty s.Jy) obs l
    (fun k _ s hs => pixel_holdsY a sy sz k s hs) (fun k _ s hs => hstep k s hs) h

/-- The pixel loop keeps what every pixel keeps. -/
theorem xloop_keeps {β : Type} (obs : State R → β) (a : Args R) (sy sz : Nat)
    (hstep : ∀ sx st, obs (pixel a sy sz sx st) = obs st) (l : List Nat) (st : State R) :
    obs (l.foldl (fun st k => pixel a sy sz k st) st) = obs st :=
  foldl_keeps obs l (fun k _ s => hstep k s) st

theorem row_frame (a : Args R) (sz sy : Nat) (st : State R) :
    (row a sz sy st).Tz = st.Tz ∧ (row a sz sy st).Jz = st.Jz ∧
    (row a sz sy st).alpha = st.alpha ∧ (row a sz sy st).beta = st.beta := by
  unfold row forGrid
  dsimp only
  refine ⟨?_, ?_, ?_, ?_⟩
  · rw [xloop_keeps (fun s => s.Tz) a sy sz (fun sx s => (pixel_frame a sy sz sx s).2.2.1)]
  · rw [xloop_keeps (fun s => s.Jz) a sy sz (fun sx s => (pixel_frame a sy sz sx s).2.2.2.1)]
  · rw [xloop_keeps (fun s => s.alpha) a sy sz
      (fun sx s => (pixel_frame a sy sz sx s).2.2.2.2.2.2.1)]
  · rw [xloop_keeps (fun s => s.beta) a sy sz
      (fun sx s => (pixel_frame a sy sz sx s).2.2.2.2.2.2.2)]

theorem row_holdsZ (a : Args R) (sz sy : Nat) (st : State R) (h : HoldsZ a sz st.Tz st.Jz) :
    HoldsZ a sz (row a sz sy st).Tz (row a sz sy st).Jz := by
  rw [(row_frame a sz sy st).1, (row_frame a sz sy st).2.1]
  exact h

/-- Sum over the accepted voxels of a row. -/
theorem row_ss (a : Args R) (sz sy : Nat) (st : State R) (h : HoldsZ a sz st.Tz st.Jz) :
    (row a sz sy st).ss = st.ss + ((grid (dim1 a 0) (a.samp 0)).map fun sx =>
      if accepted a sx sy sz then (voxAt a sx sy sz).dv * (voxAt a sx sy sz).dv else 0).sum := by
  unfold row forGrid
  dsimp only
  rw [xloop_adds (fun s => s.ss) _ a sy sz (fun sx s hs => pixel_ss a sy sz sx s hs) _ _
    (holdsY_buildY a sy sz h _)]

theorem row_nsamp (a : Args R) (sz sy : Nat) (st : State R) (h : HoldsZ a sz st.Tz st.Jz) :
    (row a sz sy st).nsamp = st.nsamp + ((grid (dim1 a 0) (a.samp 0)).map fun sx =>
      if accepted a sx sy sz then 1 else 0).sum := by
  unfold row forGrid
  dsimp only
  rw [xloop_adds (fun s => s.nsamp) _ a sy sz (fun sx s hs => pixel_nsamp a sy sz sx s hs) _ _
    (holdsY_buildY a sy sz h _)]

/-- The row loop of a plane adds up what the rows add to an observation. -/
theorem yloop_adds {β : Type} [AddCommMonoid β] (obs : State R → β) (g : Nat → β)
    (a : Args R) (sz : Nat)
    (hstep : ∀ sy st, HoldsZ a sz st.Tz st.Jz → obs (row a sz sy st) = obs st + g sy)
    (l : List Nat) (st : State R) (h : HoldsZ a sz st.Tz st.Jz) :
    obs (l.foldl (fun st k => row a sz k st) st) = obs st + (l.map g).sum :=
  foldl_adds_inv (fun s => HoldsZ a sz s.Tz s.Jz) obs l
    (fun k _ s hs => row_holdsZ a sz k s hs) (fun k _ s hs => hstep k s hs) h

theorem plane_ss (a : Args R) (sz : Nat) (st : State R) :
    (plane a sz st).ss = st.ss + ((grid (dim1 a 1) (a.samp 1)).map fun sy =>
      ((grid (dim1 a 0) (a.samp 0)).map fun sx =>
        if accepted a sx sy sz then (voxAt a sx sy sz).dv * (voxAt a sx sy sz).dv
        else 0).sum).sum := by
  unfold plane forGrid
  dsimp only
  rw [yloop_adds (fun s => s.ss) _ a sz (fun sy s hs => row_ss a sz sy s hs) _ _
    (holdsZ_buildZ a sz _)]

theorem plane_nsamp (a : Args R) (sz : Nat) (st : State R) :
    (plane a sz st).nsamp = st.nsamp + ((grid (dim1 a 1) (a.samp 1)).map fun sy =>
      ((grid (dim1 a 0) (a.samp 0)).map fun sx =>
        if accepted a sx sy sz then 1 else 0).sum).sum := by
  unfold plane forGrid
  dsimp only
  rw [yloop_adds (fun s => s.nsamp) _ a sz (fun sy s hs => row_nsamp a sz sy s hs) _ _
    (holdsZ_buildZ a sz _)]

/-- The sum of squares returned by `mrqcof`, as a sum over the accepted voxels. -/
theorem mrqcof_ss (a : Args R) (alpha0 beta0 sd0 : Nat → R) :
    (mrqcof a alpha0 beta0 sd0).ss =
      voxelSum a (fun sx sy sz => (voxAt a sx sy sz).dv * (voxAt a sx sy sz).dv) := by
  unfold mrqcof accumulate forGrid voxelSum
  dsimp only
  rw [foldl_adds (fun s => s.ss) _ (fun sz _ s => plane_ss a sz s)]
  simp [initState]

/-- The sample count returned by `mrqcof`, as a sum over the accepted voxels. -/
theorem mrqcof_nsamp (a : Args R) (alpha0 beta0 sd0 : Nat → R) :
    (mrqcof a alpha0 beta0 sd0).nsamp = voxelSum a (fun _ _ _ => 1) := by
  unfold mrqcof accumulate forGrid voxelSum
  dsimp only
  rw [foldl_adds (fun s => s.nsamp) _ (fun sz _ s => plane_nsamp a sz s)]
  simp [initState]

end Threading

end SpmBrainwarp

namespace SpmBrainwarp

/-! ## The sampling grid -/

theorem ceilDiv_step {d samp : Nat} (hs : 1 ≤ samp) (hd : 1 ≤ d) :
    d ⌈/⌉ samp = (d - samp) ⌈/⌉ samp + 1 := by
  rw [Nat.ceilDiv_eq_add_pred_div, Nat.ceilDiv_eq_add_pred_div]
  by_cases h : samp ≤ d
  · have e : d + samp - 1 = (d - samp + samp - 1) + samp := by omega
    rw [e, Nat.add_div_right _ (by omega : 0 < samp)]
  · have e : d - samp = 0 := by omega
    rw [e, Nat.zero_add, Nat.div_eq_of_lt (by omega : samp - 1 < samp)]
    exact Nat.div_eq_of_lt_le (by omega) (by omega)

/-- With a stride of at least one the fuel suffices: the loop visits `s, s+samp, ...`
below `dim`. -/
theorem gridLoop_eq_map {samp : Nat} (hs : 1 ≤ samp) (fuel s dim : Nat) (h : dim ≤ s + fuel) :
    gridLoop fuel s dim samp =
      (List.range ((dim - s) ⌈/⌉ samp)).map (fun j => s + j * samp) := by
  induction fuel generalizing s with
  | zero =>
    have e : dim - s = 0 := by omega
    rw [e, Nat.ceilDiv_eq_add_pred_div, Nat.zero_add, Nat.div_eq_of_lt (by omega)]
    rfl
  | succ fuel ih =>
    unfold gridLoop
    by_cases hlt : s < dim
    · rw [if_pos hlt, ih (s + samp) (by omega), ceilDiv_step hs (by omega : 1 ≤ dim - s),
        List.range_succ_eq_map, List.map_cons, List.map_map]
      have e : dim - (s + samp) = dim - s - samp := by omega
      rw [e]
      congr 1
      · simp
      · refine List.map_congr_left (fun j _ => ?_)
        simp only [Function.comp, Nat.succ_eq_add_one, Nat.add_mul, Nat.one_mul]
        omega
    · rw [if_neg hlt]
      have e : dim - s = 0 := by omega
      rw [e, Nat.ceilDiv_eq_add_pred_div, Nat.zero_add, Nat.div_eq_of_lt (by omega)]
      rfl

/-- The grid indices on an axis are `1, 1+samp, 1+2*samp, ...` below `dim`. -/
theorem grid_eq_map {samp : Nat} (hs : 1 ≤ samp) (dim : Nat) :
    grid dim samp = (List.range ((dim - 1) ⌈/⌉ samp)).map (fun j => 1 + j * samp) :=
  gridLoop_eq_map hs dim 1 dim (by omega)

theorem grid_length {samp : Nat} (hs : 1 ≤ samp) (dim : Nat) :
    (grid dim samp).length = (dim - 1) ⌈/⌉ samp := by
  rw [grid_eq_map hs, List.length_map, List.length_range]

theorem sum_indicator_le_length (l : List Nat) (P : Nat → Prop) [DecidablePred P] :
    (l.map fun x => if P x then 1 else 0).sum ≤ l.length := by
  induction l with
  | nil => simp
  | cons x xs ih =>
    rw [List.map_cons, List.sum_cons, List.length_cons]
    split <;> omega

theorem sum_le_length_mul (l : List Nat) (f : Nat → Nat) (c : Nat) (h : ∀ x, f x ≤ c) :
    (l.map f).sum ≤ l.length * c := by
  induction l with
  | nil => simp
  | cons x xs ih =>
    rw [List.map_cons, List.sum_cons, List.length_cons, Nat.add_mul, Nat.one_mul]
    have := h x
    omega

theorem sum_map_le_sum_map (l : List Nat) (f g : Nat → Nat) (h : ∀ x, f x ≤ g x) :
    (l.map f).sum ≤ (l.map g).sum := by
  induction l with
  | nil => simp
  | cons x xs ih =>
    rw [List.map_cons, List.sum_cons, List.map_cons, List.sum_cons]
    have := h x
    omega

end SpmBrainwarp

namespace SpmBrainwarp

section FieldClaims

variable {R : Type} [LinearOrderedCommRing R]

theorem tzVal_eq_sum (a : Args R) (sz i1 x1 : Nat) :
    tzVal a sz i1 x1 = ∑ z in Finset.range a.nz,
      a.T (i1 * (a.nz * a.ny * a.nx) + (x1 + z * a.ny * a.nx)) * a.BZ (dim1 a 2 * z + sz) := by
  unfold tzVal
  rw [loop_sum, zero_add]

theorem jzVal_eq_sum (a : Args R) (sz i2 i1 x1 : Nat) :
    jzVal a sz i2 i1 x1 = ∑ z in Finset.range a.nz,
      a.T (i1 * (a.nz * a.ny * a.nx) + (x1 + z * a.ny * a.nx)) * bz3 a i2 (dim1 a 2 * z + sz) := by
  unfold jzVal
  rw [loop_sum, zero_add]

/-- The warped coordinate at a grid point as a triple sum. -/
theorem transAt_eq_sum (a : Args R) (sx sy sz : Nat) {i : Nat} (hi : i < 3) :
    transAt a sx sy sz i = 1 + (∑ x in Finset.range a.nx, ∑ y in Finset.range a.ny,
      ∑ z in Finset.range a.nz,
        a.T (i * a.nx * a.ny * a.nz + x + a.nx * y + a.nx * a.ny * z)
          * a.BX (dim1 a 0 * x + sx) * a.BY (dim1 a 1 * y + sy) * a.BZ (dim1 a 2 * z + sz))
      + (s0v sx sy sz i : R) := by
  unfold transAt trans
  rw [loop_sum]
  congr 2
  refine Finset.sum_congr rfl (fun x hx => ?_)
  have hx' : x < a.nx := Finset.mem_range.mp hx
  have hY := (holdsY_fieldY a sy sz).1 i x hi hx'
  rw [Nat.mul_comm a.nx i] at hY
  rw [hY]
  unfold tyVal
  rw [loop_sum, zero_add, Finset.sum_mul]
  refine Finset.sum_congr rfl (fun y hy => ?_)
  have hy' : y < a.ny := Finset.mem_range.mp hy
  have hZ := (holdsZ_fieldZ a sz).1 i _ hi (digits_lt hx' hy')
  rw [Nat.mul_comm (a.ny * a.nx) i] at hZ
  rw [hZ, tzVal_eq_sum, Finset.sum_mul, Finset.sum_mul]
  refine Finset.sum_congr rfl (fun z _ => ?_)
  have e : i * (a.nz * a.ny * a.nx) + (x + y * a.nx + z * a.ny * a.nx)
      = i * a.nx * a.ny * a.nz + x + a.nx * y + a.nx * a.ny * z := by ring
  rw [e]
  simp only [s0v]
  ring

/-- The Jacobian entry at a grid point as a triple sum. -/
theorem jacAt_eq_sum (a : Args R) (sx sy sz : Nat) {i2 i1 : Nat} (hi2 : i2 < 3) (hi : i1 < 3) :
    jacAt a sx sy sz i2 i1 = (if i1 = i2 then 1 else 0) +
      ∑ x in Finset.range a.nx, ∑ y in Finset.range a.ny, ∑ z in Finset.range a.nz,
        a.T (i1 * a.nx * a.ny * a.nz + x + a.nx * y + a.nx * a.ny * z)
          * bx3 a i2 (dim1 a 0 * x + sx) * by3 a i2 (dim1 a 1 * y + sy)
          * bz3 a i2 (dim1 a 2 * z + sz) := by
  unfold jacAt jac
  rw [loop_sum]
  congr 1
  refine Finset.sum_congr rfl (fun x hx => ?_)
  have hx' : x < a.nx := Finset.mem_range.mp hx
  rw [(holdsY_fieldY a sy sz).2 i2 i1 x hi2 hi hx']
  unfold jyVal
  rw [loop_sum, zero_add, Finset.sum_mul]
  refine Finset.sum_congr rfl (fun y hy => ?_)
  have hy' : y < a.ny := Finset.mem_range.mp hy
  rw [(holdsZ_fieldZ a sz).2 i2 i1 _ hi2 hi (digits_lt hx' hy'), jzVal_eq_sum, Finset.sum_mul,
    Finset.sum_mul]
  refine Finset.sum_congr rfl (fun z _ => ?_)
  have e : i1 * (a.nz * a.ny * a.nx) + (x + y * a.nx + z * a.ny * a.nx)
      = i1 * a.nx * a.ny * a.nz + x + a.nx * y + a.nx * a.ny * z := by ring
  rw [e]
  simp only [s0v]
  ring

end FieldClaims

end SpmBrainwarp

namespace SpmBrainwarp

theorem flat3_lt {nx ny nz i x y z : Nat} (hi : i < 3) (hx : x < nx) (hy : y < ny)
    (hz : z < nz) : i * nx * ny * nz + x + nx * y + nx * ny * z < 3 * nx * ny * nz := by
  have h1 : x + y * nx < nx * ny := digits_lt hx hy
  have h2 : (x + y * nx) + z * (nx * ny) < nx * ny * nz := digits_lt h1 hz
  have h3 : (i + 1) * (nx * ny * nz) ≤ 3 * (nx * ny * nz) := Nat.mul_le_mul_right _ hi
  have e1 : i * nx * ny * nz = i * (nx * ny * nz) := by ring
  have e2 : 3 * nx * ny * nz = 3 * (nx * ny * nz) := by ring
  have e3 : nx * y = y * nx := Nat.mul_comm _ _
  have e4 : nx * ny * z = z * (nx * ny) := Nat.mul_comm _ _
  rw [Nat.add_mul, Nat.one_mul] at h3
  rw [e1, e2, e3, e4]
  omega

section FieldTheorems

variable {R : Type} [LinearOrderedCommRing R]

/-- C5: the incremental separable evaluation (contraction over z once per plane into `Tz`,
over y once per row into `Ty`, over x per voxel) equals the direct tensor-product sum: at
every grid point `s0 = (sx, sy, sz)` and for every component `i < 3`, whatever the buffers
held before, `trans[i] - (s0[i] + 1)` is the sum over `x < nx`, `y < ny`, `z < nz` of
`T[i*nx*ny*nz + x + nx*y + nx*ny*z] * BX[dim0*x + sx] * BY[dim1*y + sy] * BZ[dim2*z + sz]`. -/
theorem separable_evaluation_eq_tensor_sum (a : Args R)
    (stz sty : (Nat → R) × (Nat → Nat → Nat → R)) (sx sy sz i : Nat) (hi : i < 3) :
    trans a (buildY a sy (buildZ a sz stz).1 (buildZ a sz stz).2 sty).1 (s0v sx sy sz) i
        - ((s0v sx sy sz i : R) + 1) =
      ∑ x in Finset.range a.nx, ∑ y in Finset.range a.ny, ∑ z in Finset.range a.nz,
        a.T (i * a.nx * a.ny * a.nz + x + a.nx * y + a.nx * a.ny * z)
          * a.BX (dim1 a 0 * x + sx) * a.BY (dim1 a 1 * y + sy) * a.BZ (dim1 a 2 * z + sz) := by
  rw [trans_of_holdsY a (holdsY_buildY a sy sz (holdsZ_buildZ a sz stz) sty) sx i hi,
    transAt_eq_sum a sx sy sz hi]
  ring

/-- Witness of C5 on the degenerate input, second component, grid point `(1, 2, 1)`. -/
theorem separable_evaluation_eq_tensor_sum_witness :
    (1 : Nat) < 3 ∧
    trans degenerateArgs
        (buildY degenerateArgs 2 (buildZ degenerateArgs 1 (zeroBuf, fun _ _ _ => 0)).1
          (buildZ degenerateArgs 1 (zeroBuf, fun _ _ _ => 0)).2 (zeroBuf, fun _ _ _ => 0)).1
        (s0v 1 2 1) 1 - ((s0v 1 2 1 1 : ℤ) + 1) =
      ∑ x in Finset.range degenerateArgs.nx, ∑ y in Finset.range degenerateArgs.ny,
        ∑ z in Finset.range degenerateArgs.nz,
          degenerateArgs.T (1 * degenerateArgs.nx * degenerateArgs.ny * degenerateArgs.nz + x
              + degenerateArgs.nx * y + degenerateArgs.nx * degenerateArgs.ny * z)
            * degenerateArgs.BX (dim1 degenerateArgs 0 * x + 1)
            * degenerateArgs.BY (dim1 degenerateArgs 1 * y + 2)
            * degenerateArgs.BZ (dim1 degenerateArgs 2 * z + 1) :=
  ⟨by decide, separable_evaluation_eq_tensor_sum degenerateArgs _ _ 1 2 1 1 (by decide)⟩

omit [LinearOrderedCommRing R] in
theorem bx3_eq (a : Args R) {k : Nat} (hk : k < 3) :
    bx3 a k = if k = 0 then a.dBX else a.BX := by
  interval_cases k <;> simp [bx3]

omit [LinearOrderedCommRing R] in
theorem by3_eq (a : Args R) {k : Nat} (hk : k < 3) :
    by3 a k = if k = 1 then a.dBY else a.BY := by
  interval_cases k <;> simp [by3]

omit [LinearOrderedCommRing R] in
theorem bz3_eq (a : Args R) {k : Nat} (hk : k < 3) :
    bz3 a k = if k = 2 then a.dBZ else a.BZ := by
  interval_cases k <;> simp [bz3]

/-- C6: at every grid point and for every axis `ax < 3` and component `i < 3`, whatever the
buffers held before, the Jacobian entry `J[ax][i]` is `(1 if ax = i else 0)` plus the sum over
`x, y, z` of `T[i*nx*ny*nz + x + nx*y + nx*ny*z] * X * Y * Z`, the factor on axis `ax` being
the derivative basis (`dBX` if `ax = 0`, `dBY` if `ax = 1`, `dBZ` if `ax = 2`) and the other
two the value bases; with all deformation coefficients zero `J` is the identity. -/
theorem jacobian_eq_identity_plus_tensor_sum (a : Args R)
    (stz sty : (Nat → R) × (Nat → Nat → Nat → R)) (sx sy sz ax i : Nat) (hax : ax < 3)
    (hi : i < 3) :
    (jac a (buildY a sy (buildZ a sz stz).1 (buildZ a sz stz).2 sty).2 (s0v sx sy sz) ax i =
      (if ax = i then 1 else 0) +
      ∑ x in Finset.range a.nx, ∑ y in Finset.range a.ny, ∑ z in Finset.range a.nz,
        a.T (i * a.nx * a.ny * a.nz + x + a.nx * y + a.nx * a.ny * z)
          * (if ax = 0 then a.dBX else a.BX) (dim1 a 0 * x + sx)
          * (if ax = 1 then a.dBY else a.BY) (dim1 a 1 * y + sy)
          * (if ax = 2 then a.dBZ else a.BZ) (dim1 a 2 * z + sz)) ∧
    ((∀ k, k < 3 * a.nx * a.ny * a.nz → a.T k = 0) →
      jac a (buildY a sy (buildZ a sz stz).1 (buildZ a sz stz).2 sty).2 (s0v sx sy sz) ax i =
        if ax = i then 1 else 0) := by
  have hJ := jac_of_holdsY a (holdsY_buildY a sy sz (holdsZ_buildZ a sz stz) sty) sx ax i hax hi
  rw [hJ, jacAt_eq_sum a sx sy sz hax hi, bx3_eq a hax, by3_eq a hax, bz3_eq a hax]
  have hcond : (if i = ax then (1 : R) else 0) = if ax = i then 1 else 0 := by
    by_cases h : i = ax
    · subst h; simp
    · have h' : ¬ax = i := fun e => h e.symm
      simp [h, h']
  rw [hcond]
  refine ⟨rfl, fun hT => ?_⟩
  rw [add_right_eq_self]
  refine Finset.sum_eq_zero (fun x hx => Finset.sum_eq_zero (fun y hy =>
    Finset.sum_eq_zero (fun z hz => ?_)))
  rw [hT _ (flat3_lt hi (Finset.mem_range.mp hx) (Finset.mem_range.mp hy)
    (Finset.mem_range.mp hz))]
  simp

/-- Witness of C6 on the degenerate input: axis 0, component 0, grid point `(1, 1, 2)`. -/
theorem jacobian_eq_identity_plus_tensor_sum_witness :
    (0 : Nat) < 3 ∧ (∀ k, k < 3 * degenerateArgs.nx * degenerateArgs.ny * degenerateArgs.nz →
      degenerateArgs.T k = 0) ∧
    jac degenerateArgs
        (buildY degenerateArgs 1 (buildZ degenerateArgs 2 (zeroBuf, fun _ _ _ => 0)).1
          (buildZ degenerateArgs 2 (zeroBuf, fun _ _ _ => 0)).2 (zeroBuf, fun _ _ _ => 0)).2
        (s0v 1 1 2) 0 0 = if (0 : Nat) = 0 then 1 else 0 :=
  ⟨by decide, by decide,
    (jacobian_eq_identity_plus_tensor_sum degenerateArgs _ _ 1 1 2 0 0 (by decide)
      (by decide)).2 (by decide)⟩

end FieldTheorems

end SpmBrainwarp

namespace SpmBrainwarp

section CountTheorems

variable {R : Type} [LinearOrderedCommRing R]

theorem voxelSum_congr {β : Type} [AddCommMonoid β] (a : Args R) {f g : Nat → Nat → Nat → β}
    (h : ∀ sx sy sz, accepted a sx sy sz → f sx sy sz = g sx sy sz) :
    voxelSum a f = voxelSum a g := by
  unfold voxelSum
  congr 1
  refine List.map_congr_left (fun sz _ => ?_)
  congr 1
  refine List.map_congr_left (fun sy _ => ?_)
  congr 1
  refine List.map_congr_left (fun sx _ => ?_)
  by_cases hacc : accepted a sx sy sz
  · rw [if_pos hacc, if_pos hacc, h sx sy sz hacc]
  · rw [if_neg hacc, if_neg hacc]

/-- The residual computed by the template loop is the residual of the specification. -/
theorem voxAt_dv_eq_residual (a : Args R) (sx sy sz : Nat) :
    (voxAt a sx sy sz).dv = residual a sx sy sz := by
  rw [voxAt_dv, residual, Finset.sum_neg_distrib, ← sub_eq_add_neg]
  congr 1
  refine Finset.sum_congr rfl (fun t _ => ?_)
  have e0 : 3 * a.nx * a.ny * a.nz + 4 * t + 0 = 3 * a.nx * a.ny * a.nz + t * 4 := by omega
  have e1 : 3 * a.nx * a.ny * a.nz + 4 * t + 1 = 3 * a.nx * a.ny * a.nz + (t * 4 + 1) := by omega
  have e2 : 3 * a.nx * a.ny * a.nz + 4 * t + 2 = 3 * a.nx * a.ny * a.nz + (t * 4 + 2) := by omega
  have e3 : 3 * a.nx * a.ny * a.nz + 4 * t + 3 = 3 * a.nx * a.ny * a.nz + (t * 4 + 3) := by omega
  rw [e0, e1, e2, e3]
  rfl

/-- C10: the scalar `ss` returned by `mrqcof` is the sum over the accepted sampled voxels of
`dv^2`, where `dv = v - sum over templates t of tmpl_t * (a_t0 + a_t1*s2x + a_t2*s2y +
a_t3*s2z)`: `v` the moving-image sample at the transformed position `s2`, `tmpl_t` template
`t` sampled at the undeformed grid coordinate, `a_tk = T[3*nx*ny*nz + 4*t + k]`. -/
theorem ss_eq_sum_sq_residual (a : Args R) (alpha0 beta0 sd0 : Nat → R) :
    (mrqcof a alpha0 beta0 sd0).ss = voxelSum a (fun sx sy sz => residual a sx sy sz ^ 2) := by
  rw [mrqcof_ss]
  refine voxelSum_congr a (fun sx sy sz _ => ?_)
  rw [voxAt_dv_eq_residual, sq]

/-- Shrinking the edge margins keeps every accepted voxel accepted. -/
theorem accepted_mono (a : Args R) (e' : Nat → Int) (h : ∀ k, k < 3 → e' k ≤ a.edgeskip k)
    (sx sy sz : Nat) (hacc : accepted a sx sy sz) :
    accepted { a with edgeskip := e' } sx sy sz := by
  have h0 := h 0 (by omega)
  have h1 := h 1 (by omega)
  have h2 := h 2 (by omega)
  have hs : s2At { a with edgeskip := e' } sx sy sz = s2At a sx sy sz := rfl
  unfold accepted inRange at hacc ⊢
  rw [hs]
  dsimp only
  obtain ⟨a0, b0, a1, b1, a2, b2⟩ := hacc
  have c0 : ((1 + e' 0 : Int) : R) ≤ ((1 + a.edgeskip 0 : Int) : R) :=
    Int.cast_le.mpr (by omega)
  have c1 : ((1 + e' 1 : Int) : R) ≤ ((1 + a.edgeskip 1 : Int) : R) :=
    Int.cast_le.mpr (by omega)
  have c2 : ((1 + e' 2 : Int) : R) ≤ ((1 + a.edgeskip 2 : Int) : R) :=
    Int.cast_le.mpr (by omega)
  have d0 : (((a.vol2.dim 0 : Int) - a.edgeskip 0 : Int) : R)
      ≤ (((a.vol2.dim 0 : Int) - e' 0 : Int) : R) := Int.cast_le.mpr (by omega)
  have d1 : (((a.vol2.dim 1 : Int) - a.edgeskip 1 : Int) : R)
      ≤ (((a.vol2.dim 1 : Int) - e' 1 : Int) : R) := Int.cast_le.mpr (by omega)
  have d2 : (((a.vol2.dim 2 : Int) - a.edgeskip 2 : Int) : R)
      ≤ (((a.vol2.dim 2 : Int) - e' 2 : Int) : R) := Int.cast_le.mpr (by omega)
  exact ⟨le_trans c0 a0, lt_of_lt_of_le b0 d0, le_trans c1 a1, lt_of_lt_of_le b1 d1,
    le_trans c2 a2, lt_of_lt_of_le b2 d2⟩

/-- C8: the sample count does not decrease when the edge margins shrink: with all other
inputs fixed and `e'[k] <= e[k]` on each axis, the count returned with `edgeskip = e'` is at
least the count returned with `edgeskip = e`, because every voxel accepted under `e` is
accepted under `e'`.  (The bound `0 <= e'[k]` of the claim is not needed.) -/
theorem nsamp_mono_edgeskip (a : Args R) (e' : Nat → Int)
    (h : ∀ k, k < 3 → e' k ≤ a.edgeskip k) (alpha0 beta0 sd0 alpha0' beta0' sd0' : Nat → R) :
    (mrqcof a alpha0 beta0 sd0).nsamp
      ≤ (mrqcof { a with edgeskip := e' } alpha0' beta0' sd0').nsamp ∧
    ∀ sx sy sz, accepted a sx sy sz → accepted { a with edgeskip := e' } sx sy sz := by
  refine ⟨?_, accepted_mono a e' h⟩
  rw [mrqcof_nsamp, mrqcof_nsamp]
  unfold voxelSum
  refine sum_map_le_sum_map _ _ _ (fun sz => ?_)
  refine sum_map_le_sum_map _ _ _ (fun sy => ?_)
  refine sum_map_le_sum_map _ _ _ (fun sx => ?_)
  by_cases hacc : accepted a sx sy sz
  · rw [if_pos hacc, if_pos (accepted_mono a e' h sx sy sz hacc)]
  · rw [if_neg hacc]
    exact Nat.zero_le _

/-- Witness of C8: the degenerate input with margin 1, against margin 0. -/
theorem nsamp_mono_edgeskip_witness :
    (∀ k, k < 3 → (fun _ => (0 : Int)) k ≤ ({ degenerateArgs with edgeskip := fun _ => 1 }
      : Args ℤ).edgeskip k) ∧
    (mrqcof ({ degenerateArgs with edgeskip := fun _ => 1 } : Args ℤ) zeroBuf zeroBuf
      zeroBuf).nsamp
      ≤ (mrqcof { ({ degenerateArgs with edgeskip := fun _ => 1 } : Args ℤ) with
          edgeskip := fun _ => 0 } zeroBuf zeroBuf zeroBuf).nsamp :=
  ⟨by decide,
    (nsamp_mono_edgeskip ({ degenerateArgs with edgeskip := fun _ => 1 } : Args ℤ)
      (fun _ => 0) (by decide) zeroBuf zeroBuf zeroBuf zeroBuf zeroBuf zeroBuf).1⟩

/-- C9: with strides `samp[k] >= 1` the sample count returned by `mrqcof` is at most the
number of grid points visited, the product over the axes of `ceil((dim[k] - 1) / samp[k])`,
the grid indices visited on axis `k` being `1, 1+samp[k], 1+2*samp[k], ...` below `dim[k]`
(the count is a natural number, so it is at least 0). -/
theorem nsamp_le_grid_points (a : Args R) (alpha0 beta0 sd0 : Nat → R)
    (hs : ∀ k, k < 3 → 1 ≤ a.samp k) :
    (mrqcof a alpha0 beta0 sd0).nsamp
      ≤ ((dim1 a 0 - 1) ⌈/⌉ a.samp 0) * ((dim1 a 1 - 1) ⌈/⌉ a.samp 1)
          * ((dim1 a 2 - 1) ⌈/⌉ a.samp 2) ∧
    ∀ k, k < 3 → grid (dim1 a k) (a.samp k)
      = (List.range ((dim1 a k - 1) ⌈/⌉ a.samp k)).map (fun j => 1 + j * a.samp k) := by
  refine ⟨?_, fun k hk => grid_eq_map (hs k hk) _⟩
  rw [mrqcof_nsamp]
  unfold voxelSum
  have hx := grid_length (hs 0 (by omega)) (dim1 a 0)
  have hy := grid_length (hs 1 (by omega)) (dim1 a 1)
  have hz := grid_length (hs 2 (by omega)) (dim1 a 2)
  rw [← hx, ← hy, ← hz]
  have inner : ∀ sz sy, ((grid (dim1 a 0) (a.samp 0)).map fun sx =>
      if accepted a sx sy sz then 1 else 0).sum ≤ (grid (dim1 a 0) (a.samp 0)).length :=
    fun sz sy => sum_indicator_le_length _ _
  have mid : ∀ sz, ((grid (dim1 a 1) (a.samp 1)).map fun sy =>
      ((grid (dim1 a 0) (a.samp 0)).map fun sx =>
        if accepted a sx sy sz then 1 else 0).sum).sum
      ≤ (grid (dim1 a 1) (a.samp 1)).length * (grid (dim1 a 0) (a.samp 0)).length :=
    fun sz => sum_le_length_mul _ _ _ (inner sz)
  have outer := sum_le_length_mul (grid (dim1 a 2) (a.samp 2)) _ _ mid
  calc _ ≤ _ := outer
    _ = _ := by ring

/-- Witness of C9 on the degenerate input (stride 1 on every axis). -/
theorem nsamp_le_grid_points_witness :
    (∀ k, k < 3 → 1 ≤ degenerateArgs.samp k) ∧
    (mrqcof degenerateArgs zeroBuf zeroBuf zeroBuf).nsamp
      ≤ ((dim1 degenerateArgs 0 - 1) ⌈/⌉ degenerateArgs.samp 0)
          * ((dim1 degenerateArgs 1 - 1) ⌈/⌉ degenerateArgs.samp 1)
          * ((dim1 degenerateArgs 2 - 1) ⌈/⌉ degenerateArgs.samp 2) :=
  ⟨by decide, (nsamp_le_grid_points degenerateArgs zeroBuf zeroBuf zeroBuf (by decide)).1⟩

/-- C7, evaluated on the code: in the degenerate case (one template, zero deformation
coefficients, intensity parameters `(1, 0, 0, 0)`, identity affine matrix, moving volume
identical to the template) with a volume whose value is its x coordinate, `mrqcof` accepts
one voxel and returns `ss = 1` and `beta[3] = 1`, not 0: the moving image is sampled at
`s0 + 1` and the template at `s0`. -/
theorem degenerate_case_residual :
    (mrqcof degenerateArgs zeroBuf zeroBuf zeroBuf).nsamp = 1 ∧
    (mrqcof degenerateArgs zeroBuf zeroBuf zeroBuf).ss = 1 ∧
    (mrqcof degenerateArgs zeroBuf zeroBuf zeroBuf).beta 3 = 1 ∧
    s2At degenerateArgs 1 1 1 0 = 2 ∧ residual degenerateArgs 1 1 1 = 1 := by
  decide

end CountTheorems

end SpmBrainwarp

namespace SpmBrainwarp

/-- If an observation is set to `v` by one iteration run on a state satisfying an invariant
of the loop, and every later iteration keeps it, the loop sets it to `v`. -/
theorem loop_sets_inv {σ β : Type} (P : σ → Prop) (obs : σ → β) {n : Nat}
    {body : Nat → σ → σ} {v : β} (k0 : Nat) (hk0 : k0 < n)
    (hP : ∀ k, k < n → ∀ s, P s → P (body k s))
    (hit : ∀ s, P s → obs (body k0 s) = v)
    (miss : ∀ k, k < n → k0 < k → ∀ s, obs (body k s) = obs s) {s : σ} (hs : P s) :
    obs (loop n body s) = v := by
  induction n with
  | zero => omega
  | succ n ih =>
    rw [loop_succ]
    by_cases h : k0 = n
    · subst h
      exact hit _ (loop_inv P (fun k hk => hP k (Nat.lt_succ_of_lt hk)) hs)
    · have hlt : k0 < n := by omega
      rw [miss n (Nat.lt_succ_self n) hlt]
      exact ih hlt (fun k hk => hP k (Nat.lt_succ_of_lt hk))
        (fun k hk => miss k (Nat.lt_succ_of_lt hk))

section Mirror

variable {R : Type} [LinearOrderedCommRing R]

omit [LinearOrderedCommRing R] in
/-- A mirror pass leaves alone every entry that is not one of its destinations. -/
theorem mirror_miss (m off n : Nat) (al : Nat → R) {j : Nat}
    (h : ∀ x1, x1 < n → ∀ x2, x2 < x1 → j ≠ off + (m * x2 + x1)) :
    mirror m off n al j = al j := by
  unfold mirror
  refine loop_keeps (fun s => s j) ?_ al
  intro x1 hx1 s
  refine loop_keeps (fun s => s j) ?_ s
  intro x2 hx2 s
  exact upd_other _ _ (h x1 hx1 x2 hx2)

omit [LinearOrderedCommRing R] in
/-- A mirror pass copies the entry below the diagonal of its block onto the entry above. -/
theorem mirror_hit (m off n : Nat) (al : Nat → R) (hn : n ≤ m) {x1 x2 : Nat} (h1 : x1 < n)
    (h2 : x2 < x1) : mirror m off n al (off + (m * x2 + x1)) = al (off + (m * x1 + x2)) := by
  unfold mirror
  have keepSrc : ∀ k, k < n → ∀ k2, k2 < k → ∀ s : Nat → R,
      upd s (off + (m * k2 + k)) (s (off + (m * k + k2))) (off + (m * x1 + x2))
        = s (off + (m * x1 + x2)) := by
    intro k hk k2 hk2 s
    refine upd_other _ _ ?_
    have := idx2_ne (m := m) (r := x1) (c := x2) (s := k2) (d := k) (by omega) (by omega)
      (by omega)
    omega
  refine loop_sets_inv (fun s : Nat → R => s (off + (m * x1 + x2)) = al (off + (m * x1 + x2)))
    (fun s : Nat → R => s (off + (m * x2 + x1))) x1 h1 ?_ ?_ ?_ rfl
  · intro k hk s hs
    refine loop_inv (fun s : Nat → R => s (off + (m * x1 + x2)) = al (off + (m * x1 + x2))) ?_ hs
    intro k2 hk2 s hs
    rw [keepSrc k hk k2 hk2 s]
    exact hs
  · intro s hs
    refine loop_sets_inv (fun s : Nat → R => s (off + (m * x1 + x2)) = al (off + (m * x1 + x2)))
      (fun s : Nat → R => s (off + (m * x2 + x1))) x2 h2 ?_ ?_ ?_ hs
    · intro k2 hk2 s hs
      rw [keepSrc x1 h1 k2 hk2 s]
      exact hs
    · intro s hs
      exact (upd_same _ _ _).trans hs
    · intro k2 hk2 hlt s
      refine upd_other _ _ ?_
      have := idx2_ne (m := m) (r := x2) (c := x1) (s := k2) (d := x1) (by omega) (by omega)
        (by omega)
      omega
  · intro k hk hlt s
    refine loop_keeps (fun s => s (off + (m * x2 + x1))) ?_ s
    intro k2 hk2 s
    refine upd_other _ _ ?_
    have := idx2_ne (m := m) (r := x2) (c := x1) (s := k2) (d := k) (by omega) (by omega)
      (by omega)
    omega

/-- C2: the matrix `alpha` returned by `mrqcof` is exactly symmetric after the symmetrizer:
`alpha[m*i + j] = alpha[m*j + i]` for all `i, j < m`, `m = 3*nx*ny*nz + 4*N`, whatever the
inputs (the last mirror pass copies the whole lower triangle onto the upper one). -/
theorem alpha_symmetric (a : Args R) (alpha0 beta0 sd0 : Nat → R) (i j : Nat)
    (hi : i < 3 * a.nx * a.ny * a.nz + 4 * a.ni) (hj : j < 3 * a.nx * a.ny * a.nz + 4 * a.ni) :
    (mrqcof a alpha0 beta0 sd0).alpha ((3 * a.nx * a.ny * a.nz + 4 * a.ni) * i + j)
      = (mrqcof a alpha0 beta0 sd0).alpha ((3 * a.nx * a.ny * a.nz + 4 * a.ni) * j + i) := by
  have hm : 3 * a.nx * a.ny * a.nz + 4 * a.ni = 3 * a.nx * a.ny * a.nz + ni4 a := by
    unfold ni4; omega
  have hn : a.nx * a.ny * a.nz * 3 + ni4 a = 3 * a.nx * a.ny * a.nz + ni4 a := by
    rw [Nat.mul_comm (a.nx * a.ny * a.nz) 3, ← Nat.mul_assoc, ← Nat.mul_assoc]
  rw [hm] at hi hj ⊢
  unfold mrqcof symmetrize
  dsimp only
  rw [hn]
  generalize 3 * a.nx * a.ny * a.nz + ni4 a = m at hi hj
  generalize symLoops _ _ 3 0 _ (accumulate a alpha0 beta0 sd0).alpha = al
  have key : ∀ p q, p < q → q < m →
      mirror m 0 m al (m * p + q) = mirror m 0 m al (m * q + p) := by
    intro p q hpq hq
    have h1 := mirror_hit m 0 m al (le_refl m) hq hpq
    have h2 : mirror m 0 m al (m * q + p) = al (m * q + p) := by
      refine mirror_miss m 0 m al (fun x1 hx1 x2 hx2 => ?_)
      have := idx2_ne (m := m) (r := q) (c := p) (s := x2) (d := x1) (by omega) (by omega)
        (by omega)
      omega
    rw [Nat.zero_add] at h1
    rw [Nat.zero_add] at h1
    rw [h1, h2]
  rcases Nat.lt_trichotomy i j with h | h | h
  · exact key i j h hj
  · subst h; rfl
  · exact (key j i h hi).symm

/-- Witness of C2 on the degenerate input: entries `(2, 5)` and `(5, 2)` of the 7x7 matrix. -/
theorem alpha_symmetric_witness :
    (2 : Nat) < 3 * degenerateArgs.nx * degenerateArgs.ny * degenerateArgs.nz
      + 4 * degenerateArgs.ni ∧
    (5 : Nat) < 3 * degenerateArgs.nx * degenerateArgs.ny * degenerateArgs.nz
      + 4 * degenerateArgs.ni ∧
    (mrqcof degenerateArgs zeroBuf zeroBuf zeroBuf).alpha
        ((3 * degenerateArgs.nx * degenerateArgs.ny * degenerateArgs.nz
          + 4 * degenerateArgs.ni) * 2 + 5)
      = (mrqcof degenerateArgs zeroBuf zeroBuf zeroBuf).alpha
        ((3 * degenerateArgs.nx * degenerateArgs.ny * degenerateArgs.nz
          + 4 * degenerateArgs.ni) * 5 + 2) :=
  ⟨by decide, by decide,
    alpha_symmetric degenerateArgs zeroBuf zeroBuf zeroBuf 2 5 (by decide) (by decide)⟩

end Mirror

end SpmBrainwarp

namespace SpmBrainwarp

/-! ### Indices of the Kronecker stages -/

theorem ss_index (n k m1 i1 y1 x1 i2 y2 x2 : Nat) :
    n * (m1 * (k * i1 + y1) + k * i2 + y2) + (m1 * x1 + x2)
      = m1 * (n * (k * i1 + y1) + x1) + (n * (k * i2 + y2) + x2) := by ring

theorem si_index (n k m1 t i y x : Nat) :
    n * (m1 * k * 3 + k * i + y) + (m1 * t + x)
      = m1 * (3 * n * k + t) + (n * (k * i + y) + x) := by ring

theorem ii_index (n k m1 t1 t2 : Nat) :
    n * (m1 * k * 3 + k * 3) + (m1 * t1 + t2)
      = m1 * (3 * n * k + t1) + (3 * n * k + t2) := by ring

theorem digits3_lt {n k i y x : Nat} (hi : i < 3) (hy : y < k) (hx : x < n) :
    n * (k * i + y) + x < 3 * n * k := by
  have h1 : y + i * k < k * 3 := digits_lt hy hi
  have h2 : x + (y + i * k) * n < n * (k * 3) := digits_lt hx h1
  have e1 : n * (k * i + y) + x = x + (y + i * k) * n := by ring
  have e2 : 3 * n * k = n * (k * 3) := by ring
  rw [e1, e2]
  exact h2

theorem digits3_inj {n k i y x i' y' x' : Nat} (hy : y < k) (hx : x < n) (hy' : y' < k)
    (hx' : x' < n) (h : n * (k * i + y) + x = n * (k * i' + y') + x') :
    i = i' ∧ y = y' ∧ x = x' := by
  obtain ⟨h1, h2⟩ := idx2_inj hx hx' h
  obtain ⟨h3, h4⟩ := idx2_inj hy hy' h1
  exact ⟨h3, h4, h2⟩

section Blocks

variable {R : Type} [LinearOrderedCommRing R]

/-- A triangular block pass adds the weighted source entry to each entry of the block's
lower half. -/
theorem blockTri_hit (m1 m2 ptr1 ptr2 n : Nat) (wt : R) (src al : Nat → R) (hn : n ≤ m1)
    {x1 x2 : Nat} (h1 : x1 < n) (h2 : x2 ≤ x1) :
    blockTri m1 m2 ptr1 ptr2 n wt src al (ptr1 + (m1 * x1 + x2))
      = al (ptr1 + (m1 * x1 + x2)) + wt * src (ptr2 + (m2 * x1 + x2)) := by
  unfold blockTri
  refine loop_adds_once (fun s : Nat → R => s (ptr1 + (m1 * x1 + x2))) x1 h1 ?_ ?_ al
  · intro s
    refine loop_adds_once (fun s : Nat → R => s (ptr1 + (m1 * x1 + x2))) x2
      (Nat.lt_succ_of_le h2) ?_ ?_ s
    · intro s; exact upd_same _ _ _
    · intro k2 _ hk s
      exact upd_other _ _ (by omega)
  · intro k hk hne s
    refine loop_keeps (fun s : Nat → R => s (ptr1 + (m1 * x1 + x2))) ?_ s
    intro k2 hk2 s
    refine upd_other _ _ ?_
    have := idx2_ne (m := m1) (r := x1) (c := x2) (s := k) (d := k2) (by omega) (by omega)
      (by omega)
    omega

/-- A triangular block pass leaves alone every entry outside the block's lower half. -/
theorem blockTri_miss (m1 m2 ptr1 ptr2 n : Nat) (wt : R) (src al : Nat → R) {j : Nat}
    (h : ∀ x1, x1 < n → ∀ x2, x2 ≤ x1 → j ≠ ptr1 + (m1 * x1 + x2)) :
    blockTri m1 m2 ptr1 ptr2 n wt src al j = al j := by
  unfold blockTri
  refine loop_keeps (fun s : Nat → R => s j) ?_ al
  intro x1 hx1 s
  refine loop_keeps (fun s : Nat → R => s j) ?_ s
  intro x2 hx2 s
  exact upd_other _ _ (h x1 hx1 x2 (Nat.le_of_lt_succ hx2))

/-- A rectangular block pass adds the weighted source entry to each entry of the block. -/
theorem blockRect_hit (m1 m2 ptr1 ptr2 rows cols : Nat) (wt : R) (src al : Nat → R)
    (hc : cols ≤ m1) {x1 x2 : Nat} (h1 : x1 < rows) (h2 : x2 < cols) :
    blockRect m1 m2 ptr1 ptr2 rows cols wt src al (ptr1 + (m1 * x1 + x2))
      = al (ptr1 + (m1 * x1 + x2)) + wt * src (ptr2 + (m2 * x1 + x2)) := by
  unfold blockRect
  refine loop_adds_once (fun s : Nat → R => s (ptr1 + (m1 * x1 + x2))) x1 h1 ?_ ?_ al
  · intro s
    refine loop_adds_once (fun s : Nat → R => s (ptr1 + (m1 * x1 + x2))) x2 h2 ?_ ?_ s
    · intro s; exact upd_same _ _ _
    · intro k2 _ hk s
      exact upd_other _ _ (by omega)
  · intro k hk hne s
    refine loop_keeps (fun s : Nat → R => s (ptr1 + (m1 * x1 + x2))) ?_ s
    intro k2 hk2 s
    refine upd_other _ _ ?_
    have := idx2_ne (m := m1) (r := x1) (c := x2) (s := k) (d := k2) (by omega) (by omega)
      (by omega)
    omega

/-- A rectangular block pass leaves alone every entry outside the block. -/
theorem blockRect_miss (m1 m2 ptr1 ptr2 rows cols : Nat) (wt : R) (src al : Nat → R) {j : Nat}
    (h : ∀ x1, x1 < rows → ∀ x2, x2 < cols → j ≠ ptr1 + (m1 * x1 + x2)) :
    blockRect m1 m2 ptr1 ptr2 rows cols wt src al j = al j := by
  unfold blockRect
  refine loop_keeps (fun s : Nat → R => s j) ?_ al
  intro x1 hx1 s
  refine loop_keeps (fun s : Nat → R => s j) ?_ s
  intro x2 hx2 s
  exact upd_other _ _ (h x1 hx1 x2 hx2)

end Blocks

end SpmBrainwarp

namespace SpmBrainwarp

theorem le_three_mul {n k : Nat} (hk : 0 < k) : n ≤ 3 * n * k := by
  have h : n * 1 ≤ n * (3 * k) := Nat.mul_le_mul_left n (by omega)
  have e : 3 * n * k = n * (3 * k) := by ring
  rw [e]
  omega

/-- An entry of a spatial-spatial block, by row and column. -/
theorem ss_block_eq {n k ni4 m1 R C i1 y1 x1 i2 y2 x2 : Nat} (hm : 3 * n * k + ni4 ≤ m1)
    (hC : C < m1) (hi2 : i2 < 3) (hy2 : y2 < k) (hx2 : x2 < n)
    (h : m1 * R + C = n * (m1 * (k * i1 + y1) + k * i2 + y2) + (m1 * x1 + x2)) :
    R = n * (k * i1 + y1) + x1 ∧ C = n * (k * i2 + y2) + x2 := by
  rw [ss_index] at h
  have := digits3_lt hi2 hy2 hx2
  exact idx2_inj hC (by omega) h

/-- An entry of an intensity-spatial block, by row and column. -/
theorem si_block_eq {n k ni4 m1 R C t i y x : Nat} (hm : 3 * n * k + ni4 ≤ m1)
    (hC : C < m1) (hi : i < 3) (hy : y < k) (hx : x < n)
    (h : m1 * R + C = n * (m1 * k * 3 + k * i + y) + (m1 * t + x)) :
    R = 3 * n * k + t ∧ C = n * (k * i + y) + x := by
  rw [si_index] at h
  have := digits3_lt hi hy hx
  exact idx2_inj hC (by omega) h

/-- An entry of the intensity-intensity block, by row and column. -/
theorem ii_block_eq {n k ni4 m1 R C t1 t2 : Nat} (hm : 3 * n * k + ni4 ≤ m1)
    (hC : C < m1) (ht2 : t2 < ni4)
    (h : m1 * R + C = n * (m1 * k * 3 + k * 3) + (m1 * t1 + t2)) :
    R = 3 * n * k + t1 ∧ C = 3 * n * k + t2 := by
  rw [ii_index] at h
  exact idx2_inj hC (by omega) h

section Kron

variable {R : Type} [LinearOrderedCommRing R]

/-- Lift of the spatial-spatial covariances: the entry of rows `(i1, y1, x1)` and column
`(i2, y2, x2)` receives `w y1 * w y2` times the source entry of `(i1, x1)`, `(i2, x2)`. -/
theorem kron_ss (n k ni4 m1 m2 : Nat) (w src srcb : Nat → R) (dst : (Nat → R) × (Nat → R))
    (hm : 3 * n * k + ni4 ≤ m1) {I1 Y1 X1 I2 Y2 X2 : Nat} (hI1 : I1 < 3) (hI2 : I2 ≤ I1)
    (hY1 : Y1 < k) (hY2 : Y2 ≤ Y1) (hX1 : X1 < n) (hX2 : X2 ≤ X1) :
    (kron n k ni4 m1 m2 w src srcb dst).1
        (m1 * (n * (k * I1 + Y1) + X1) + (n * (k * I2 + Y2) + X2))
      = dst.1 (m1 * (n * (k * I1 + Y1) + X1) + (n * (k * I2 + Y2) + X2))
        + w Y1 * w Y2 * src (m2 * (n * I1 + X1) + (n * I2 + X2)) := by
  have hC : n * (k * I2 + Y2) + X2 < m1 := by
    have := digits3_lt (n := n) (k := k) (i := I2) (y := Y2) (x := X2) (by omega) (by omega)
      (by omega)
    omega
  have hR := digits3_lt (n := n) (k := k) hI1 hY1 hX1
  have hn : n ≤ m1 := le_trans (le_three_mul (by omega : 0 < k)) (by omega)
  generalize hJ : m1 * (n * (k * I1 + Y1) + X1) + (n * (k * I2 + Y2) + X2) = J
  -- a spatial-spatial block other than the target's leaves the entry alone
  have ssMiss : ∀ i1 y1 i2 y2, y1 < k → i2 < 3 → y2 < k →
      ¬(i1 = I1 ∧ y1 = Y1 ∧ i2 = I2 ∧ y2 = Y2) →
      ∀ al : Nat → R, blockTri m1 m2 (n * (m1 * (k * i1 + y1) + k * i2 + y2))
        (n * (m2 * i1 + i2)) n (w y1 * w y2) src al J = al J := by
    intro i1 y1 i2 y2 hy1 hi2 hy2 hne al
    refine blockTri_miss _ _ _ _ _ _ _ _ (fun x1 hx1 x2 hx2 heq => hne ?_)
    rw [← hJ] at heq
    obtain ⟨hr, hc⟩ := ss_block_eq hm hC hi2 hy2 (by omega) heq
    obtain ⟨a1, a2, _⟩ := digits3_inj hY1 hX1 hy1 hx1 hr
    obtain ⟨b1, b2, _⟩ := digits3_inj (by omega) (by omega) hy2 (by omega) hc
    exact ⟨a1.symm, a2.symm, b1.symm, b2.symm⟩
  -- the intensity-spatial blocks leave the entry alone
  have siMiss : ∀ i y, i < 3 → y < k → ∀ al : Nat → R,
      blockRect m1 m2 (n * (m1 * k * 3 + k * i + y)) (n * (m2 * 3 + i)) ni4 n (w y) src al J
        = al J := by
    intro i y hi hy al
    refine blockRect_miss _ _ _ _ _ _ _ _ _ (fun x1 hx1 x2 hx2 heq => ?_)
    rw [← hJ] at heq
    obtain ⟨hr, _⟩ := si_block_eq hm hC hi hy hx2 heq
    omega
  unfold kron
  dsimp only
  refine (loop_keeps (fun st : (Nat → R) × (Nat → R) => st.1 J) ?_ _).trans ?_
  · intro t1 ht1 st
    dsimp only
    refine loop_keeps (fun s : Nat → R => s J) ?_ st.1
    intro t2 ht2 s
    refine upd_other _ _ (fun heq => ?_)
    rw [← hJ] at heq
    obtain ⟨hr, _⟩ := ii_block_eq hm hC (by omega : t2 < ni4) heq
    omega
  refine loop_adds_once (fun st : (Nat → R) × (Nat → R) => st.1 J) Y1 hY1 ?_ ?_ dst
  · intro st
    dsimp only
    refine loop_adds_once (fun st : (Nat → R) × (Nat → R) => st.1 J) I1 hI1 ?_ ?_ st
    · intro st
      dsimp only
      rw [siMiss I1 Y1 hI1 hY1]
      refine loop_adds_once (fun s : Nat → R => s J) I2 (Nat.lt_succ_of_le hI2) ?_ ?_ st.1
      · intro s
        dsimp only
        refine loop_adds_once (fun s : Nat → R => s J) Y2 (Nat.lt_succ_of_le hY2) ?_ ?_ s
        · intro s
          dsimp only
          have e : n * (m2 * I1 + I2) + (m2 * X1 + X2) = m2 * (n * I1 + X1) + (n * I2 + X2) := by
            ring
          rw [← hJ, ← ss_index, blockTri_hit _ _ _ _ _ _ _ _ hn hX1 hX2, e]
        · intro y2 hy2 hne s
          exact ssMiss I1 Y1 I2 y2 hY1 (by omega) (by omega) (by omega) s
      · intro i2 hi2 hne s
        dsimp only
        refine loop_keeps (fun s : Nat → R => s J) ?_ s
        intro y2 hy2 s
        exact ssMiss I1 Y1 i2 y2 hY1 (by omega) (by omega) (by omega) s
    · intro i1 hi1 hne st
      dsimp only
      rw [siMiss i1 Y1 hi1 hY1]
      refine loop_keeps (fun s : Nat → R => s J) ?_ st.1
      intro i2 hi2 s
      refine loop_keeps (fun s : Nat → R => s J) ?_ s
      intro y2 hy2 s
      exact ssMiss i1 Y1 i2 y2 hY1 (by omega) (by omega) (by omega) s
  · intro y1 hy1 hne st
    dsimp only
    refine loop_keeps (fun st : (Nat → R) × (Nat → R) => st.1 J) ?_ st
    intro i1 hi1 st
    dsimp only
    rw [siMiss i1 y1 hi1 hy1]
    refine loop_keeps (fun s : Nat → R => s J) ?_ st.1
    intro i2 hi2 s
    refine loop_keeps (fun s : Nat → R => s J) ?_ s
    intro y2 hy2 s
    exact ssMiss i1 y1 i2 y2 hy1 (by omega) (by omega) (by omega) s

end Kron

end SpmBrainwarp

namespace SpmBrainwarp

section KronMore

variable {R : Type} [LinearOrderedCommRing R]

/-- Lift of the spatial-intensity covariances: the entry of intensity row `t` and column
`(i, y, x)` receives `w y` times the source entry of row `t`, column `(i, x)`. -/
theorem kron_si (n k ni4 m1 m2 : Nat) (w src srcb : Nat → R) (dst : (Nat → R) × (Nat → R))
    (hm : 3 * n * k + ni4 ≤ m1) {T1 I Y X : Nat} (hT : T1 < ni4) (hI : I < 3) (hY : Y < k)
    (hX : X < n) :
    (kron n k ni4 m1 m2 w src srcb dst).1 (m1 * (3 * n * k + T1) + (n * (k * I + Y) + X))
      = dst.1 (m1 * (3 * n * k + T1) + (n * (k * I + Y) + X))
        + w Y * src (m2 * (3 * n + T1) + (n * I + X)) := by
  have hC : n * (k * I + Y) + X < m1 := by
    have := digits3_lt (n := n) (k := k) hI hY hX
    omega
  have hn : n ≤ m1 := le_trans (le_three_mul (by omega : 0 < k)) (by omega)
  generalize hJ : m1 * (3 * n * k + T1) + (n * (k * I + Y) + X) = J
  have ssMiss : ∀ i1 y1 i2 y2, i1 < 3 → y1 < k → i2 < 3 → y2 < k →
      ∀ al : Nat → R, blockTri m1 m2 (n * (m1 * (k * i1 + y1) + k * i2 + y2))
        (n * (m2 * i1 + i2)) n (w y1 * w y2) src al J = al J := by
    intro i1 y1 i2 y2 hi1 hy1 hi2 hy2 al
    refine blockTri_miss _ _ _ _ _ _ _ _ (fun x1 hx1 x2 hx2 heq => ?_)
    rw [← hJ] at heq
    obtain ⟨hr, _⟩ := ss_block_eq hm hC hi2 hy2 (by omega) heq
    have := digits3_lt (n := n) (k := k) hi1 hy1 hx1
    omega
  have nestMiss : ∀ i1 y1, i1 < 3 → y1 < k → ∀ al : Nat → R,
      loop (i1 + 1) (fun i2 al => loop (y1 + 1) (fun y2 al =>
        blockTri m1 m2 (n * (m1 * (k * i1 + y1) + k * i2 + y2)) (n * (m2 * i1 + i2)) n
          (w y1 * w y2) src al) al) al J = al J := by
    intro i1 y1 hi1 hy1 al
    refine loop_keeps (fun s : Nat → R => s J) ?_ al
    intro i2 hi2 s
    refine loop_keeps (fun s : Nat → R => s J) ?_ s
    intro y2 hy2 s
    exact ssMiss i1 y1 i2 y2 hi1 hy1 (by omega) (by omega) s
  have siMiss : ∀ i y, i < 3 → y < k → ¬(i = I ∧ y = Y) → ∀ al : Nat → R,
      blockRect m1 m2 (n * (m1 * k * 3 + k * i + y)) (n * (m2 * 3 + i)) ni4 n (w y) src al J
        = al J := by
    intro i y hi hy hne al
    refine blockRect_miss _ _ _ _ _ _ _ _ _ (fun x1 hx1 x2 hx2 heq => hne ?_)
    rw [← hJ] at heq
    obtain ⟨_, hc⟩ := si_block_eq hm hC hi hy hx2 heq
    obtain ⟨a1, a2, _⟩ := digits3_inj hY hX hy hx2 hc
    exact ⟨a1.symm, a2.symm⟩
  unfold kron
  dsimp only
  refine (loop_keeps (fun st : (Nat → R) × (Nat → R) => st.1 J) ?_ _).trans ?_
  · intro t1 ht1 st
    dsimp only
    refine loop_keeps (fun s : Nat → R => s J) ?_ st.1
    intro t2 ht2 s
    refine upd_other _ _ (fun heq => ?_)
    rw [← hJ] at heq
    obtain ⟨_, hc⟩ := ii_block_eq hm hC (by omega : t2 < ni4) heq
    have := digits3_lt (n := n) (k := k) hI hY hX
    omega
  refine loop_adds_once (fun st : (Nat → R) × (Nat → R) => st.1 J) Y hY ?_ ?_ dst
  · intro st
    dsimp only
    refine loop_adds_once (fun st : (Nat → R) × (Nat → R) => st.1 J) I hI ?_ ?_ st
    · intro st
      dsimp only
      have e : n * (m2 * 3 + I) + (m2 * T1 + X) = m2 * (3 * n + T1) + (n * I + X) := by ring
      rw [← hJ, ← si_index, blockRect_hit _ _ _ _ _ _ _ _ _ hn hT hX, e, si_index, hJ,
        nestMiss I Y hI hY]
    · intro i1 hi1 hne st
      dsimp only
      rw [siMiss i1 Y hi1 hY (by omega), nestMiss i1 Y hi1 hY]
  · intro y1 hy1 hne st
    dsimp only
    refine loop_keeps (fun st : (Nat → R) × (Nat → R) => st.1 J) ?_ st
    intro i1 hi1 st
    dsimp only
    rw [siMiss i1 y1 hi1 hy1 (by omega), nestMiss i1 y1 hi1 hy1]

/-- Lift of the intensity-intensity covariances: added unweighted. -/
theorem kron_ii (n k ni4 m1 m2 : Nat) (w src srcb : Nat → R) (dst : (Nat → R) × (Nat → R))
    (hm : 3 * n * k + ni4 ≤ m1) {T1 T2 : Nat} (hT1 : T1 < ni4) (hT2 : T2 ≤ T1) :
    (kron n k ni4 m1 m2 w src srcb dst).1 (m1 * (3 * n * k + T1) + (3 * n * k + T2))
      = dst.1 (m1 * (3 * n * k + T1) + (3 * n * k + T2))
        + src (m2 * (3 * n + T1) + (3 * n + T2)) := by
  have hC : 3 * n * k + T2 < m1 := by omega
  generalize hJ : m1 * (3 * n * k + T1) + (3 * n * k + T2) = J
  have ssMiss : ∀ i1 y1 i2 y2, i2 < 3 → y2 < k →
      ∀ al : Nat → R, blockTri m1 m2 (n * (m1 * (k * i1 + y1) + k * i2 + y2))
        (n * (m2 * i1 + i2)) n (w y1 * w y2) src al J = al J := by
    intro i1 y1 i2 y2 hi2 hy2 al
    refine blockTri_miss _ _ _ _ _ _ _ _ (fun x1 hx1 x2 hx2 heq => ?_)
    rw [← hJ] at heq
    obtain ⟨_, hc⟩ := ss_block_eq hm hC hi2 hy2 (by omega) heq
    have := digits3_lt (n := n) (k := k) (x := x2) hi2 hy2 (by omega)
    omega
  have siMiss : ∀ i y, i < 3 → y < k → ∀ al : Nat → R,
      blockRect m1 m2 (n * (m1 * k * 3 + k * i + y)) (n * (m2 * 3 + i)) ni4 n (w y) src al J
        = al J := by
    intro i y hi hy al
    refine blockRect_miss _ _ _ _ _ _ _ _ _ (fun x1 hx1 x2 hx2 heq => ?_)
    rw [← hJ] at heq
    obtain ⟨_, hc⟩ := si_block_eq hm hC hi hy hx2 heq
    have := digits3_lt (n := n) (k := k) hi hy hx2
    omega
  unfold kron
  dsimp only
  have hmain : (loop k (fun y1 dst =>
      loop 3 (fun i1 dst =>
        (blockRect m1 m2 (n * (m1 * k * 3 + k * i1 + y1)) (n * (m2 * 3 + i1)) ni4 n (w y1) src
          (loop (i1 + 1) (fun i2 al =>
            loop (y1 + 1) (fun y2 al =>
              blockTri m1 m2 (n * (m1 * (k * i1 + y1) + k * i2 + y2)) (n * (m2 * i1 + i2)) n
                (w y1 * w y2) src al) al) dst.1),
         loop n (fun x1 be =>
          upd be (x1 + n * (k * i1 + y1))
            (be (x1 + n * (k * i1 + y1)) + w y1 * srcb (x1 + n * i1))) dst.2)) dst) dst).1 J
      = dst.1 J := by
    refine loop_keeps (fun st : (Nat → R) × (Nat → R) => st.1 J) ?_ dst
    intro y1 hy1 st
    dsimp only
    refine loop_keeps (fun st : (Nat → R) × (Nat → R) => st.1 J) ?_ st
    intro i1 hi1 st
    dsimp only
    rw [siMiss i1 y1 hi1 hy1]
    refine loop_keeps (fun s : Nat → R => s J) ?_ st.1
    intro i2 hi2 s
    refine loop_keeps (fun s : Nat → R => s J) ?_ s
    intro y2 hy2 s
    exact ssMiss i1 y1 i2 y2 (by omega) (by omega) s
  rw [← hmain]
  refine loop_adds_once (fun st : (Nat → R) × (Nat → R) => st.1 J) T1 hT1 ?_ ?_ _
  · intro st
    dsimp only
    refine loop_adds_once (fun s : Nat → R => s J) T2 (Nat.lt_succ_of_le hT2) ?_ ?_ st.1
    · intro s
      dsimp only
      have e : n * (m2 * 3 + 3) + (m2 * T1 + T2) = m2 * (3 * n + T1) + (3 * n + T2) := by ring
      rw [← hJ, ← ii_index, upd_same, e]
    · intro t2 ht2 hne s
      refine upd_other _ _ (fun heq => ?_)
      rw [← hJ] at heq
      obtain ⟨_, hc⟩ := ii_block_eq hm hC (by omega : t2 < ni4) heq
      omega
  · intro t1 ht1 hne st
    dsimp only
    refine loop_keeps (fun s : Nat → R => s J) ?_ st.1
    intro t2 ht2 s
    refine upd_other _ _ (fun heq => ?_)
    rw [← hJ] at heq
    obtain ⟨hr, _⟩ := ii_block_eq hm hC (by omega : t2 < ni4) heq
    omega

/-- Lift of the spatial component of beta: entry `(i, y, x)` receives `w y` times the source
entry `(i, x)`. -/
theorem kron_beta_s (n k ni4 m1 m2 : Nat) (w src srcb : Nat → R) (dst : (Nat → R) × (Nat → R))
    {I Y X : Nat} (hI : I < 3) (hY : Y < k) (hX : X < n) :
    (kron n k ni4 m1 m2 w src srcb dst).2 (n * (k * I + Y) + X)
      = dst.2 (n * (k * I + Y) + X) + w Y * srcb (n * I + X) := by
  have hlt := digits3_lt (n := n) (k := k) hI hY hX
  have e3 : n * k * 3 = 3 * n * k := by ring
  generalize hJ : n * (k * I + Y) + X = J
  unfold kron
  dsimp only
  refine (loop_keeps (fun st : (Nat → R) × (Nat → R) => st.2 J) ?_ _).trans ?_
  · intro t1 ht1 st
    dsimp only
    exact upd_other _ _ (by omega)
  refine loop_adds_once (fun st : (Nat → R) × (Nat → R) => st.2 J) Y hY ?_ ?_ dst
  · intro st
    dsimp only
    refine loop_adds_once (fun st : (Nat → R) × (Nat → R) => st.2 J) I hI ?_ ?_ st
    · intro st
      dsimp only
      refine loop_adds_once (fun s : Nat → R => s J) X hX ?_ ?_ st.2
      · intro s
        dsimp only
        have e1 : X + n * (k * I + Y) = J := by omega
        have e2 : X + n * I = n * I + X := by omega
        rw [e1, upd_same, e2]
      · intro x1 hx1 hne s
        exact upd_other _ _ (by omega)
    · intro i1 hi1 hne st
      dsimp only
      refine loop_keeps (fun s : Nat → R => s J) ?_ st.2
      intro x1 hx1 s
      refine upd_other _ _ (fun heq => ?_)
      have h' : n * (k * I + Y) + X = n * (k * i1 + Y) + x1 := by omega
      obtain ⟨a1, _, _⟩ := digits3_inj hY hX hY hx1 h'
      omega
  · intro y1 hy1 hne st
    dsimp only
    refine loop_keeps (fun st : (Nat → R) × (Nat → R) => st.2 J) ?_ st
    intro i1 hi1 st
    dsimp only
    refine loop_keeps (fun s : Nat → R => s J) ?_ st.2
    intro x1 hx1 s
    refine upd_other _ _ (fun heq => ?_)
    have h' : n * (k * I + Y) + X = n * (k * i1 + y1) + x1 := by omega
    obtain ⟨_, a2, _⟩ := digits3_inj hY hX hy1 hx1 h'
    omega

/-- Lift of the intensity component of beta: added unweighted. -/
theorem kron_beta_i (n k ni4 m1 m2 : Nat) (w src srcb : Nat → R) (dst : (Nat → R) × (Nat → R))
    {T1 : Nat} (hT1 : T1 < ni4) :
    (kron n k ni4 m1 m2 w src srcb dst).2 (3 * n * k + T1)
      = dst.2 (3 * n * k + T1) + srcb (3 * n + T1) := by
  have e3 : n * k * 3 = 3 * n * k := by ring
  have e4 : n * 3 = 3 * n := by ring
  generalize hJ : 3 * n * k + T1 = J
  unfold kron
  dsimp only
  have hmain : (loop k (fun y1 dst =>
      loop 3 (fun i1 dst =>
        (blockRect m1 m2 (n * (m1 * k * 3 + k * i1 + y1)) (n * (m2 * 3 + i1)) ni4 n (w y1) src
          (loop (i1 + 1) (fun i2 al =>
            loop (y1 + 1) (fun y2 al =>
              blockTri m1 m2 (n * (m1 * (k * i1 + y1) + k * i2 + y2)) (n * (m2 * i1 + i2)) n
                (w y1 * w y2) src al) al) dst.1),
         loop n (fun x1 be =>
          upd be (x1 + n * (k * i1 + y1))
            (be (x1 + n * (k * i1 + y1)) + w y1 * srcb (x1 + n * i1))) dst.2)) dst) dst).2 J
      = dst.2 J := by
    refine loop_keeps (fun st : (Nat → R) × (Nat → R) => st.2 J) ?_ dst
    intro y1 hy1 st
    dsimp only
    refine loop_keeps (fun st : (Nat → R) × (Nat → R) => st.2 J) ?_ st
    intro i1 hi1 st
    dsimp only
    refine loop_keeps (fun s : Nat → R => s J) ?_ st.2
    intro x1 hx1 s
    refine upd_other _ _ ?_
    have := digits3_lt (n := n) (k := k) hi1 hy1 hx1
    omega
  rw [← hmain]
  refine loop_adds_once (fun st : (Nat → R) × (Nat → R) => st.2 J) T1 hT1 ?_ ?_ _
  · intro st
    dsimp only
    have e1 : n * k * 3 + T1 = J := by omega
    rw [e1, upd_same, e4]
  · intro t1 ht1 hne st
    dsimp only
    exact upd_other _ _ (by omega)

end KronMore

end SpmBrainwarp

namespace SpmBrainwarp

section RowStage

variable {R : Type} [LinearOrderedCommRing R]

theorem voxelSum_eq_planeSum {β : Type} [AddCommMonoid β] (a : Args R)
    (f : Nat → Nat → Nat → β) :
    voxelSum a f = ((grid (dim1 a 2) (a.samp 2)).map fun sz =>
      planeSum a sz (fun sx sy => f sx sy sz)).sum := rfl

theorem rowSum_mul_left (a : Args R) (sy sz : Nat) (c : R) (f : Nat → R) :
    c * rowSum a sy sz f = rowSum a sy sz (fun sx => c * f sx) := by
  unfold rowSum
  rw [← List.sum_map_mul_left]
  congr 1
  refine List.map_congr_left (fun sx _ => ?_)
  split <;> simp

theorem planeSum_mul_left (a : Args R) (sz : Nat) (c : R) (f : Nat → Nat → R) :
    c * planeSum a sz f = planeSum a sz (fun sx sy => c * f sx sy) := by
  unfold planeSum
  rw [← List.sum_map_mul_left]
  congr 1
  refine List.map_congr_left (fun sy _ => ?_)
  exact rowSum_mul_left a sy sz c _

theorem rowSum_congr {β : Type} [AddCommMonoid β] (a : Args R) (sy sz : Nat) {f g : Nat → β}
    (h : ∀ sx, f sx = g sx) : rowSum a sy sz f = rowSum a sy sz g := by
  have : f = g := funext h
  rw [this]

theorem planeSum_congr {β : Type} [AddCommMonoid β] (a : Args R) (sz : Nat)
    {f g : Nat → Nat → β} (h : ∀ sx sy, f sx sy = g sx sy) :
    planeSum a sz f = planeSum a sz g := by
  have : f = g := funext (fun sx => funext (h sx))
  rw [this]

/-- State of a row after its pixel loop. -/
theorem row_alphaxy_eq (a : Args R) (sz sy : Nat) (st : State R) :
    ∃ st2 : State R,
      (row a sz sy st).alphaxy = (kron a.nx a.ny (ni4 a) (3 * a.nx * a.ny + ni4 a)
        (3 * a.nx + ni4 a) (fun y => a.BY (dim1 a 1 * y + sy)) st2.alphax st2.betax
        (st.alphaxy, st.betaxy)).1 ∧
      (row a sz sy st).betaxy = (kron a.nx a.ny (ni4 a) (3 * a.nx * a.ny + ni4 a)
        (3 * a.nx + ni4 a) (fun y => a.BY (dim1 a 1 * y + sy)) st2.alphax st2.betax
        (st.alphaxy, st.betaxy)).2 ∧
      (HoldsZ a sz st.Tz st.Jz →
        (∀ r c, r < 3 * a.nx + ni4 a → c ≤ r →
          st2.alphax ((3 * a.nx + ni4 a) * r + c)
            = rowSum a sy sz (fun sx => dX a sx sy sz r * dX a sx sy sz c)) ∧
        (∀ r, r < 3 * a.nx + ni4 a →
          st2.betax r = rowSum a sy sz (fun sx => dX a sx sy sz r * (voxAt a sx sy sz).dv))) := by
  refine ⟨forGrid (dim1 a 0) (a.samp 0) (pixel a sy sz)
    { st with
      Ty := (buildY a sy st.Tz st.Jz (st.Ty, st.Jy)).1,
      Jy := (buildY a sy st.Tz st.Jz (st.Ty, st.Jy)).2,
      alphax := (zeroHalf (3 * a.nx + ni4 a) (st.alphax, st.betax)).1,
      betax := (zeroHalf (3 * a.nx + ni4 a) (st.alphax, st.betax)).2 }, ?_, ?_, ?_⟩
  · unfold row
    dsimp only
    unfold forGrid
    rw [xloop_keeps (fun s => s.alphaxy) a sy sz (fun sx s => (pixel_frame a sy sz sx s).2.2.2.2.1),
      xloop_keeps (fun s => s.betaxy) a sy sz (fun sx s => (pixel_frame a sy sz sx s).2.2.2.2.2.1)]
  · unfold row
    dsimp only
    unfold forGrid
    rw [xloop_keeps (fun s => s.alphaxy) a sy sz (fun sx s => (pixel_frame a sy sz sx s).2.2.2.2.1),
      xloop_keeps (fun s => s.betaxy) a sy sz (fun sx s => (pixel_frame a sy sz sx s).2.2.2.2.2.1)]
  · intro h
    refine ⟨fun r c hr hc => ?_, fun r hr => ?_⟩
    · unfold forGrid rowSum dX
      rw [xloop_adds (fun s => s.alphax ((3 * a.nx + ni4 a) * r + c)) _ a sy sz
        (fun sx s hs => pixel_alphax a sy sz sx s hs hr hc) _ _ (holdsY_buildY a sy sz h _)]
      dsimp only
      rw [zeroHalf_fst_hit _ _ hr hc, zero_add]
    · unfold forGrid rowSum dX
      rw [xloop_adds (fun s => s.betax r) _ a sy sz
        (fun sx s hs => pixel_betax a sy sz sx s hs hr) _ _ (holdsY_buildY a sy sz h _)]
      dsimp only
      rw [zeroHalf_snd_hit _ _ hr, zero_add]

end RowStage

end SpmBrainwarp

namespace SpmBrainwarp

theorem two_digit_le {n i1 x1 i2 x2 : Nat} (hi : i2 ≤ i1) (hx : x2 ≤ x1) :
    n * i2 + x2 ≤ n * i1 + x1 :=
  Nat.add_le_add (Nat.mul_le_mul_left n hi) hx

theorem two_digit_lt {n i x : Nat} (hi : i < 3) (hx : x < n) : n * i + x < 3 * n := by
  have h : n * (i + 1) ≤ n * 3 := Nat.mul_le_mul_left n hi
  rw [Nat.mul_add, Nat.mul_one] at h
  omega

section RowLift

variable {R : Type} [LinearOrderedCommRing R]

/-- One row adds, to a spatial-spatial entry of `alphaxy`, the row's sum of products of the
lifted design-row entries. -/
theorem row_alphaxy_ss (a : Args R) (sz sy : Nat) (st : State R)
    (h : HoldsZ a sz st.Tz st.Jz) {i1 y1 x1 i2 y2 x2 : Nat} (hi1 : i1 < 3) (hi2 : i2 ≤ i1)
    (hy1 : y1 < a.ny) (hy2 : y2 ≤ y1) (hx1 : x1 < a.nx) (hx2 : x2 ≤ x1) :
    (row a sz sy st).alphaxy ((3 * a.nx * a.ny + ni4 a) * (a.nx * (a.ny * i1 + y1) + x1)
        + (a.nx * (a.ny * i2 + y2) + x2))
      = st.alphaxy ((3 * a.nx * a.ny + ni4 a) * (a.nx * (a.ny * i1 + y1) + x1)
        + (a.nx * (a.ny * i2 + y2) + x2))
        + rowSum a sy sz (fun sx => dXY a sx sy sz i1 y1 x1 * dXY a sx sy sz i2 y2 x2) := by
  obtain ⟨st2, h1, _, h3⟩ := row_alphaxy_eq a sz sy st
  have hr := two_digit_lt hi1 hx1
  rw [h1, kron_ss _ _ _ _ _ _ _ _ _ (le_refl _) hi1 hi2 hy1 hy2 hx1 hx2,
    (h3 h).1 _ _ (by omega) (two_digit_le hi2 hx2), rowSum_mul_left]
  dsimp only
  congr 1
  refine rowSum_congr a sy sz (fun sx => ?_)
  unfold dXY
  ring

/-- One row adds, to an intensity-spatial entry of `alphaxy`, the row's sum. -/
theorem row_alphaxy_si (a : Args R) (sz sy : Nat) (st : State R)
    (h : HoldsZ a sz st.Tz st.Jz) {t i y x : Nat} (ht : t < ni4 a) (hi : i < 3)
    (hy : y < a.ny) (hx : x < a.nx) :
    (row a sz sy st).alphaxy ((3 * a.nx * a.ny + ni4 a) * (3 * a.nx * a.ny + t)
        + (a.nx * (a.ny * i + y) + x))
      = st.alphaxy ((3 * a.nx * a.ny + ni4 a) * (3 * a.nx * a.ny + t)
        + (a.nx * (a.ny * i + y) + x))
        + rowSum a sy sz (fun sx => dI a sx sy sz t * dXY a sx sy sz i y x) := by
  obtain ⟨st2, h1, _, h3⟩ := row_alphaxy_eq a sz sy st
  have hr := two_digit_lt hi hx
  rw [h1, kron_si _ _ _ _ _ _ _ _ _ (le_refl _) ht hi hy hx,
    (h3 h).1 _ _ (by omega) (by omega), rowSum_mul_left]
  dsimp only
  congr 1
  refine rowSum_congr a sy sz (fun sx => ?_)
  unfold dXY dI
  ring

/-- One row adds, to an intensity-intensity entry of `alphaxy`, the row's sum. -/
theorem row_alphaxy_ii (a : Args R) (sz sy : Nat) (st : State R)
    (h : HoldsZ a sz st.Tz st.Jz) {t1 t2 : Nat} (ht1 : t1 < ni4 a) (ht2 : t2 ≤ t1) :
    (row a sz sy st).alphaxy ((3 * a.nx * a.ny + ni4 a) * (3 * a.nx * a.ny + t1)
        + (3 * a.nx * a.ny + t2))
      = st.alphaxy ((3 * a.nx * a.ny + ni4 a) * (3 * a.nx * a.ny + t1)
        + (3 * a.nx * a.ny + t2))
        + rowSum a sy sz (fun sx => dI a sx sy sz t1 * dI a sx sy sz t2) := by
  obtain ⟨st2, h1, _, h3⟩ := row_alphaxy_eq a sz sy st
  rw [h1, kron_ii _ _ _ _ _ _ _ _ _ (le_refl _) ht1 ht2,
    (h3 h).1 _ _ (by omega) (by omega)]
  rfl

/-- One row adds, to a spatial entry of `betaxy`, the row's sum. -/
theorem row_betaxy_s (a : Args R) (sz sy : Nat) (st : State R)
    (h : HoldsZ a sz st.Tz st.Jz) {i y x : Nat} (hi : i < 3) (hy : y < a.ny) (hx : x < a.nx) :
    (row a sz sy st).betaxy (a.nx * (a.ny * i + y) + x)
      = st.betaxy (a.nx * (a.ny * i + y) + x)
        + rowSum a sy sz (fun sx => dXY a sx sy sz i y x * (voxAt a sx sy sz).dv) := by
  obtain ⟨st2, _, h2, h3⟩ := row_alphaxy_eq a sz sy st
  have hr := two_digit_lt hi hx
  rw [h2, kron_beta_s _ _ _ _ _ _ _ _ _ hi hy hx, (h3 h).2 _ (by omega), rowSum_mul_left]
  dsimp only
  congr 1
  refine rowSum_congr a sy sz (fun sx => ?_)
  unfold dXY
  ring

/-- One row adds, to an intensity entry of `betaxy`, the row's sum. -/
theorem row_betaxy_i (a : Args R) (sz sy : Nat) (st : State R)
    (h : HoldsZ a sz st.Tz st.Jz) {t : Nat} (ht : t < ni4 a) :
    (row a sz sy st).betaxy (3 * a.nx * a.ny + t)
      = st.betaxy (3 * a.nx * a.ny + t)
        + rowSum a sy sz (fun sx => dI a sx sy sz t * (voxAt a sx sy sz).dv) := by
  obtain ⟨st2, _, h2, h3⟩ := row_alphaxy_eq a sz sy st
  rw [h2, kron_beta_i _ _ _ _ _ _ _ _ _ ht, (h3 h).2 _ (by omega)]
  rfl

end RowLift

end SpmBrainwarp

namespace SpmBrainwarp

theorem three_digit_le {n k i1 y1 x1 i2 y2 x2 : Nat} (hi : i2 ≤ i1) (hy : y2 ≤ y1)
    (hx : x2 ≤ x1) : n * (k * i2 + y2) + x2 ≤ n * (k * i1 + y1) + x1 :=
  two_digit_le (two_digit_le hi hy) hx

theorem xy_lt {nx ny y x : Nat} (hy : y < ny) (hx : x < nx) : nx * y + x < nx * ny := by
  have := digits_lt hx hy
  rw [Nat.mul_comm y nx] at this
  omega

section PlaneStage

variable {R : Type} [LinearOrderedCommRing R]

/-- State of a plane after its row loop: `alphaxy`, `betaxy` hold the plane's sums. -/
theorem plane_alpha_eq (a : Args R) (sz : Nat) (st : State R) :
    ∃ st3 : State R,
      (plane a sz st).alpha = (kron (a.nx * a.ny) a.nz (ni4 a)
        (3 * a.nx * a.ny * a.nz + ni4 a) (3 * a.nx * a.ny + ni4 a)
        (fun z => a.BZ (dim1 a 2 * z + sz)) st3.alphaxy st3.betaxy (st.alpha, st.beta)).1 ∧
      (plane a sz st).beta = (kron (a.nx * a.ny) a.nz (ni4 a)
        (3 * a.nx * a.ny * a.nz + ni4 a) (3 * a.nx * a.ny + ni4 a)
        (fun z => a.BZ (dim1 a 2 * z + sz)) st3.alphaxy st3.betaxy (st.alpha, st.beta)).2 ∧
      (∀ i1 y1 x1 i2 y2 x2, i1 < 3 → i2 ≤ i1 → y1 < a.ny → y2 ≤ y1 → x1 < a.nx → x2 ≤ x1 →
        st3.alphaxy ((3 * a.nx * a.ny + ni4 a) * (a.nx * (a.ny * i1 + y1) + x1)
            + (a.nx * (a.ny * i2 + y2) + x2))
          = planeSum a sz (fun sx sy => dXY a sx sy sz i1 y1 x1 * dXY a sx sy sz i2 y2 x2)) ∧
      (∀ t i y x, t < ni4 a → i < 3 → y < a.ny → x < a.nx →
        st3.alphaxy ((3 * a.nx * a.ny + ni4 a) * (3 * a.nx * a.ny + t)
            + (a.nx * (a.ny * i + y) + x))
          = planeSum a sz (fun sx sy => dI a sx sy sz t * dXY a sx sy sz i y x)) ∧
      (∀ t1 t2, t1 < ni4 a → t2 ≤ t1 →
        st3.alphaxy ((3 * a.nx * a.ny + ni4 a) * (3 * a.nx * a.ny + t1)
            + (3 * a.nx * a.ny + t2))
          = planeSum a sz (fun sx sy => dI a sx sy sz t1 * dI a sx sy sz t2)) ∧
      (∀ i y x, i < 3 → y < a.ny → x < a.nx →
        st3.betaxy (a.nx * (a.ny * i + y) + x)
          = planeSum a sz (fun sx sy => dXY a sx sy sz i y x * (voxAt a sx sy sz).dv)) ∧
      (∀ t, t < ni4 a →
        st3.betaxy (3 * a.nx * a.ny + t)
          = planeSum a sz (fun sx sy => dI a sx sy sz t * (voxAt a sx sy sz).dv)) := by
  have hZ : HoldsZ a sz (buildZ a sz (st.Tz, st.Jz)).1 (buildZ a sz (st.Tz, st.Jz)).2 :=
    holdsZ_buildZ a sz _
  refine ⟨forGrid (dim1 a 1) (a.samp 1) (row a sz)
    { st with
      Tz := (buildZ a sz (st.Tz, st.Jz)).1,
      Jz := (buildZ a sz (st.Tz, st.Jz)).2,
      alphaxy := (zeroHalf (3 * a.nx * a.ny + ni4 a) (st.alphaxy, st.betaxy)).1,
      betaxy := (zeroHalf (3 * a.nx * a.ny + ni4 a) (st.alphaxy, st.betaxy)).2 },
    ?_, ?_, ?_, ?_, ?_, ?_, ?_⟩
  · unfold plane
    dsimp only
    unfold forGrid
    rw [foldl_keeps (fun s => s.alpha) _ (fun sy _ s => (row_frame a sz sy s).2.2.1),
      foldl_keeps (fun s => s.beta) _ (fun sy _ s => (row_frame a sz sy s).2.2.2)]
  · unfold plane
    dsimp only
    unfold forGrid
    rw [foldl_keeps (fun s => s.alpha) _ (fun sy _ s => (row_frame a sz sy s).2.2.1),
      foldl_keeps (fun s => s.beta) _ (fun sy _ s => (row_frame a sz sy s).2.2.2)]
  · intro i1 y1 x1 i2 y2 x2 hi1 hi2 hy1 hy2 hx1 hx2
    have hr := digits3_lt (n := a.nx) (k := a.ny) hi1 hy1 hx1
    unfold forGrid planeSum
    rw [yloop_adds (fun s => s.alphaxy ((3 * a.nx * a.ny + ni4 a)
        * (a.nx * (a.ny * i1 + y1) + x1) + (a.nx * (a.ny * i2 + y2) + x2))) _ a sz
      (fun sy s hs => row_alphaxy_ss a sz sy s hs hi1 hi2 hy1 hy2 hx1 hx2) _ _ hZ]
    dsimp only
    rw [zeroHalf_fst_hit _ _ (by omega) (three_digit_le hi2 hy2 hx2), zero_add]
  · intro t i y x ht hi hy hx
    have hr := digits3_lt (n := a.nx) (k := a.ny) hi hy hx
    unfold forGrid planeSum
    rw [yloop_adds (fun s => s.alphaxy ((3 * a.nx * a.ny + ni4 a)
        * (3 * a.nx * a.ny + t) + (a.nx * (a.ny * i + y) + x))) _ a sz
      (fun sy s hs => row_alphaxy_si a sz sy s hs ht hi hy hx) _ _ hZ]
    dsimp only
    rw [zeroHalf_fst_hit _ _ (by omega) (by omega), zero_add]
  · intro t1 t2 ht1 ht2
    unfold forGrid planeSum
    rw [yloop_adds (fun s => s.alphaxy ((3 * a.nx * a.ny + ni4 a)
        * (3 * a.nx * a.ny + t1) + (3 * a.nx * a.ny + t2))) _ a sz
      (fun sy s hs => row_alphaxy_ii a sz sy s hs ht1 ht2) _ _ hZ]
    dsimp only
    rw [zeroHalf_fst_hit _ _ (by omega) (by omega), zero_add]
  · intro i y x hi hy hx
    have hr := digits3_lt (n := a.nx) (k := a.ny) hi hy hx
    unfold forGrid planeSum
    rw [yloop_adds (fun s => s.betaxy (a.nx * (a.ny * i + y) + x)) _ a sz
      (fun sy s hs => row_betaxy_s a sz sy s hs hi hy hx) _ _ hZ]
    dsimp only
    rw [zeroHalf_snd_hit _ _ (by omega), zero_add]
  · intro t ht
    unfold forGrid planeSum
    rw [yloop_adds (fun s => s.betaxy (3 * a.nx * a.ny + t)) _ a sz
      (fun sy s hs => row_betaxy_i a sz sy s hs ht) _ _ hZ]
    dsimp only
    rw [zeroHalf_snd_hit _ _ (by omega), zero_add]

end PlaneStage

end SpmBrainwarp

namespace SpmBrainwarp

section VolumeStage

variable {R : Type} [LinearOrderedCommRing R]

omit [LinearOrderedCommRing R] in
theorem m1_ge (a : Args R) :
    3 * (a.nx * a.ny) * a.nz + ni4 a ≤ 3 * a.nx * a.ny * a.nz + ni4 a :=
  le_of_eq (by ring)

/-- One plane adds, to a spatial-spatial entry of `alpha`, the plane's sum. -/
theorem plane_alpha_ss (a : Args R) (sz : Nat) (st : State R) {i1 z1 y1 x1 i2 z2 y2 x2 : Nat}
    (hi1 : i1 < 3) (hi2 : i2 ≤ i1) (hz1 : z1 < a.nz) (hz2 : z2 ≤ z1) (hy1 : y1 < a.ny)
    (hy2 : y2 ≤ y1) (hx1 : x1 < a.nx) (hx2 : x2 ≤ x1) :
    (plane a sz st).alpha ((3 * a.nx * a.ny * a.nz + ni4 a)
        * (a.nx * a.ny * (a.nz * i1 + z1) + (a.nx * y1 + x1))
        + (a.nx * a.ny * (a.nz * i2 + z2) + (a.nx * y2 + x2)))
      = st.alpha ((3 * a.nx * a.ny * a.nz + ni4 a)
        * (a.nx * a.ny * (a.nz * i1 + z1) + (a.nx * y1 + x1))
        + (a.nx * a.ny * (a.nz * i2 + z2) + (a.nx * y2 + x2)))
        + planeSum a sz (fun sx sy =>
          dS a sx sy sz i1 z1 y1 x1 * dS a sx sy sz i2 z2 y2 x2) := by
  obtain ⟨st3, h1, _, hss, _, _, _, _⟩ := plane_alpha_eq a sz st
  have e1 : a.nx * a.ny * i1 + (a.nx * y1 + x1) = a.nx * (a.ny * i1 + y1) + x1 := by ring
  have e2 : a.nx * a.ny * i2 + (a.nx * y2 + x2) = a.nx * (a.ny * i2 + y2) + x2 := by ring
  rw [h1, kron_ss _ _ _ _ _ _ _ _ _ (m1_ge a) hi1 hi2 hz1 hz2 (xy_lt hy1 hx1)
    (two_digit_le hy2 hx2), e1, e2, hss i1 y1 x1 i2 y2 x2 hi1 hi2 hy1 hy2 hx1 hx2,
    planeSum_mul_left]
  dsimp only
  congr 1
  refine planeSum_congr a sz (fun sx sy => ?_)
  unfold dS
  ring

/-- One plane adds, to an intensity-spatial entry of `alpha`, the plane's sum. -/
theorem plane_alpha_si (a : Args R) (sz : Nat) (st : State R) {t i z y x : Nat}
    (ht : t < ni4 a) (hi : i < 3) (hz : z < a.nz) (hy : y < a.ny) (hx : x < a.nx) :
    (plane a sz st).alpha ((3 * a.nx * a.ny * a.nz + ni4 a) * (3 * a.nx * a.ny * a.nz + t)
        + (a.nx * a.ny * (a.nz * i + z) + (a.nx * y + x)))
      = st.alpha ((3 * a.nx * a.ny * a.nz + ni4 a) * (3 * a.nx * a.ny * a.nz + t)
        + (a.nx * a.ny * (a.nz * i + z) + (a.nx * y + x)))
        + planeSum a sz (fun sx sy => dI a sx sy sz t * dS a sx sy sz i z y x) := by
  obtain ⟨st3, h1, _, _, hsi, _, _, _⟩ := plane_alpha_eq a sz st
  have e0 : 3 * a.nx * a.ny * a.nz = 3 * (a.nx * a.ny) * a.nz := by ring
  have e1 : a.nx * a.ny * i + (a.nx * y + x) = a.nx * (a.ny * i + y) + x := by ring
  have e2 : 3 * (a.nx * a.ny) = 3 * a.nx * a.ny := by ring
  rw [h1, e0, kron_si _ _ _ _ _ _ _ _ _ (by rw [← e0]) ht hi hz (xy_lt hy hx), e1, e2,
    hsi t i y x ht hi hy hx, planeSum_mul_left]
  dsimp only
  congr 1
  refine planeSum_congr a sz (fun sx sy => ?_)
  unfold dS
  ring

/-- One plane adds, to an intensity-intensity entry of `alpha`, the plane's sum. -/
theorem plane_alpha_ii (a : Args R) (sz : Nat) (st : State R) {t1 t2 : Nat}
    (ht1 : t1 < ni4 a) (ht2 : t2 ≤ t1) :
    (plane a sz st).alpha ((3 * a.nx * a.ny * a.nz + ni4 a) * (3 * a.nx * a.ny * a.nz + t1)
        + (3 * a.nx * a.ny * a.nz + t2))
      = st.alpha ((3 * a.nx * a.ny * a.nz + ni4 a) * (3 * a.nx * a.ny * a.nz + t1)
        + (3 * a.nx * a.ny * a.nz + t2))
        + planeSum a sz (fun sx sy => dI a sx sy sz t1 * dI a sx sy sz t2) := by
  obtain ⟨st3, h1, _, _, _, hii, _, _⟩ := plane_alpha_eq a sz st
  have e0 : 3 * a.nx * a.ny * a.nz = 3 * (a.nx * a.ny) * a.nz := by ring
  have e2 : 3 * (a.nx * a.ny) = 3 * a.nx * a.ny := by ring
  rw [h1, e0, kron_ii _ _ _ _ _ _ _ _ _ (by rw [← e0]) ht1 ht2, e2, hii t1 t2 ht1 ht2]

/-- One plane adds, to a spatial entry of `beta`, the plane's sum. -/
theorem plane_beta_s (a : Args R) (sz : Nat) (st : State R) {i z y x : Nat}
    (hi : i < 3) (hz : z < a.nz) (hy : y < a.ny) (hx : x < a.nx) :
    (plane a sz st).beta (a.nx * a.ny * (a.nz * i + z) + (a.nx * y + x))
      = st.beta (a.nx * a.ny * (a.nz * i + z) + (a.nx * y + x))
        + planeSum a sz (fun sx sy => dS a sx sy sz i z y x * (voxAt a sx sy sz).dv) := by
  obtain ⟨st3, _, h2, _, _, _, hbs, _⟩ := plane_alpha_eq a sz st
  have e1 : a.nx * a.ny * i + (a.nx * y + x) = a.nx * (a.ny * i + y) + x := by ring
  rw [h2, kron_beta_s _ _ _ _ _ _ _ _ _ hi hz (xy_lt hy hx), e1, hbs i y x hi hy hx,
    planeSum_mul_left]
  dsimp only
  congr 1
  refine planeSum_congr a sz (fun sx sy => ?_)
  unfold dS
  ring

/-- One plane adds, to an intensity entry of `beta`, the plane's sum. -/
theorem plane_beta_i (a : Args R) (sz : Nat) (st : State R) {t : Nat} (ht : t < ni4 a) :
    (plane a sz st).beta (3 * a.nx * a.ny * a.nz + t)
      = st.beta (3 * a.nx * a.ny * a.nz + t)
        + planeSum a sz (fun sx sy => dI a sx sy sz t * (voxAt a sx sy sz).dv) := by
  obtain ⟨st3, _, h2, _, _, _, _, hbi⟩ := plane_alpha_eq a sz st
  have e0 : 3 * a.nx * a.ny * a.nz = 3 * (a.nx * a.ny) * a.nz := by ring
  have e2 : 3 * (a.nx * a.ny) = 3 * a.nx * a.ny := by ring
  rw [h2, e0, kron_beta_i _ _ _ _ _ _ _ _ _ ht, e2, hbi t ht]

/-- Before the symmetrizer, the ordered spatial-spatial entries of `alpha` hold the sums over
the accepted voxels. -/
theorem acc_alpha_ss (a : Args R) (alpha0 beta0 sd0 : Nat → R) {i1 z1 y1 x1 i2 z2 y2 x2 : Nat}
    (hi1 : i1 < 3) (hi2 : i2 ≤ i1) (hz1 : z1 < a.nz) (hz2 : z2 ≤ z1) (hy1 : y1 < a.ny)
    (hy2 : y2 ≤ y1) (hx1 : x1 < a.nx) (hx2 : x2 ≤ x1) :
    (accumulate a alpha0 beta0 sd0).alpha ((3 * a.nx * a.ny * a.nz + ni4 a)
        * (a.nx * a.ny * (a.nz * i1 + z1) + (a.nx * y1 + x1))
        + (a.nx * a.ny * (a.nz * i2 + z2) + (a.nx * y2 + x2)))
      = voxelSum a (fun sx sy sz => dS a sx sy sz i1 z1 y1 x1 * dS a sx sy sz i2 z2 y2 x2) := by
  have hr := digits3_lt (n := a.nx * a.ny) (k := a.nz) hi1 hz1 (xy_lt hy1 hx1)
  have e0 : 3 * (a.nx * a.ny) * a.nz = 3 * a.nx * a.ny * a.nz := by ring
  unfold accumulate forGrid
  rw [voxelSum_eq_planeSum, foldl_adds (fun s => s.alpha ((3 * a.nx * a.ny * a.nz + ni4 a)
      * (a.nx * a.ny * (a.nz * i1 + z1) + (a.nx * y1 + x1))
      + (a.nx * a.ny * (a.nz * i2 + z2) + (a.nx * y2 + x2)))) _
    (fun sz _ s => plane_alpha_ss a sz s hi1 hi2 hz1 hz2 hy1 hy2 hx1 hx2)]
  unfold initState
  dsimp only
  rw [zeroHalf_fst_hit _ _ (by omega) (three_digit_le hi2 hz2 (two_digit_le hy2 hx2)), zero_add]

/-- Before the symmetrizer, the intensity-spatial entries of `alpha` hold the sums over the
accepted voxels. -/
theorem acc_alpha_si (a : Args R) (alpha0 beta0 sd0 : Nat → R) {t i z y x : Nat}
    (ht : t < ni4 a) (hi : i < 3) (hz : z < a.nz) (hy : y < a.ny) (hx : x < a.nx) :
    (accumulate a alpha0 beta0 sd0).alpha ((3 * a.nx * a.ny * a.nz + ni4 a)
        * (3 * a.nx * a.ny * a.nz + t)
        + (a.nx * a.ny * (a.nz * i + z) + (a.nx * y + x)))
      = voxelSum a (fun sx sy sz => dI a sx sy sz t * dS a sx sy sz i z y x) := by
  have hr := digits3_lt (n := a.nx * a.ny) (k := a.nz) hi hz (xy_lt hy hx)
  have e0 : 3 * (a.nx * a.ny) * a.nz = 3 * a.nx * a.ny * a.nz := by ring
  unfold accumulate forGrid
  rw [voxelSum_eq_planeSum, foldl_adds (fun s => s.alpha ((3 * a.nx * a.ny * a.nz + ni4 a)
      * (3 * a.nx * a.ny * a.nz + t)
      + (a.nx * a.ny * (a.nz * i + z) + (a.nx * y + x)))) _
    (fun sz _ s => plane_alpha_si a sz s ht hi hz hy hx)]
  unfold initState
  dsimp only
  rw [zeroHalf_fst_hit _ _ (by omega) (by omega), zero_add]

/-- Before the symmetrizer, the ordered intensity-intensity entries of `alpha` hold the sums
over the accepted voxels. -/
theorem acc_alpha_ii (a : Args R) (alpha0 beta0 sd0 : Nat → R) {t1 t2 : Nat}
    (ht1 : t1 < ni4 a) (ht2 : t2 ≤ t1) :
    (accumulate a alpha0 beta0 sd0).alpha ((3 * a.nx * a.ny * a.nz + ni4 a)
        * (3 * a.nx * a.ny * a.nz + t1) + (3 * a.nx * a.ny * a.nz + t2))
      = voxelSum a (fun sx sy sz => dI a sx sy sz t1 * dI a sx sy sz t2) := by
  unfold accumulate forGrid
  rw [voxelSum_eq_planeSum, foldl_adds (fun s => s.alpha ((3 * a.nx * a.ny * a.nz + ni4 a)
      * (3 * a.nx * a.ny * a.nz + t1) + (3 * a.nx * a.ny * a.nz + t2))) _
    (fun sz _ s => plane_alpha_ii a sz s ht1 ht2)]
  unfold initState
  dsimp only
  rw [zeroHalf_fst_hit _ _ (by omega) (by omega), zero_add]

/-- The spatial entries of `beta` hold the sums over the accepted voxels. -/
theorem acc_beta_s (a : Args R) (alpha0 beta0 sd0 : Nat → R) {i z y x : Nat}
    (hi : i < 3) (hz : z < a.nz) (hy : y < a.ny) (hx : x < a.nx) :
    (accumulate a alpha0 beta0 sd0).beta (a.nx * a.ny * (a.nz * i + z) + (a.nx * y + x))
      = voxelSum a (fun sx sy sz => dS a sx sy sz i z y x * (voxAt a sx sy sz).dv) := by
  have hr := digits3_lt (n := a.nx * a.ny) (k := a.nz) hi hz (xy_lt hy hx)
  have e0 : 3 * (a.nx * a.ny) * a.nz = 3 * a.nx * a.ny * a.nz := by ring
  unfold accumulate forGrid
  rw [voxelSum_eq_planeSum,
    foldl_adds (fun s => s.beta (a.nx * a.ny * (a.nz * i + z) + (a.nx * y + x))) _
      (fun sz _ s => plane_beta_s a sz s hi hz hy hx)]
  unfold initState
  dsimp only
  rw [zeroHalf_snd_hit _ _ (by omega), zero_add]

/-- The intensity entries of `beta` hold the sums over the accepted voxels. -/
theorem acc_beta_i (a : Args R) (alpha0 beta0 sd0 : Nat → R) {t : Nat} (ht : t < ni4 a) :
    (accumulate a alpha0 beta0 sd0).beta (3 * a.nx * a.ny * a.nz + t)
      = voxelSum a (fun sx sy sz => dI a sx sy sz t * (voxAt a sx sy sz).dv) := by
  unfold accumulate forGrid
  rw [voxelSum_eq_planeSum, foldl_adds (fun s => s.beta (3 * a.nx * a.ny * a.nz + t)) _
    (fun sz _ s => plane_beta_i a sz s ht)]
  unfold initState
  dsimp only
  rw [zeroHalf_snd_hit _ _ (by omega), zero_add]

end VolumeStage

end SpmBrainwarp

namespace SpmBrainwarp

theorem blk_lt {n count a p : Nat} (ha : a < count) (hp : p < n) : n * a + p < n * count := by
  have h : n * (a + 1) ≤ n * count := Nat.mul_le_mul_left n ha
  rw [Nat.mul_add, Nat.mul_one] at h
  omega

theorem blk_index (m n off a1 a2 p q : Nat) :
    off + n * (m * a1 + a2) + (m * p + q) = off + (m * (n * a1 + p) + (n * a2 + q)) := by ring

theorem digit_le_of_le {n a1 p a2 q : Nat} (hp : p < n) (h : n * a2 + q ≤ n * a1 + p) :
    a2 ≤ a1 := by
  by_contra hcon
  have h' : n * (a1 + 1) ≤ n * a2 := Nat.mul_le_mul_left n (by omega)
  rw [Nat.mul_add, Nat.mul_one] at h'
  omega

theorem blk_decomp {n count P : Nat} (hP : P < n * count) :
    ∃ a p, a < count ∧ p < n ∧ P = n * a + p := by
  have hn : 0 < n := by
    rcases Nat.eq_zero_or_pos n with h | h
    · rw [h, Nat.zero_mul] at hP; omega
    · exact h
  exact ⟨P / n, P % n, Nat.div_lt_of_lt_mul hP, Nat.mod_lt _ hn, (Nat.div_add_mod P n).symm⟩

section Symmetrizer

variable {R : Type}

/-- A mirror pass completes a block whose lower half is right and whose values are
symmetric. -/
theorem mirror_blockFix (m n : Nat) :
    BlockFix (R := R) m n (fun off al => mirror m off n al) (fun p q => q ≤ p)
      (fun V => ∀ p q, p < n → q < n → V p q = V q p) := by
  refine ⟨fun off al j hj => ?_, fun off r0 c0 V al hoff hc hV hal p q hp hq => ?_⟩
  · exact mirror_miss m off n al (fun x1 hx1 x2 hx2 => hj x2 x1 (by omega) hx1)
  · have hn : n ≤ m := by omega
    show mirror m off n al (off + (m * p + q)) = V p q
    by_cases h : q ≤ p
    · have hm : mirror m off n al (off + (m * p + q)) = al (off + (m * p + q)) := by
        refine mirror_miss m off n al (fun x1 hx1 x2 hx2 => ?_)
        have := idx2_ne (m := m) (r := p) (c := q) (s := x2) (d := x1) (by omega) (by omega)
          (by omega)
        omega
      rw [hm, hal p q hp hq h]
    · have h' : p < q := by omega
      rw [mirror_hit m off n al hn hq h', hal q p hq hp (le_of_lt h'), hV q p hq hp]

/-- The block loops of the symmetrizer complete every block on or below the block diagonal,
and change nothing outside the enclosing block. -/
theorem symLoops_fix (m n count : Nat) (sub : Nat → (Nat → R) → Nat → R)
    (G : Nat → Nat → Prop) (Req : (Nat → Nat → R) → Prop) (hsub : BlockFix m n sub G Req) :
    (∀ (off : Nat) (al : Nat → R) (j : Nat),
      (∀ P Q, P < n * count → Q < n * count → j ≠ off + (m * P + Q)) →
      symLoops m n count off sub al j = al j) ∧
    (∀ (off r0 c0 : Nat) (V : Nat → Nat → R) (al : Nat → R), off = m * r0 + c0 →
      c0 + n * count ≤ m →
      (∀ a1 a2, a1 < count → a2 < count → Req (fun p q => V (n * a1 + p) (n * a2 + q))) →
      (∀ a1 a2 p q, a2 ≤ a1 → a1 < count → p < n → q < n → G p q →
        al (off + (m * (n * a1 + p) + (n * a2 + q))) = V (n * a1 + p) (n * a2 + q)) →
      ∀ a1 a2 p q, a2 ≤ a1 → a1 < count → p < n → q < n →
        symLoops m n count off sub al (off + (m * (n * a1 + p) + (n * a2 + q)))
          = V (n * a1 + p) (n * a2 + q)) := by
  refine ⟨fun off al j hj => ?_, fun off r0 c0 V al hoff hc hReq hal A1 A2 p q hA hA1 hp hq => ?_⟩
  · unfold symLoops
    refine loop_keeps (fun s : Nat → R => s j) ?_ al
    intro a1 ha1 s
    refine loop_keeps (fun s : Nat → R => s j) ?_ s
    intro a2 ha2 s
    refine hsub.1 _ s j (fun p q hp hq => ?_)
    rw [blk_index]
    exact hj _ _ (blk_lt ha1 hp) (blk_lt (by omega : a2 < count) hq)
  · have hA2 : A2 < count := by omega
    -- a block other than the target's leaves the target's entries alone
    have K1 : ∀ a1 a2, a1 < count → a2 < count → ¬(a1 = A1 ∧ a2 = A2) → ∀ (s : Nat → R) p' q',
        p' < n → q' < n →
        sub (off + n * (m * a1 + a2)) s (off + (m * (n * A1 + p') + (n * A2 + q')))
          = s (off + (m * (n * A1 + p') + (n * A2 + q'))) := by
      intro a1 a2 ha1 ha2 hne s p' q' hp' hq'
      refine hsub.1 _ s _ (fun p'' q'' hp'' hq'' heq => hne ?_)
      rw [blk_index] at heq
      have h1 := blk_lt hA2 hq'
      have h2 := blk_lt ha2 hq''
      obtain ⟨hr, hcq⟩ := idx2_inj (m := m) (by omega) (by omega)
        (Nat.add_left_cancel heq)
      exact ⟨(idx2_inj hp' hp'' hr).1.symm, (idx2_inj hq' hq'' hcq).1.symm⟩
    -- the target's block, once its picked entries are right, is completed
    have K2 : ∀ s : Nat → R,
        (∀ p' q', p' < n → q' < n → G p' q' →
          s (off + (m * (n * A1 + p') + (n * A2 + q'))) = V (n * A1 + p') (n * A2 + q')) →
        ∀ p' q', p' < n → q' < n →
          sub (off + n * (m * A1 + A2)) s (off + (m * (n * A1 + p') + (n * A2 + q')))
            = V (n * A1 + p') (n * A2 + q') := by
      intro s hs p' q' hp' hq'
      have hoff' : off + n * (m * A1 + A2) = m * (r0 + n * A1) + (c0 + n * A2) := by
        rw [hoff]; ring
      have hcb : c0 + n * A2 + n ≤ m := by
        have := blk_lt (n := n) hA2 (p := 0)
        have h : n * (A2 + 1) ≤ n * count := Nat.mul_le_mul_left n hA2
        rw [Nat.mul_add, Nat.mul_one] at h
        omega
      have := hsub.2 (off + n * (m * A1 + A2)) (r0 + n * A1) (c0 + n * A2)
        (fun p q => V (n * A1 + p) (n * A2 + q)) s hoff' hcb (hReq A1 A2 hA1 hA2)
        (fun p'' q'' hp'' hq'' hG => by rw [blk_index]; exact hs p'' q'' hp'' hq'' hG)
        p' q' hp' hq'
      rw [blk_index] at this
      exact this
    -- every block operation keeps the target's picked entries right
    have KP : ∀ a1 a2, a1 < count → a2 < count → ∀ s : Nat → R,
        (∀ p' q', p' < n → q' < n → G p' q' →
          s (off + (m * (n * A1 + p') + (n * A2 + q'))) = V (n * A1 + p') (n * A2 + q')) →
        ∀ p' q', p' < n → q' < n → G p' q' →
          sub (off + n * (m * a1 + a2)) s (off + (m * (n * A1 + p') + (n * A2 + q')))
            = V (n * A1 + p') (n * A2 + q') := by
      intro a1 a2 ha1 ha2 s hs p' q' hp' hq' hG
      by_cases hb : a1 = A1 ∧ a2 = A2
      · obtain ⟨rfl, rfl⟩ := hb
        exact K2 s hs p' q' hp' hq'
      · rw [K1 a1 a2 ha1 ha2 hb s p' q' hp' hq']
        exact hs p' q' hp' hq' hG
    unfold symLoops
    refine loop_sets_inv
      (fun s : Nat → R => ∀ p' q', p' < n → q' < n → G p' q' →
        s (off + (m * (n * A1 + p') + (n * A2 + q'))) = V (n * A1 + p') (n * A2 + q'))
      (fun s : Nat → R => s (off + (m * (n * A1 + p) + (n * A2 + q)))) A1 hA1 ?_ ?_ ?_
      (fun p' q' hp' hq' hG => hal A1 A2 p' q' hA hA1 hp' hq' hG)
    · intro a1 ha1 s hs
      refine loop_inv (fun s : Nat → R => ∀ p' q', p' < n → q' < n → G p' q' →
        s (off + (m * (n * A1 + p') + (n * A2 + q'))) = V (n * A1 + p') (n * A2 + q')) ?_ hs
      intro a2 ha2 s hs
      exact KP a1 a2 ha1 (by omega) s hs
    · intro s hs
      refine loop_sets_inv
        (fun s : Nat → R => ∀ p' q', p' < n → q' < n → G p' q' →
          s (off + (m * (n * A1 + p') + (n * A2 + q'))) = V (n * A1 + p') (n * A2 + q'))
        (fun s : Nat → R => s (off + (m * (n * A1 + p) + (n * A2 + q)))) A2
        (Nat.lt_succ_of_le hA) ?_ ?_ ?_ hs
      · intro a2 ha2 s hs
        exact KP A1 a2 hA1 (by omega) s hs
      · intro s hs
        exact K2 s hs p q hp hq
      · intro a2 ha2 hlt s
        exact K1 A1 a2 hA1 (by omega) (by omega) s p q hp hq
    · intro a1 ha1 hlt s
      refine loop_keeps (fun s : Nat → R => s (off + (m * (n * A1 + p) + (n * A2 + q)))) ?_ s
      intro a2 ha2 s
      exact K1 a1 a2 ha1 (by omega) (by omega) s p q hp hq

/-- Block loops followed by the mirror pass of the enclosing block complete the enclosing
block. -/
theorem sym_blockFix (m n count : Nat) (sub : Nat → (Nat → R) → Nat → R)
    (G : Nat → Nat → Prop) (Req : (Nat → Nat → R) → Prop) (hsub : BlockFix m n sub G Req) :
    BlockFix m (n * count)
      (fun off al => mirror m off (n * count) (symLoops m n count off sub al))
      (liftG n count G) (liftReq n count Req) := by
  obtain ⟨hframe, hfix⟩ := symLoops_fix m n count sub G Req hsub
  refine ⟨fun off al j hj => ?_, fun off r0 c0 V al hoff hc hV hal P Q hP hQ => ?_⟩
  · dsimp only
    rw [mirror_miss m off (n * count) _ (fun x1 hx1 x2 hx2 => hj x2 x1 (by omega) hx1)]
    exact hframe off al j hj
  · dsimp only
    have hn : n * count ≤ m := by omega
    have hfix' := hfix off r0 c0 V al hoff hc hV.2
      (fun a1 a2 p q ha ha1 hp hq hG =>
        hal _ _ (blk_lt ha1 hp) (blk_lt (by omega : a2 < count) hq)
          ⟨a1, a2, p, q, ha, ha1, hp, hq, hG, rfl, rfl⟩)
    obtain ⟨a1, p, ha1, hp, rfl⟩ := blk_decomp hP
    obtain ⟨a2, q, ha2, hq, rfl⟩ := blk_decomp hQ
    by_cases h : n * a2 + q ≤ n * a1 + p
    · have hm : mirror m off (n * count) (symLoops m n count off sub al)
          (off + (m * (n * a1 + p) + (n * a2 + q)))
          = symLoops m n count off sub al (off + (m * (n * a1 + p) + (n * a2 + q))) := by
        refine mirror_miss m off (n * count) _ (fun x1 hx1 x2 hx2 => ?_)
        have := idx2_ne (m := m) (r := n * a1 + p) (c := n * a2 + q) (s := x2) (d := x1)
          (by omega) (by omega) (by omega)
        omega
      rw [hm]
      exact hfix' a1 a2 p q (digit_le_of_le hp h) ha1 hp hq
    · have h' : n * a1 + p < n * a2 + q := by omega
      rw [mirror_hit m off (n * count) _ hn hQ h',
        hfix' a2 a1 q p (digit_le_of_le hq (le_of_lt h')) ha2 hq hp]
      exact hV.1 _ _ hQ hP

end Symmetrizer

end SpmBrainwarp

namespace SpmBrainwarp

theorem digit_div {n a x : Nat} (hx : x < n) : (n * a + x) / n = a := by
  have hn : 0 < n := by omega
  rw [Nat.mul_add_div hn, Nat.div_eq_of_lt hx, Nat.add_zero]

theorem digit_mod {n a x : Nat} (hx : x < n) : (n * a + x) % n = x := by
  rw [Nat.mul_add_mod, Nat.mod_eq_of_lt hx]

section DesignRow

variable {R : Type} [LinearOrderedCommRing R]

/-- The dense design row at a spatial index, by coordinates, in the specification's words. -/
theorem designRow_spatial (a : Args R) (sx sy sz : Nat) {i z y x : Nat} (hi : i < 3)
    (hz : z < a.nz) (hy : y < a.ny) (hx : x < a.nx) :
    designRow a sx sy sz (i * a.nx * a.ny * a.nz + x + a.nx * y + a.nx * a.ny * z)
      = -gradAt a sx sy sz i * a.BX (dim1 a 0 * x + sx) * a.BY (dim1 a 1 * y + sy)
        * a.BZ (dim1 a 2 * z + sz) := by
  have hlt : i * a.nx * a.ny * a.nz + x + a.nx * y + a.nx * a.ny * z
      < 3 * a.nx * a.ny * a.nz := flat3_lt hi hx hy hz
  have hxy : a.nx * y + x < a.nx * a.ny := xy_lt hy hx
  have hxyz : a.nx * a.ny * z + (a.nx * y + x) < a.nx * a.ny * a.nz := blk_lt hz hxy
  have e1 : i * a.nx * a.ny * a.nz + x + a.nx * y + a.nx * a.ny * z
      = a.nx * a.ny * a.nz * i + (a.nx * a.ny * z + (a.nx * y + x)) := by ring
  have e2 : i * a.nx * a.ny * a.nz + x + a.nx * y + a.nx * a.ny * z
      = a.nx * (a.ny * (a.nz * i + z) + y) + x := by ring
  have e3 : i * a.nx * a.ny * a.nz + x + a.nx * y + a.nx * a.ny * z
      = a.nx * a.ny * (a.nz * i + z) + (a.nx * y + x) := by ring
  have d1 : (i * a.nx * a.ny * a.nz + x + a.nx * y + a.nx * a.ny * z) / (a.nx * a.ny * a.nz)
      = i := by rw [e1]; exact digit_div hxyz
  have d2 : (i * a.nx * a.ny * a.nz + x + a.nx * y + a.nx * a.ny * z) % a.nx = x := by
    rw [e2]; exact digit_mod hx
  have d3 : (i * a.nx * a.ny * a.nz + x + a.nx * y + a.nx * a.ny * z) / a.nx % a.ny = y := by
    rw [e2, digit_div hx]; exact digit_mod hy
  have d4 : (i * a.nx * a.ny * a.nz + x + a.nx * y + a.nx * a.ny * z) / (a.nx * a.ny) % a.nz
      = z := by
    rw [e3, digit_div hxy]; exact digit_mod hz
  unfold designRow
  rw [if_pos hlt, d1, d2, d3, d4]

/-- The dense design row at an intensity index, in the specification's words. -/
theorem designRow_intensity (a : Args R) (sx sy sz : Nat) (t k : Nat) (hk : k < 4) :
    designRow a sx sy sz (3 * a.nx * a.ny * a.nz + 4 * t + k)
      = tmplVal a t (s0v sx sy sz) * coupling (s2At a sx sy sz) k := by
  unfold designRow
  rw [if_neg (by omega)]
  have e1 : (3 * a.nx * a.ny * a.nz + 4 * t + k - 3 * a.nx * a.ny * a.nz) / 4 = t := by omega
  have e2 : (3 * a.nx * a.ny * a.nz + 4 * t + k - 3 * a.nx * a.ny * a.nz) % 4 = k := by omega
  rw [e1, e2]

/-- The spatial entries that the Kronecker stages build are those of the dense design row. -/
theorem designRow_dS (a : Args R) (sx sy sz : Nat) {i z y x : Nat} (hi : i < 3)
    (hz : z < a.nz) (hy : y < a.ny) (hx : x < a.nx) :
    designRow a sx sy sz (a.nx * a.ny * (a.nz * i + z) + (a.nx * y + x))
      = dS a sx sy sz i z y x := by
  have e : a.nx * a.ny * (a.nz * i + z) + (a.nx * y + x)
      = i * a.nx * a.ny * a.nz + x + a.nx * y + a.nx * a.ny * z := by ring
  have hX := voxAt_dvdt_spatial a sx sy sz hi hx
  rw [Nat.mul_comm i a.nx] at hX
  rw [e, designRow_spatial a sx sy sz hi hz hy hx]
  unfold dS dXY dX
  rw [hX]
  ring

/-- The intensity entries that the stages carry along are those of the dense design row. -/
theorem designRow_dI (a : Args R) (sx sy sz : Nat) {t : Nat} (ht : t < ni4 a) :
    designRow a sx sy sz (3 * a.nx * a.ny * a.nz + t) = dI a sx sy sz t := by
  have e : 3 * a.nx * a.ny * a.nz + t = 3 * a.nx * a.ny * a.nz + 4 * (t / 4) + t % 4 := by
    omega
  have hlt : t / 4 < a.ni := by unfold ni4 at ht; omega
  have hI := voxAt_dvdt_intensity a sx sy sz hlt (Nat.mod_lt t (by omega : 0 < 4))
  have e2 : t / 4 * 4 + t % 4 + 3 * a.nx = 3 * a.nx + t := by omega
  rw [e2] at hI
  rw [e, designRow_intensity a sx sy sz _ _ (Nat.mod_lt t (by omega))]
  unfold dI dX
  rw [hI]

end DesignRow

end SpmBrainwarp

namespace SpmBrainwarp

/-- Every spatial index is the flat index of coordinates `(i, z, y, x)`. -/
theorem spatial_decomp {nx ny nz p : Nat} (hp : p < 3 * nx * ny * nz) :
    ∃ i z y x, i < 3 ∧ z < nz ∧ y < ny ∧ x < nx ∧ p = nx * ny * (nz * i + z) + (nx * y + x) := by
  have e : 3 * nx * ny * nz = nx * ny * (nz * 3) := by ring
  rw [e] at hp
  obtain ⟨c, q, hc, hq, rfl⟩ := blk_decomp hp
  obtain ⟨i, z, hi, hz, rfl⟩ := blk_decomp hc
  obtain ⟨y, x, hy, hx, rfl⟩ := blk_decomp hq
  exact ⟨i, z, y, x, hi, hz, hy, hx, rfl⟩

section BetaFinal

variable {R : Type} [LinearOrderedCommRing R]

theorem mrqcof_beta (a : Args R) (alpha0 beta0 sd0 : Nat → R) :
    (mrqcof a alpha0 beta0 sd0).beta = (accumulate a alpha0 beta0 sd0).beta := rfl

/-- Every entry of the returned `beta` is the entry of the naive right-hand side. -/
theorem beta_entry (a : Args R) (alpha0 beta0 sd0 : Nat → R) {p : Nat}
    (hp : p < 3 * a.nx * a.ny * a.nz + ni4 a) :
    (mrqcof a alpha0 beta0 sd0).beta p = naiveBeta a p := by
  rw [mrqcof_beta]
  unfold naiveBeta
  by_cases h : p < 3 * a.nx * a.ny * a.nz
  · obtain ⟨i, z, y, x, hi, hz, hy, hx, rfl⟩ := spatial_decomp h
    rw [acc_beta_s a alpha0 beta0 sd0 hi hz hy hx]
    refine voxelSum_congr a (fun sx sy sz _ => ?_)
    rw [designRow_dS a sx sy sz hi hz hy hx, voxAt_dv_eq_residual]
  · obtain ⟨t, rfl⟩ : ∃ t, p = 3 * a.nx * a.ny * a.nz + t := ⟨p - 3 * a.nx * a.ny * a.nz, by omega⟩
    have ht : t < ni4 a := by omega
    rw [acc_beta_i a alpha0 beta0 sd0 ht]
    refine voxelSum_congr a (fun sx sy sz _ => ?_)
    rw [designRow_dI a sx sy sz ht, voxAt_dv_eq_residual]

/-- C3: every entry of the vector `beta` returned by `mrqcof` is the entry of the dense
`A'b`: `beta[p]` is the sum over the accepted sampled voxels of `d[p]*dv`, `d` the voxel's
full design row of length `P = 3*nx*ny*nz + 4*N` (spatial entries `-dvds1[i]*BX*BY*BZ`,
intensity entries the template value times `(1, s2x, s2y, s2z)`) and `dv` its residual. -/
theorem beta_eq_dense_normal_equations (a : Args R) (alpha0 beta0 sd0 : Nat → R) (p : Nat)
    (hp : p < 3 * a.nx * a.ny * a.nz + 4 * a.ni) :
    (mrqcof a alpha0 beta0 sd0).beta p
      = voxelSum a (fun sx sy sz => designRow a sx sy sz p * residual a sx sy sz) :=
  beta_entry a alpha0 beta0 sd0 (by unfold ni4; omega)

/-- Witness of C3 on the degenerate input, entry 4 of the 7 entries of `beta`. -/
theorem beta_eq_dense_normal_equations_witness :
    (4 : Nat) < 3 * degenerateArgs.nx * degenerateArgs.ny * degenerateArgs.nz
      + 4 * degenerateArgs.ni ∧
    (mrqcof degenerateArgs zeroBuf zeroBuf zeroBuf).beta 4
      = voxelSum degenerateArgs (fun sx sy sz =>
          designRow degenerateArgs sx sy sz 4 * residual degenerateArgs sx sy sz) :=
  ⟨by decide, beta_eq_dense_normal_equations degenerateArgs zeroBuf zeroBuf zeroBuf 4 (by decide)⟩

end BetaFinal

end SpmBrainwarp

namespace SpmBrainwarp

section AlphaFinal

variable {R : Type} [LinearOrderedCommRing R]

theorem naiveAlpha_comm (a : Args R) (p q : Nat) : naiveAlpha a p q = naiveAlpha a q p := by
  unfold naiveAlpha
  exact voxelSum_congr a (fun sx sy sz _ => mul_comm _ _)

/-- The naive matrix at two spatial indices, with the factors grouped by axis. -/
theorem naiveAlpha_sep (a : Args R) {i1 z1 y1 x1 i2 z2 y2 x2 : Nat} (hi1 : i1 < 3)
    (hz1 : z1 < a.nz) (hy1 : y1 < a.ny) (hx1 : x1 < a.nx) (hi2 : i2 < 3) (hz2 : z2 < a.nz)
    (hy2 : y2 < a.ny) (hx2 : x2 < a.nx) :
    naiveAlpha a (a.nx * a.ny * a.nz * i1 + (a.nx * a.ny * z1 + (a.nx * y1 + x1)))
        (a.nx * a.ny * a.nz * i2 + (a.nx * a.ny * z2 + (a.nx * y2 + x2)))
      = voxelSum a (fun sx sy sz =>
          (gradAt a sx sy sz i1 * gradAt a sx sy sz i2)
            * (a.BX (dim1 a 0 * x1 + sx) * a.BX (dim1 a 0 * x2 + sx))
            * (a.BY (dim1 a 1 * y1 + sy) * a.BY (dim1 a 1 * y2 + sy))
            * (a.BZ (dim1 a 2 * z1 + sz) * a.BZ (dim1 a 2 * z2 + sz))) := by
  have e1 : a.nx * a.ny * a.nz * i1 + (a.nx * a.ny * z1 + (a.nx * y1 + x1))
      = i1 * a.nx * a.ny * a.nz + x1 + a.nx * y1 + a.nx * a.ny * z1 := by ring
  have e2 : a.nx * a.ny * a.nz * i2 + (a.nx * a.ny * z2 + (a.nx * y2 + x2))
      = i2 * a.nx * a.ny * a.nz + x2 + a.nx * y2 + a.nx * a.ny * z2 := by ring
  unfold naiveAlpha
  refine voxelSum_congr a (fun sx sy sz _ => ?_)
  rw [e1, e2, designRow_spatial a sx sy sz hi1 hz1 hy1 hx1,
    designRow_spatial a sx sy sz hi2 hz2 hy2 hx2]
  ring

/-- The values of the naive matrix on a block `(i1, i2)` meet what the symmetrizer of a block
relies on: they are symmetric at each of its three levels. -/
theorem naiveAlpha_req (a : Args R) {i1 i2 : Nat} (hi1 : i1 < 3) (hi2 : i2 < 3) :
    liftReq (a.nx * a.ny) a.nz
      (liftReq a.nx a.ny (fun V : Nat → Nat → R => ∀ p q, p < a.nx → q < a.nx → V p q = V q p))
      (fun p q => naiveAlpha a (a.nx * a.ny * a.nz * i1 + p) (a.nx * a.ny * a.nz * i2 + q)) := by
  refine ⟨fun P Q hP hQ => ?_, fun z1 z2 hz1 hz2 => ⟨fun P Q hP hQ => ?_,
    fun y1 y2 hy1 hy2 p q hp hq => ?_⟩⟩
  · obtain ⟨z1, P', hz1, hP', rfl⟩ := blk_decomp hP
    obtain ⟨y1, x1, hy1, hx1, rfl⟩ := blk_decomp hP'
    obtain ⟨z2, Q', hz2, hQ', rfl⟩ := blk_decomp hQ
    obtain ⟨y2, x2, hy2, hx2, rfl⟩ := blk_decomp hQ'
    dsimp only
    rw [naiveAlpha_sep a hi1 hz1 hy1 hx1 hi2 hz2 hy2 hx2,
      naiveAlpha_sep a hi1 hz2 hy2 hx2 hi2 hz1 hy1 hx1]
    refine voxelSum_congr a (fun sx sy sz _ => ?_)
    ring
  · obtain ⟨y1, x1, hy1, hx1, rfl⟩ := blk_decomp hP
    obtain ⟨y2, x2, hy2, hx2, rfl⟩ := blk_decomp hQ
    dsimp only
    rw [naiveAlpha_sep a hi1 hz1 hy1 hx1 hi2 hz2 hy2 hx2,
      naiveAlpha_sep a hi1 hz1 hy2 hx2 hi2 hz2 hy1 hx1]
    refine voxelSum_congr a (fun sx sy sz _ => ?_)
    ring
  · dsimp only
    rw [naiveAlpha_sep a hi1 hz1 hy1 hp hi2 hz2 hy2 hq,
      naiveAlpha_sep a hi1 hz1 hy1 hq hi2 hz2 hy2 hp]
    refine voxelSum_congr a (fun sx sy sz _ => ?_)
    ring

omit [LinearOrderedCommRing R] in
/-- The symmetrizer of one block `(i1, i2)` completes the block. -/
theorem symBlock_blockFix (m1 nx ny nz : Nat) :
    BlockFix (R := R) m1 (nx * ny * nz) (symBlock m1 nx ny nz)
      (liftG (nx * ny) nz (liftG nx ny (fun p q => q ≤ p)))
      (liftReq (nx * ny) nz
        (liftReq nx ny (fun V : Nat → Nat → R => ∀ p q, p < nx → q < nx → V p q = V q p))) :=
  sym_blockFix m1 (nx * ny) nz (symPlane m1 nx ny) _ _
    (sym_blockFix m1 nx ny (fun ptrx al => mirror m1 ptrx nx al) _ _ (mirror_blockFix m1 nx))

end AlphaFinal

end SpmBrainwarp

namespace SpmBrainwarp

section AlphaEntry

variable {R : Type} [LinearOrderedCommRing R]

/-- Before the symmetrizer, the entries of `alpha` that the Kronecker stages computed hold
the naive matrix: the spatial-spatial entries ordered on every axis. -/
theorem acc_alpha_picked (a : Args R) (alpha0 beta0 sd0 : Nat → R) (i1 i2 p q : Nat)
    (hi : i2 ≤ i1) (hi1 : i1 < 3)
    (hG : liftG (a.nx * a.ny) a.nz (liftG a.nx a.ny (fun p q => q ≤ p)) p q) :
    (accumulate a alpha0 beta0 sd0).alpha (0 + ((3 * a.nx * a.ny * a.nz + ni4 a)
        * (a.nx * a.ny * a.nz * i1 + p) + (a.nx * a.ny * a.nz * i2 + q)))
      = naiveAlpha a (a.nx * a.ny * a.nz * i1 + p) (a.nx * a.ny * a.nz * i2 + q) := by
  obtain ⟨z1, z2, P', Q', hz, hz1, _, _, ⟨y1, y2, x1, x2, hy, hy1, hx1, hx2, hx, rfl, rfl⟩,
    rfl, rfl⟩ := hG
  have e1 : a.nx * a.ny * a.nz * i1 + (a.nx * a.ny * z1 + (a.nx * y1 + x1))
      = a.nx * a.ny * (a.nz * i1 + z1) + (a.nx * y1 + x1) := by ring
  have e2 : a.nx * a.ny * a.nz * i2 + (a.nx * a.ny * z2 + (a.nx * y2 + x2))
      = a.nx * a.ny * (a.nz * i2 + z2) + (a.nx * y2 + x2) := by ring
  rw [Nat.zero_add, e1, e2, acc_alpha_ss a alpha0 beta0 sd0 hi1 hi hz1 hz hy1 hy hx1 hx]
  unfold naiveAlpha
  refine voxelSum_congr a (fun sx sy sz _ => ?_)
  rw [designRow_dS a sx sy sz hi1 hz1 hy1 hx1,
    designRow_dS a sx sy sz (by omega) (by omega) (by omega) (by omega)]

/-- After the block loops of the symmetrizer the lower triangle of `alpha` holds the naive
matrix. -/
theorem symLoops_lower (a : Args R) (alpha0 beta0 sd0 : Nat → R) {p q : Nat}
    (hp : p < a.nx * a.ny * a.nz * 3 + ni4 a) (hq : q ≤ p) :
    symLoops (3 * a.nx * a.ny * a.nz + ni4 a) (a.nx * a.ny * a.nz) 3 0
        (symBlock (3 * a.nx * a.ny * a.nz + ni4 a) a.nx a.ny a.nz)
        (accumulate a alpha0 beta0 sd0).alpha
        (0 + ((3 * a.nx * a.ny * a.nz + ni4 a) * p + q))
      = naiveAlpha a p q := by
  have e3 : 3 * a.nx * a.ny * a.nz = a.nx * a.ny * a.nz * 3 := by ring
  obtain ⟨hframe, hfix⟩ := symLoops_fix (R := R) (3 * a.nx * a.ny * a.nz + ni4 a)
    (a.nx * a.ny * a.nz) 3 (symBlock (3 * a.nx * a.ny * a.nz + ni4 a) a.nx a.ny a.nz) _ _
    (symBlock_blockFix _ a.nx a.ny a.nz)
  by_cases h : p < a.nx * a.ny * a.nz * 3
  · obtain ⟨i1, p', hi1, hp', rfl⟩ := blk_decomp h
    obtain ⟨i2, q', hi2, hq', rfl⟩ := blk_decomp (lt_of_le_of_lt hq h)
    exact hfix 0 0 0 (naiveAlpha a) _ (by simp) (by omega)
      (fun j1 j2 hj1 hj2 => naiveAlpha_req a hj1 hj2)
      (fun j1 j2 p'' q'' hj hj1 _ _ hG => acc_alpha_picked a alpha0 beta0 sd0 j1 j2 p'' q'' hj
        hj1 hG)
      i1 i2 p' q' (digit_le_of_le hp' hq) hi1 hp' hq'
  · rw [hframe 0 _ _ (fun P Q hP hQ => by
      have := idx2_ne (m := 3 * a.nx * a.ny * a.nz + ni4 a) (r := p) (c := q) (s := P)
        (d := Q) (by omega) (by omega) (by omega)
      omega)]
    obtain ⟨t, rfl⟩ : ∃ t, p = 3 * a.nx * a.ny * a.nz + t :=
      ⟨p - 3 * a.nx * a.ny * a.nz, by omega⟩
    have ht : t < ni4 a := by omega
    rw [Nat.zero_add]
    unfold naiveAlpha
    by_cases hq3 : q < 3 * a.nx * a.ny * a.nz
    · obtain ⟨i, z, y, x, hi, hz, hy, hx, rfl⟩ := spatial_decomp hq3
      rw [acc_alpha_si a alpha0 beta0 sd0 ht hi hz hy hx]
      refine voxelSum_congr a (fun sx sy sz _ => ?_)
      rw [designRow_dI a sx sy sz ht, designRow_dS a sx sy sz hi hz hy hx]
    · obtain ⟨t2, rfl⟩ : ∃ t2, q = 3 * a.nx * a.ny * a.nz + t2 :=
        ⟨q - 3 * a.nx * a.ny * a.nz, by omega⟩
      rw [acc_alpha_ii a alpha0 beta0 sd0 ht (by omega : t2 ≤ t)]
      refine voxelSum_congr a (fun sx sy sz _ => ?_)
      rw [designRow_dI a sx sy sz ht, designRow_dI a sx sy sz (by omega)]

/-- Every entry of the returned `alpha` is the entry of the naive normal-equation matrix. -/
theorem alpha_entry (a : Args R) (alpha0 beta0 sd0 : Nat → R) {p q : Nat}
    (hp : p < 3 * a.nx * a.ny * a.nz + ni4 a) (hq : q < 3 * a.nx * a.ny * a.nz + ni4 a) :
    (mrqcof a alpha0 beta0 sd0).alpha ((3 * a.nx * a.ny * a.nz + ni4 a) * p + q)
      = naiveAlpha a p q := by
  have e3 : 3 * a.nx * a.ny * a.nz = a.nx * a.ny * a.nz * 3 := by ring
  have h := (mirror_blockFix (R := R) (3 * a.nx * a.ny * a.nz + ni4 a)
    (a.nx * a.ny * a.nz * 3 + ni4 a)).2 0 0 0 (naiveAlpha a)
    (symLoops (3 * a.nx * a.ny * a.nz + ni4 a) (a.nx * a.ny * a.nz) 3 0
      (symBlock (3 * a.nx * a.ny * a.nz + ni4 a) a.nx a.ny a.nz)
      (accumulate a alpha0 beta0 sd0).alpha)
    (by simp) (by omega) (fun p q _ _ => naiveAlpha_comm a p q)
    (fun p q hp _ hG => symLoops_lower a alpha0 beta0 sd0 hp hG) p q (by omega) (by omega)
  rw [Nat.zero_add] at h
  exact h

end AlphaEntry

end SpmBrainwarp

namespace SpmBrainwarp

section Claims14

variable {R : Type} [LinearOrderedCommRing R]

/-- C1: every entry of the matrix `alpha` returned by `mrqcof` is the entry of the naive
normal-equation matrix: `alpha[p][q]` is the sum over the accepted sampled voxels of
`d[p]*d[q]`, `d` the voxel's dense design row of length `P = 3*nx*ny*nz + 4*N`; the x-row,
xy-plane and xyz-volume Kronecker accumulation followed by the symmetrizer computes what the
dense outer product per voxel computes. -/
theorem alpha_eq_dense_normal_equations (a : Args R) (alpha0 beta0 sd0 : Nat → R) (p q : Nat)
    (hp : p < 3 * a.nx * a.ny * a.nz + 4 * a.ni) (hq : q < 3 * a.nx * a.ny * a.nz + 4 * a.ni) :
    (mrqcof a alpha0 beta0 sd0).alpha ((3 * a.nx * a.ny * a.nz + 4 * a.ni) * p + q)
      = voxelSum a (fun sx sy sz => designRow a sx sy sz p * designRow a sx sy sz q) := by
  have e : 4 * a.ni = ni4 a := by unfold ni4; omega
  rw [e] at hp hq ⊢
  exact alpha_entry a alpha0 beta0 sd0 hp hq

/-- Witness of C1 on the degenerate input, entry `(1, 6)` of the 7x7 matrix. -/
theorem alpha_eq_dense_normal_equations_witness :
    (1 : Nat) < 3 * degenerateArgs.nx * degenerateArgs.ny * degenerateArgs.nz
      + 4 * degenerateArgs.ni ∧
    (6 : Nat) < 3 * degenerateArgs.nx * degenerateArgs.ny * degenerateArgs.nz
      + 4 * degenerateArgs.ni ∧
    (mrqcof degenerateArgs zeroBuf zeroBuf zeroBuf).alpha
        ((3 * degenerateArgs.nx * degenerateArgs.ny * degenerateArgs.nz
          + 4 * degenerateArgs.ni) * 1 + 6)
      = voxelSum degenerateArgs (fun sx sy sz =>
          designRow degenerateArgs sx sy sz 1 * designRow degenerateArgs sx sy sz 6) :=
  ⟨by decide, by decide,
    alpha_eq_dense_normal_equations degenerateArgs zeroBuf zeroBuf zeroBuf 1 6 (by decide)
      (by decide)⟩

theorem voxelSum_add (a : Args R) (f g : Nat → Nat → Nat → R) :
    voxelSum a (fun sx sy sz => f sx sy sz + g sx sy sz) = voxelSum a f + voxelSum a g := by
  unfold voxelSum
  have inner : ∀ sz sy, ((grid (dim1 a 0) (a.samp 0)).map fun sx =>
      if accepted a sx sy sz then f sx sy sz + g sx sy sz else 0).sum
      = ((grid (dim1 a 0) (a.samp 0)).map fun sx =>
          if accepted a sx sy sz then f sx sy sz else 0).sum
        + ((grid (dim1 a 0) (a.samp 0)).map fun sx =>
          if accepted a sx sy sz then g sx sy sz else 0).sum := by
    intro sz sy
    rw [← List.sum_map_add]
    congr 1
    refine List.map_congr_left (fun sx _ => ?_)
    split <;> simp
  simp only [inner, List.sum_map_add]

theorem voxelSum_zero (a : Args R) : voxelSum a (fun _ _ _ => (0 : R)) = 0 := by
  unfold voxelSum
  simp

theorem voxelSum_mul_left (a : Args R) (c : R) (f : Nat → Nat → Nat → R) :
    c * voxelSum a f = voxelSum a (fun sx sy sz => c * f sx sy sz) := by
  rw [voxelSum_eq_planeSum, voxelSum_eq_planeSum, ← List.sum_map_mul_left]
  congr 1
  refine List.map_congr_left (fun sz _ => ?_)
  exact planeSum_mul_left a sz c _

theorem voxelSum_finset_sum (a : Args R) (s : Finset Nat) (f : Nat → Nat → Nat → Nat → R) :
    ∑ i in s, voxelSum a (f i) = voxelSum a (fun sx sy sz => ∑ i in s, f i sx sy sz) := by
  induction s using Finset.induction_on with
  | empty => simp [voxelSum_zero]
  | insert hi ih =>
    rw [Finset.sum_insert hi, ih, ← voxelSum_add]
    refine voxelSum_congr a (fun sx sy sz _ => ?_)
    rw [Finset.sum_insert hi]

theorem voxelSum_nonneg (a : Args R) (f : Nat → Nat → Nat → R)
    (h : ∀ sx sy sz, 0 ≤ f sx sy sz) : 0 ≤ voxelSum a f := by
  unfold voxelSum
  refine List.sum_nonneg (fun x hx => ?_)
  obtain ⟨sz, _, rfl⟩ := List.mem_map.mp hx
  refine List.sum_nonneg (fun x hx => ?_)
  obtain ⟨sy, _, rfl⟩ := List.mem_map.mp hx
  refine List.sum_nonneg (fun x hx => ?_)
  obtain ⟨sx, _, rfl⟩ := List.mem_map.mp hx
  split
  · exact h sx sy sz
  · exact le_refl 0

/-- C4: the matrix `alpha` returned by `mrqcof` is positive semi-definite: for every vector
`v` of length `P = 3*nx*ny*nz + 4*N`, the sum over `i, j < P` of `v[i]*alpha[i][j]*v[j]` is at
least 0 (it is the sum over the accepted voxels of the square of `sum_i v[i]*d[i]`). -/
theorem alpha_positive_semidefinite (a : Args R) (alpha0 beta0 sd0 : Nat → R) (v : Nat → R) :
    0 ≤ ∑ i in Finset.range (3 * a.nx * a.ny * a.nz + 4 * a.ni),
      ∑ j in Finset.range (3 * a.nx * a.ny * a.nz + 4 * a.ni),
        v i * (mrqcof a alpha0 beta0 sd0).alpha ((3 * a.nx * a.ny * a.nz + 4 * a.ni) * i + j)
          * v j := by
  have e : 4 * a.ni = ni4 a := by unfold ni4; omega
  rw [e]
  have h1 : ∑ i in Finset.range (3 * a.nx * a.ny * a.nz + ni4 a),
      ∑ j in Finset.range (3 * a.nx * a.ny * a.nz + ni4 a),
        v i * (mrqcof a alpha0 beta0 sd0).alpha ((3 * a.nx * a.ny * a.nz + ni4 a) * i + j)
          * v j
      = voxelSum a (fun sx sy sz =>
          (∑ i in Finset.range (3 * a.nx * a.ny * a.nz + ni4 a), v i * designRow a sx sy sz i)
          * (∑ i in Finset.range (3 * a.nx * a.ny * a.nz + ni4 a),
              v i * designRow a sx sy sz i)) := by
    have h2 : ∀ i ∈ Finset.range (3 * a.nx * a.ny * a.nz + ni4 a),
        ∑ j in Finset.range (3 * a.nx * a.ny * a.nz + ni4 a),
          v i * (mrqcof a alpha0 beta0 sd0).alpha ((3 * a.nx * a.ny * a.nz + ni4 a) * i + j)
            * v j
        = voxelSum a (fun sx sy sz =>
            ∑ j in Finset.range (3 * a.nx * a.ny * a.nz + ni4 a),
              (v i * designRow a sx sy sz i) * (v j * designRow a sx sy sz j)) := by
      intro i hi
      rw [← voxelSum_finset_sum]
      refine Finset.sum_congr rfl (fun j hj => ?_)
      rw [alpha_entry a alpha0 beta0 sd0 (Finset.mem_range.mp hi) (Finset.mem_range.mp hj),
        mul_comm (v i * naiveAlpha a i j) (v j), ← mul_assoc, naiveAlpha, voxelSum_mul_left]
      refine voxelSum_congr a (fun sx sy sz _ => ?_)
      ring
    rw [Finset.sum_congr rfl h2, voxelSum_finset_sum]
    refine voxelSum_congr a (fun sx sy sz _ => ?_)
    rw [Finset.sum_mul_sum]
  rw [h1]
  exact voxelSum_nonneg a _ (fun sx sy sz => mul_self_nonneg _)

end Claims14

end SpmBrainwarp

namespace SpmBrainwarp

/-! ## The gateway: configuration checks -/

theorem gatewayInput_basisError : basisError gatewayInput = none := by decide

theorem gatewayInput_configError : configError gatewayInput = none := by decide

section GatewayChecks

variable {R : Type} [LinearOrderedField R]

/-- A call that fails a check ends in that error. -/
theorem mexFunction_error (env : Env R) (inp : Input R) {e : Err} (h : configError inp = some e) :
    mexFunction env inp = .error e := by
  unfold mexFunction
  rw [h]

/-- A call that passes every check produces the outputs. -/
theorem mexFunction_ok (env : Env R) (inp : Input R) (h : configError inp = none) :
    mexFunction env inp = .ok (finish env inp) := by
  unfold mexFunction
  rw [h]

omit [LinearOrderedField R] in
/-- An error of the checks up to the basis matrices is the error of the call. -/
theorem configError_of_basisError (inp : Input R) {e : Err} (h : basisError inp = some e) :
    configError inp = some e := by
  unfold configError
  rw [h]

/-- C12: for every call that passes the checks before the one on `T`, a number of elements
of `T` (rows*cols of `prhs[9]`) other than `3*nx*ny*nz + 4*N` ends the call in the error
"Transform is wrong size." - the result is that error, so no output is produced and `mrqcof`,
which lies on the path of the outputs only, is not called; and with the number equal to
`3*nx*ny*nz + 4*N` the call does not end in this error. -/
theorem transform_size_check (env : Env R) (inp : Input R) (h : basisError inp = none) :
    ((inp.prhs 9).m * (inp.prhs 9).n ≠ 3 * nxOf inp * nyOf inp * nzOf inp + inp.ni * 4 →
      configError inp = some .transformSize ∧ mexFunction env inp = .error .transformSize) ∧
    ((inp.prhs 9).m * (inp.prhs 9).n = 3 * nxOf inp * nyOf inp * nzOf inp + inp.ni * 4 →
      configError inp ≠ some .transformSize ∧ mexFunction env inp ≠ .error .transformSize) := by
  constructor
  · intro hne
    have hc : configError inp = some .transformSize := by
      unfold configError
      rw [h]
      exact if_pos hne
    exact ⟨hc, mexFunction_error env inp hc⟩
  · intro heq
    have hc : configError inp ≠ some .transformSize := by
      unfold configError
      rw [h]
      dsimp only
      rw [if_neg (not_not.mpr heq)]
      split
      · simp
      · split <;> simp
    refine ⟨hc, ?_⟩
    unfold mexFunction
    cases hce : configError inp with
    | none => simp
    | some e =>
      intro he
      apply hc
      rw [hce]
      simp only [Except.error.injEq] at he
      rw [he]

theorem transform_size_check_witness :
    (configError (withArg 9 (fullArray 6 1 (fun _ => 0))) = some .transformSize ∧
      mexFunction plainEnv (withArg 9 (fullArray 6 1 (fun _ => 0))) = .error .transformSize) ∧
    (configError gatewayInput ≠ some .transformSize ∧
      mexFunction plainEnv gatewayInput ≠ .error .transformSize) :=
  ⟨(transform_size_check plainEnv (withArg 9 (fullArray 6 1 (fun _ => 0))) (by decide)).1
      (by decide),
    (transform_size_check plainEnv gatewayInput (by decide)).2 (by decide)⟩

/-- C13 (as the code has it): the row counts of the basis matrices are checked against the
voxel counts of the first template `map1[0]`: for every call, if the row count of `BX`, `BY`
or `BZ` (or of `dBX`, `dBY`, `dBZ`) differs from the voxel count of the first template along
that axis, one of the checks up to the basis matrices fails and the call ends in its error. -/
theorem basis_rows_match_template (env : Env R) (inp : Input R)
    (h : (inp.prhs 3).m ≠ (inp.map1 0).dim 0 ∨ (inp.prhs 4).m ≠ (inp.map1 0).dim 1
      ∨ (inp.prhs 5).m ≠ (inp.map1 0).dim 2 ∨ (inp.prhs 6).m ≠ (inp.map1 0).dim 0
      ∨ (inp.prhs 7).m ≠ (inp.map1 0).dim 1 ∨ (inp.prhs 8).m ≠ (inp.map1 0).dim 2) :
    ∃ e, basisError inp = some e ∧ mexFunction env inp = .error e := by
  have hb : basisError inp ≠ none := by
    intro hn
    unfold basisError at hn
    by_cases h1 : inp.nrhs ≠ 11 ∨ inp.nlhs > 4
    · rw [if_pos h1] at hn; cases hn
    rw [if_neg h1] at hn
    by_cases h2 : inp.n2 ≠ 1
    · rw [if_pos h2] at hn; cases hn
    rw [if_neg h2] at hn
    by_cases h3 : (List.range 11).any (fun i => badType (inp.prhs i)) = true
    · rw [if_pos h3] at hn; cases hn
    rw [if_neg h3] at hn
    by_cases h4 : (inp.prhs 2).m ≠ 4 ∨ (inp.prhs 2).n ≠ 4
    · rw [if_pos h4] at hn; cases hn
    rw [if_neg h4] at hn
    by_cases h5 : (inp.prhs 3).m ≠ (inp.map1 0).dim 0
    · rw [if_pos h5] at hn; cases hn
    rw [if_neg h5] at hn
    by_cases h6 : (inp.prhs 6).m ≠ (inp.map1 0).dim 0 ∨ (inp.prhs 6).n ≠ nxOf inp
    · rw [if_pos h6] at hn; cases hn
    rw [if_neg h6] at hn
    by_cases h7 : (inp.prhs 4).m ≠ (inp.map1 0).dim 1
    · rw [if_pos h7] at hn; cases hn
    rw [if_neg h7] at hn
    by_cases h8 : (inp.prhs 7).m ≠ (inp.map1 0).dim 1 ∨ (inp.prhs 7).n ≠ nyOf inp
    · rw [if_pos h8] at hn; cases hn
    rw [if_neg h8] at hn
    by_cases h9 : (inp.prhs 5).m ≠ (inp.map1 0).dim 2
    · rw [if_pos h9] at hn; cases hn
    rw [if_neg h9] at hn
    by_cases h10 : (inp.prhs 8).m ≠ (inp.map1 0).dim 2 ∨ (inp.prhs 8).n ≠ nzOf inp
    · rw [if_pos h10] at hn; cases hn
    rw [if_neg h10] at hn
    rw [not_or] at h6 h8 h10
    rcases h with h | h | h | h | h | h
    · exact h5 h
    · exact h7 h
    · exact h9 h
    · exact h6.1 h
    · exact h8.1 h
    · exact h10.1 h
  cases hbe : basisError inp with
  | none => exact absurd hbe hb
  | some e => exact ⟨e, rfl, mexFunction_error env inp (configError_of_basisError inp hbe)⟩

theorem basis_rows_match_template_witness :
    ∃ e, basisError (withArg 3 (fullArray 5 1 (fun _ => 1))) = some e ∧
      mexFunction plainEnv (withArg 3 (fullArray 5 1 (fun _ => 1))) = .error e :=
  basis_rows_match_template plainEnv (withArg 3 (fullArray 5 1 (fun _ => 1)))
    (Or.inl (by decide))

/-- C13 as stated fails: in the call `gatewayInput` the basis matrices have 3 rows, the
moving volume has 5 voxels on every axis, and the call passes every check and produces the
outputs. -/
theorem basis_rows_vs_moving_volume :
    (gatewayInput.prhs 3).m ≠ (gatewayInput.map2 0).dim 0 ∧
    (gatewayInput.prhs 6).m ≠ (gatewayInput.map2 0).dim 0 ∧
    configError gatewayInput = none ∧
    mexFunction plainEnv gatewayInput = .ok (finish plainEnv gatewayInput) :=
  ⟨by decide, by decide, gatewayInput_configError,
    mexFunction_ok plainEnv gatewayInput gatewayInput_configError⟩

end GatewayChecks

end SpmBrainwarp

namespace SpmBrainwarp

/-! ## The gateway: controls and degrees of freedom -/

section GatewayNumbers

variable {R : Type} [LinearOrderedField R]

/-- The macro `MAX` returns the smaller of its arguments. -/
theorem MAX_eq_min (a b : R) : MAX a b = min a b := by
  unfold MAX
  split
  · rw [min_eq_right (le_of_lt ‹_›)]
  · rw [min_eq_left (not_lt.mp ‹_›)]

/-- The two tests on `fwhm2` clamp it between `fwhm` and `fwhm3`. -/
theorem clampFwhm2_eq (fwhm fwhm2 fwhm3 : R) :
    clampFwhm2 fwhm fwhm2 fwhm3 = max fwhm (min fwhm2 fwhm3) := by
  unfold clampFwhm2
  dsimp only
  have e : (if fwhm3 < fwhm2 then fwhm3 else fwhm2) = min fwhm2 fwhm3 := by
    split
    · rw [min_eq_right (le_of_lt ‹_›)]
    · rw [min_eq_left (not_lt.mp ‹_›)]
  rw [e]
  split
  · rw [max_eq_left (le_of_lt ‹_›)]
  · rw [max_eq_right (not_lt.mp ‹_›)]

/-- Each factor of the degrees of freedom is the smaller of the quotient and 1. -/
theorem dfFactor_eq_min (env : Env R) (inp : Input R) (k : Nat) :
    dfFactor env inp k = min (dfRatio env inp k) 1 :=
  MAX_eq_min _ _

/-- The value of `fwhm2` that enters the degrees of freedom, as a clamp. -/
theorem fwhm2Eff_eq (env : Env R) (inp : Input R) :
    fwhm2Eff env inp = max (fwhmOf inp) (min (fwhm2Of inp) (fwhm3Of env inp)) :=
  clampFwhm2_eq _ _ _

omit [LinearOrderedField R] in
/-- With a single smoothness value the caller's `fwhm2` is `fwhm`. -/
theorem fwhm2Of_single (inp : Input R) (h : (inp.prhs 10).m * (inp.prhs 10).n = 1) :
    fwhm2Of inp = fwhmOf inp := by
  unfold fwhm2Of fwhmOf
  rw [if_pos h]

/-- With a single smoothness value the clamp gives `fwhm`. -/
theorem fwhm2Eff_single (env : Env R) (inp : Input R)
    (h : (inp.prhs 10).m * (inp.prhs 10).n = 1) : fwhm2Eff env inp = fwhmOf inp := by
  rw [fwhm2Eff_eq, fwhm2Of_single inp h]
  exact max_eq_left (min_le_left _ _)

/-- C20: the value of `fwhm2` that enters the degrees of freedom is
`max(fwhm, min(fwhm2, fwhm3))`, with `fwhm`, `fwhm2` the caller's values and `fwhm3` the
estimated smoothness: it is at least `fwhm`; when `fwhm <= fwhm2` it is at most `fwhm2`; and
when a single value is supplied it is `fwhm`, whatever `fwhm3` is. -/
theorem effective_smoothness_clamp (env : Env R) (inp : Input R) :
    fwhm2Eff env inp = max (fwhmOf inp) (min (fwhm2Of inp) (fwhm3Of env inp)) ∧
    dfRatio env inp = (fun k => (env.voxdim (inp.map1 0) k * (sampOf env inp k : R))
      / (max (fwhmOf inp) (min (fwhm2Of inp) (fwhm3Of env inp)) * 1.0645)) ∧
    fwhmOf inp ≤ fwhm2Eff env inp ∧
    (fwhmOf inp ≤ fwhm2Of inp → fwhm2Eff env inp ≤ fwhm2Of inp) ∧
    ((inp.prhs 10).m * (inp.prhs 10).n = 1 →
      fwhm2Of inp = fwhmOf inp ∧ fwhm2Eff env inp = fwhmOf inp) := by
  refine ⟨fwhm2Eff_eq env inp, ?_, ?_, ?_, ?_⟩
  · funext k
    unfold dfRatio
    rw [fwhm2Eff_eq]
  · rw [fwhm2Eff_eq]
    exact le_max_left _ _
  · intro h
    rw [fwhm2Eff_eq]
    exact max_le h (min_le_left _ _)
  · intro h
    exact ⟨fwhm2Of_single inp h, fwhm2Eff_single env inp h⟩

/-- The degrees of freedom are the product of the three factors times the excess of the
sample count over the number of parameters. -/
theorem dfOf_eq (env : Env R) (inp : Input R) :
    dfOf env inp = (min (dfRatio env inp 0) 1 * min (dfRatio env inp 1) 1
        * min (dfRatio env inp 2) 1)
      * (((mrqcofOut env inp).nsamp : R)
          - ((3 * nxOf inp * nyOf inp * nzOf inp + inp.ni * 4 : Nat) : R)) := by
  unfold dfOf
  rw [dfFactor_eq_min, dfFactor_eq_min, dfFactor_eq_min]
  push_cast
  rfl

/-- C19: for every smoothness value and all voxel sizes, whatever `rint` returns, the
controls passed to `mrqcof` have `samp[k] >= 1` and `edgeskip[k] >= 0`: a rounded value
below 1 becomes the stride 1, respectively the margin 0, and any other rounded value is
passed on as it is.  So on every axis, whatever its length `dim`, the index of the sampling
loop grows at each step and the loop ends: fuel beyond `dim` changes nothing, and the
indices visited are `1, 1+samp, ...` below `dim`. -/
theorem controls_in_range (env : Env R) (inp : Input R) (k : Nat) :
    1 ≤ sampOf env inp k ∧ 0 ≤ edgeskipOf env inp k ∧
    sampOf env inp k
      = (if env.rint (fwhmOf inp / 2 / env.voxdim (inp.map1 0) k) < 1 then 1
          else env.rint (fwhmOf inp / 2 / env.voxdim (inp.map1 0) k)) ∧
    edgeskipOf env inp k
      = (if env.rint (fwhmOf inp / env.voxdim (inp.map2 0) k) < 1 then 0
          else env.rint (fwhmOf inp / env.voxdim (inp.map2 0) k)) ∧
    ((mrqcofArgs env inp).samp k : Int) = sampOf env inp k ∧
    (mrqcofArgs env inp).edgeskip k = edgeskipOf env inp k ∧
    ∀ dim : Nat,
      (∀ s : Nat, s < s + (mrqcofArgs env inp).samp k) ∧
      (∀ fuel : Nat, dim ≤ fuel →
        gridLoop fuel 1 dim ((mrqcofArgs env inp).samp k)
          = grid dim ((mrqcofArgs env inp).samp k)) ∧
      grid dim ((mrqcofArgs env inp).samp k)
        = (List.range ((dim - 1) ⌈/⌉ (mrqcofArgs env inp).samp k)).map
            (fun j => 1 + j * (mrqcofArgs env inp).samp k) := by
  have h1 : 1 ≤ sampOf env inp k := by
    unfold sampOf
    dsimp only
    split <;> omega
  have h0 : 0 ≤ edgeskipOf env inp k := by
    unfold edgeskipOf
    dsimp only
    split <;> omega
  have hc : ((mrqcofArgs env inp).samp k : Int) = sampOf env inp k :=
    Int.toNat_of_nonneg (by omega)
  have hs : 1 ≤ (mrqcofArgs env inp).samp k := by omega
  refine ⟨h1, h0, rfl, rfl, hc, rfl, fun dim => ⟨fun s => by omega, fun fuel hf => ?_,
    grid_eq_map hs dim⟩⟩
  rw [gridLoop_eq_map hs fuel 1 dim (by omega), grid_eq_map hs dim]

end GatewayNumbers

theorem gatewayInput_fwhm : fwhmOf gatewayInput = 8 := by
  simp [fwhmOf, gatewayInput, fullArray]

theorem gatewayInput_fwhm2 : fwhm2Of gatewayInput = 8 := by
  simp [fwhm2Of, gatewayInput, fullArray]

theorem effective_smoothness_clamp_witness :
    fwhm2Eff plainEnv gatewayInput ≤ fwhm2Of gatewayInput ∧
    (fwhm2Of gatewayInput = fwhmOf gatewayInput ∧
      fwhm2Eff plainEnv gatewayInput = fwhmOf gatewayInput) :=
  ⟨(effective_smoothness_clamp plainEnv gatewayInput).2.2.2.1
      (by rw [gatewayInput_fwhm, gatewayInput_fwhm2]),
    (effective_smoothness_clamp plainEnv gatewayInput).2.2.2.2 (by decide)⟩

theorem plainEnv_rint_four : plainEnv.rint 4 = 4 := by
  show ⌊(4 : ℚ) + 1 / 2⌋ = 4
  rw [Int.floor_eq_iff]
  constructor <;> norm_num

theorem plainEnv_rint_eight : plainEnv.rint 8 = 8 := by
  show ⌊(8 : ℚ) + 1 / 2⌋ = 8
  rw [Int.floor_eq_iff]
  constructor <;> norm_num

theorem gatewayInput_samp (k : Nat) : sampOf plainEnv gatewayInput k = 4 := by
  have e : fwhmOf gatewayInput / 2 / plainEnv.voxdim (gatewayInput.map1 0) k = 4 := by
    rw [gatewayInput_fwhm]
    show (8 : ℚ) / 2 / 1 = 4
    norm_num
  unfold sampOf
  rw [e, plainEnv_rint_four]
  rfl

theorem gatewayInput_edgeskip (k : Nat) : edgeskipOf plainEnv gatewayInput k = 8 := by
  have e : fwhmOf gatewayInput / plainEnv.voxdim (gatewayInput.map2 0) k = 8 := by
    rw [gatewayInput_fwhm]
    show (8 : ℚ) / 1 = 8
    norm_num
  unfold edgeskipOf
  rw [e, plainEnv_rint_eight]
  rfl

theorem gatewayInput_fwhm2Eff : fwhm2Eff plainEnv gatewayInput = 8 := by
  rw [fwhm2Eff_single plainEnv gatewayInput (by decide), gatewayInput_fwhm]


theorem controls_in_range_witness :
    gridLoop 5 1 3 ((mrqcofArgs plainEnv gatewayInput).samp 0)
      = grid 3 ((mrqcofArgs plainEnv gatewayInput).samp 0) :=
  ((controls_in_range plainEnv gatewayInput 0).2.2.2.2.2.2 3).2.1 5 (by decide)

theorem gatewayInput_dfRatio (k : Nat) : dfRatio plainEnv gatewayInput k = 4 / (8 * 1.0645) := by
  unfold dfRatio
  rw [gatewayInput_fwhm2Eff, gatewayInput_samp]
  show ((1 : ℚ) * ((4 : Int) : ℚ)) / (8 * 1.0645) = 4 / (8 * 1.0645)
  norm_num

/-- C11: each factor of the degrees of freedom is what the macro `MAX` gives for the quotient
`(pixdim[k]*samp[k])/(fwhm2*1.0645)` and 1, and `MAX` gives the smaller of its arguments: in
every call the factor is the smaller of the quotient and 1, hence at most 1, and
`df = (product of the three factors) * (nsamp - (3*nx*ny*nz + 4*N))`.  On the call
`gatewayInput` (smoothness 8, unit voxels, stride 4) the quotient is `4/(8*1.0645)`, below 1,
and the factor is this quotient, below 1, where the larger of the two is 1. -/
theorem df_factor_below_one :
    (∀ (R : Type) [LinearOrderedField R] (env : Env R) (inp : Input R),
      (∀ k, dfFactor env inp k = min (dfRatio env inp k) 1 ∧ dfFactor env inp k ≤ 1) ∧
      dfOf env inp = (dfFactor env inp 0 * dfFactor env inp 1 * dfFactor env inp 2)
        * (((mrqcofOut env inp).nsamp : R)
            - ((3 * nxOf inp * nyOf inp * nzOf inp + inp.ni * 4 : Nat) : R))) ∧
    dfRatio plainEnv gatewayInput 0 = 4 / (8 * 1.0645) ∧
    dfFactor plainEnv gatewayInput 0 = 4 / (8 * 1.0645) ∧
    dfFactor plainEnv gatewayInput 0 < 1 ∧
    max (dfRatio plainEnv gatewayInput 0) 1 = 1 := by
  have hlt : (4 : ℚ) / (8 * 1.0645) < 1 := by norm_num
  refine ⟨fun R _ env inp => ⟨fun k => ⟨dfFactor_eq_min env inp k, ?_⟩, ?_⟩,
    gatewayInput_dfRatio 0, ?_, ?_, ?_⟩
  · rw [dfFactor_eq_min]
    exact min_le_right _ _
  · unfold dfOf
    push_cast
    rfl
  · rw [dfFactor_eq_min, gatewayInput_dfRatio, min_eq_left (le_of_lt hlt)]
  · rw [dfFactor_eq_min, gatewayInput_dfRatio, min_eq_left (le_of_lt hlt)]
    exact hlt
  · rw [gatewayInput_dfRatio, max_eq_right (le_of_lt hlt)]

end SpmBrainwarp

namespace SpmBrainwarp

/-! ## Which entries the accumulation stages write -/

section Frames

variable {R : Type} [LinearOrderedCommRing R]

/-- `zeroHalf` writes the matrix only at places `m*r + c` with `c <= r < m`. -/
theorem zeroHalf_fst_frame (m : Nat) (ab : (Nat → R) × (Nat → R)) {j : Nat}
    (h : ∀ r c, c ≤ r → r < m → j ≠ m * r + c) : (zeroHalf m ab).1 j = ab.1 j := by
  unfold zeroHalf
  refine loop_keeps (fun st : (Nat → R) × (Nat → R) => st.1 j) ?_ ab
  intro x1 hx1 st
  dsimp only
  refine loop_keeps (fun s : Nat → R => s j) ?_ st.1
  intro x2 hx2 s
  exact upd_other _ _ (h x1 x2 (Nat.le_of_lt_succ hx2) hx1)

/-- The x stage writes `alphax` only at places `m*r + c` with `c <= r < m`. -/
theorem accumX_fst_frame (m : Nat) (dvdt : Nat → R) (dv : R) (ab : (Nat → R) × (Nat → R))
    {j : Nat} (h : ∀ r c, c ≤ r → r < m → j ≠ m * r + c) :
    (accumX m dvdt dv ab).1 j = ab.1 j := by
  unfold accumX
  refine loop_keeps (fun st : (Nat → R) × (Nat → R) => st.1 j) ?_ ab
  intro x1 hx1 st
  dsimp only
  refine loop_keeps (fun s : Nat → R => s j) ?_ st.1
  intro x2 hx2 s
  exact upd_other _ _ (h x1 x2 (Nat.le_of_lt_succ hx2) hx1)

/-- A Kronecker stage leaves alone every place of the matrix that is none of the entries of
its three kinds of blocks. -/
theorem kron_miss (n k ni4 m1 m2 : Nat) (w src srcb : Nat → R) (dst : (Nat → R) × (Nat → R))
    {j : Nat}
    (hss : ∀ i1 y1 x1 i2 y2 x2, i1 < 3 → i2 ≤ i1 → y1 < k → y2 ≤ y1 → x1 < n → x2 ≤ x1 →
      j ≠ m1 * (n * (k * i1 + y1) + x1) + (n * (k * i2 + y2) + x2))
    (hsi : ∀ t i y x, t < ni4 → i < 3 → y < k → x < n →
      j ≠ m1 * (3 * n * k + t) + (n * (k * i + y) + x))
    (hii : ∀ t1 t2, t1 < ni4 → t2 ≤ t1 → j ≠ m1 * (3 * n * k + t1) + (3 * n * k + t2)) :
    (kron n k ni4 m1 m2 w src srcb dst).1 j = dst.1 j := by
  unfold kron
  dsimp only
  refine (loop_keeps (fun st : (Nat → R) × (Nat → R) => st.1 j) ?_ _).trans ?_
  · intro t1 ht1 st
    dsimp only
    refine loop_keeps (fun s : Nat → R => s j) ?_ st.1
    intro t2 ht2 s
    refine upd_other _ _ (fun heq => hii t1 t2 ht1 (Nat.le_of_lt_succ ht2) ?_)
    rw [heq, ii_index]
  · refine loop_keeps (fun st : (Nat → R) × (Nat → R) => st.1 j) ?_ dst
    intro y1 hy1 st
    dsimp only
    refine loop_keeps (fun st : (Nat → R) × (Nat → R) => st.1 j) ?_ st
    intro i1 hi1 st
    dsimp only
    rw [blockRect_miss _ _ _ _ _ _ _ _ _ (fun x1 hx1 x2 hx2 heq =>
      hsi x1 i1 y1 x2 hx1 hi1 hy1 hx2 (by rw [heq, si_index]))]
    refine loop_keeps (fun s : Nat → R => s j) ?_ st.1
    intro i2 hi2 s
    refine loop_keeps (fun s : Nat → R => s j) ?_ s
    intro y2 hy2 s
    refine blockTri_miss _ _ _ _ _ _ _ _ (fun x1 hx1 x2 hx2 heq =>
      hss i1 y1 x1 i2 y2 x2 hi1 (Nat.le_of_lt_succ hi2) hy1 (Nat.le_of_lt_succ hy2) hx1 hx2 ?_)
    rw [heq, ss_index]

/-- A Kronecker stage writes its matrix only at places `m1*r + c` with `c <= r < m1`. -/
theorem kron_frame (n k ni4 m1 m2 : Nat) (w src srcb : Nat → R) (dst : (Nat → R) × (Nat → R))
    (hm : 3 * n * k + ni4 ≤ m1) {j : Nat} (h : ∀ r c, c ≤ r → r < m1 → j ≠ m1 * r + c) :
    (kron n k ni4 m1 m2 w src srcb dst).1 j = dst.1 j := by
  refine kron_miss n k ni4 m1 m2 w src srcb dst ?_ ?_ ?_
  · intro i1 y1 x1 i2 y2 x2 hi1 hi2 hy1 hy2 hx1 hx2
    have hR := digits3_lt (n := n) (k := k) hi1 hy1 hx1
    exact h _ _ (three_digit_le hi2 hy2 hx2) (by omega)
  · intro t i y x ht hi hy hx
    have hC := digits3_lt (n := n) (k := k) hi hy hx
    exact h _ _ (by omega) (by omega)
  · intro t1 t2 ht1 ht2
    exact h _ _ (by omega) (by omega)

/-- A voxel writes `alphax` only at places `m*r + c` with `c <= r < m`. -/
theorem pixel_alphax_frame (a : Args R) (sy sz sx : Nat) (st : State R) {j : Nat}
    (h : ∀ r c, c ≤ r → r < 3 * a.nx + ni4 a → j ≠ (3 * a.nx + ni4 a) * r + c) :
    (pixel a sy sz sx st).alphax j = st.alphax j := by
  unfold pixel
  dsimp only
  split
  · exact accumX_fst_frame _ _ _ _ h
  · rfl

/-- A row (zeroing pass and x stage) writes `alphax` only at places `m*r + c` with
`c <= r < m`. -/
theorem row_alphax_frame (a : Args R) (sz sy : Nat) (st : State R) {j : Nat}
    (h : ∀ r c, c ≤ r → r < 3 * a.nx + ni4 a → j ≠ (3 * a.nx + ni4 a) * r + c) :
    (row a sz sy st).alphax j = st.alphax j := by
  unfold row forGrid
  dsimp only
  rw [xloop_keeps (fun s => s.alphax j) a sy sz (fun sx s => pixel_alphax_frame a sy sz sx s h)]
  exact zeroHalf_fst_frame _ _ h

/-- A row (y stage) writes `alphaxy` only at places `m*r + c` with `c <= r < m`. -/
theorem row_alphaxy_frame (a : Args R) (sz sy : Nat) (st : State R) {j : Nat}
    (h : ∀ r c, c ≤ r → r < 3 * a.nx * a.ny + ni4 a → j ≠ (3 * a.nx * a.ny + ni4 a) * r + c) :
    (row a sz sy st).alphaxy j = st.alphaxy j := by
  obtain ⟨st2, h1, _⟩ := row_alphaxy_eq a sz sy st
  rw [h1]
  exact kron_frame _ _ _ _ _ _ _ _ _ (le_refl _) h

/-- A plane writes `alphax` only at places `m*r + c` with `c <= r < m`. -/
theorem plane_alphax_frame (a : Args R) (sz : Nat) (st : State R) {j : Nat}
    (h : ∀ r c, c ≤ r → r < 3 * a.nx + ni4 a → j ≠ (3 * a.nx + ni4 a) * r + c) :
    (plane a sz st).alphax j = st.alphax j := by
  unfold plane forGrid
  dsimp only
  rw [foldl_keeps (fun s : State R => s.alphax j) _ (fun sy _ s => row_alphax_frame a sz sy s h)]

/-- A plane (zeroing pass and y stage) writes `alphaxy` only at places `m*r + c` with
`c <= r < m`. -/
theorem plane_alphaxy_frame (a : Args R) (sz : Nat) (st : State R) {j : Nat}
    (h : ∀ r c, c ≤ r → r < 3 * a.nx * a.ny + ni4 a → j ≠ (3 * a.nx * a.ny + ni4 a) * r + c) :
    (plane a sz st).alphaxy j = st.alphaxy j := by
  unfold plane forGrid
  dsimp only
  rw [foldl_keeps (fun s : State R => s.alphaxy j) _
    (fun sy _ s => row_alphaxy_frame a sz sy s h)]
  exact zeroHalf_fst_frame _ _ h

/-- A plane (z stage) leaves alone every place of `alpha` that is none of the entries of the
blocks of the z stage. -/
theorem plane_alpha_miss (a : Args R) (sz : Nat) (st : State R) {j : Nat}
    (hss : ∀ i1 z1 x1 i2 z2 x2, i1 < 3 → i2 ≤ i1 → z1 < a.nz → z2 ≤ z1 → x1 < a.nx * a.ny →
      x2 ≤ x1 → j ≠ (3 * a.nx * a.ny * a.nz + ni4 a) * (a.nx * a.ny * (a.nz * i1 + z1) + x1)
        + (a.nx * a.ny * (a.nz * i2 + z2) + x2))
    (hsi : ∀ t i z x, t < ni4 a → i < 3 → z < a.nz → x < a.nx * a.ny →
      j ≠ (3 * a.nx * a.ny * a.nz + ni4 a) * (3 * (a.nx * a.ny) * a.nz + t)
        + (a.nx * a.ny * (a.nz * i + z) + x))
    (hii : ∀ t1 t2, t1 < ni4 a → t2 ≤ t1 →
      j ≠ (3 * a.nx * a.ny * a.nz + ni4 a) * (3 * (a.nx * a.ny) * a.nz + t1)
        + (3 * (a.nx * a.ny) * a.nz + t2)) :
    (plane a sz st).alpha j = st.alpha j := by
  obtain ⟨st3, h1, _⟩ := plane_alpha_eq a sz st
  rw [h1]
  exact kron_miss _ _ _ _ _ _ _ _ _ hss hsi hii

/-- A plane (z stage) writes `alpha` only at places `m*r + c` with `c <= r < m`. -/
theorem plane_alpha_frame (a : Args R) (sz : Nat) (st : State R) {j : Nat}
    (h : ∀ r c, c ≤ r → r < 3 * a.nx * a.ny * a.nz + ni4 a →
      j ≠ (3 * a.nx * a.ny * a.nz + ni4 a) * r + c) :
    (plane a sz st).alpha j = st.alpha j := by
  obtain ⟨st3, h1, _⟩ := plane_alpha_eq a sz st
  rw [h1]
  exact kron_frame _ _ _ _ _ _ _ _ _ (m1_ge a) h

/-- Before the symmetrizer, a place of `alpha` that is none of the entries of the blocks of
the z stage holds what the first zeroing pass left there. -/
theorem acc_alpha_miss (a : Args R) (alpha0 beta0 sd0 : Nat → R) {j : Nat}
    (hss : ∀ i1 z1 x1 i2 z2 x2, i1 < 3 → i2 ≤ i1 → z1 < a.nz → z2 ≤ z1 → x1 < a.nx * a.ny →
      x2 ≤ x1 → j ≠ (3 * a.nx * a.ny * a.nz + ni4 a) * (a.nx * a.ny * (a.nz * i1 + z1) + x1)
        + (a.nx * a.ny * (a.nz * i2 + z2) + x2))
    (hsi : ∀ t i z x, t < ni4 a → i < 3 → z < a.nz → x < a.nx * a.ny →
      j ≠ (3 * a.nx * a.ny * a.nz + ni4 a) * (3 * (a.nx * a.ny) * a.nz + t)
        + (a.nx * a.ny * (a.nz * i + z) + x))
    (hii : ∀ t1 t2, t1 < ni4 a → t2 ≤ t1 →
      j ≠ (3 * a.nx * a.ny * a.nz + ni4 a) * (3 * (a.nx * a.ny) * a.nz + t1)
        + (3 * (a.nx * a.ny) * a.nz + t2)) :
    (accumulate a alpha0 beta0 sd0).alpha j
      = (zeroHalf (3 * a.nx * a.ny * a.nz + ni4 a) (alpha0, beta0)).1 j := by
  unfold accumulate forGrid
  rw [foldl_keeps (fun s : State R => s.alpha j) _
    (fun sz _ s => plane_alpha_miss a sz s hss hsi hii)]
  rfl

/-- Before the symmetrizer, the places of the three matrices outside their lower triangles
hold what they held at the start: the caller's `alpha`, and the zeros of `mxCalloc` in
`alphaxy` and `alphax`. -/
theorem acc_frame (a : Args R) (alpha0 beta0 sd0 : Nat → R) :
    (∀ j, (∀ r c, c ≤ r → r < 3 * a.nx * a.ny * a.nz + ni4 a →
        j ≠ (3 * a.nx * a.ny * a.nz + ni4 a) * r + c) →
      (accumulate a alpha0 beta0 sd0).alpha j = alpha0 j) ∧
    (∀ j, (∀ r c, c ≤ r → r < 3 * a.nx * a.ny + ni4 a →
        j ≠ (3 * a.nx * a.ny + ni4 a) * r + c) →
      (accumulate a alpha0 beta0 sd0).alphaxy j = 0) ∧
    (∀ j, (∀ r c, c ≤ r → r < 3 * a.nx + ni4 a → j ≠ (3 * a.nx + ni4 a) * r + c) →
      (accumulate a alpha0 beta0 sd0).alphax j = 0) := by
  refine ⟨fun j h => ?_, fun j h => ?_, fun j h => ?_⟩
  · unfold accumulate forGrid
    rw [foldl_keeps (fun s : State R => s.alpha j) _
      (fun sz _ s => plane_alpha_frame a sz s h)]
    exact zeroHalf_fst_frame _ _ h
  · unfold accumulate forGrid
    rw [foldl_keeps (fun s : State R => s.alphaxy j) _
      (fun sz _ s => plane_alphaxy_frame a sz s h)]
    rfl
  · unfold accumulate forGrid
    rw [foldl_keeps (fun s : State R => s.alphax j) _
      (fun sz _ s => plane_alphax_frame a sz s h)]
    rfl

end Frames

/-- A place above the diagonal is no place on or below it. -/
theorem upper_outside {m r c : Nat} (hc : c < m) (hrc : r < c) :
    ∀ s d, d ≤ s → s < m → m * r + c ≠ m * s + d := by
  intro s d hd hs heq
  obtain ⟨h1, h2⟩ := idx2_inj hc (by omega) heq
  omega

section LowerTriangle

variable {R : Type} [LinearOrderedCommRing R]

/-- C16: only the lower triangle is computed at every accumulation stage.  Each pass - the
zeroing pass `zeroHalf`, the x stage `accumX`, the y stage and the z stage `kron` - changes
its matrix only at places `m*r + c` with `c <= r < m`, `m` the side of that matrix
(`3*nx+4N`, `3*nx*ny+4N`, `3*nx*ny*nz+4N`); so does every plane of the sampling loop, for the
three matrices; and so, when the last plane is done, every entry `m*r + c` with `c > r` holds
what it held on entry: the caller's value in `alpha`, the zero of `mxCalloc` in `alphaxy`
and `alphax`. -/
theorem accumulation_writes_lower_triangle (a : Args R) (alpha0 beta0 sd0 : Nat → R) :
    (∀ (m : Nat) (ab : (Nat → R) × (Nat → R)) (j : Nat),
      (∀ r c, c ≤ r → r < m → j ≠ m * r + c) → (zeroHalf m ab).1 j = ab.1 j) ∧
    (∀ (dvdt : Nat → R) (dv : R) (ab : (Nat → R) × (Nat → R)) (j : Nat),
      (∀ r c, c ≤ r → r < 3 * a.nx + ni4 a → j ≠ (3 * a.nx + ni4 a) * r + c) →
      (accumX (3 * a.nx + ni4 a) dvdt dv ab).1 j = ab.1 j) ∧
    (∀ (w src srcb : Nat → R) (dst : (Nat → R) × (Nat → R)) (j : Nat),
      (∀ r c, c ≤ r → r < 3 * a.nx * a.ny + ni4 a → j ≠ (3 * a.nx * a.ny + ni4 a) * r + c) →
      (kron a.nx a.ny (ni4 a) (3 * a.nx * a.ny + ni4 a) (3 * a.nx + ni4 a) w src srcb dst).1 j
        = dst.1 j) ∧
    (∀ (w src srcb : Nat → R) (dst : (Nat → R) × (Nat → R)) (j : Nat),
      (∀ r c, c ≤ r → r < 3 * a.nx * a.ny * a.nz + ni4 a →
        j ≠ (3 * a.nx * a.ny * a.nz + ni4 a) * r + c) →
      (kron (a.nx * a.ny) a.nz (ni4 a) (3 * a.nx * a.ny * a.nz + ni4 a)
        (3 * a.nx * a.ny + ni4 a) w src srcb dst).1 j = dst.1 j) ∧
    (∀ (sz : Nat) (st : State R),
      (∀ j, (∀ r c, c ≤ r → r < 3 * a.nx + ni4 a → j ≠ (3 * a.nx + ni4 a) * r + c) →
        (plane a sz st).alphax j = st.alphax j) ∧
      (∀ j, (∀ r c, c ≤ r → r < 3 * a.nx * a.ny + ni4 a →
          j ≠ (3 * a.nx * a.ny + ni4 a) * r + c) →
        (plane a sz st).alphaxy j = st.alphaxy j) ∧
      (∀ j, (∀ r c, c ≤ r → r < 3 * a.nx * a.ny * a.nz + ni4 a →
          j ≠ (3 * a.nx * a.ny * a.nz + ni4 a) * r + c) →
        (plane a sz st).alpha j = st.alpha j)) ∧
    (∀ r c, r < c → c < 3 * a.nx * a.ny * a.nz + ni4 a →
      (accumulate a alpha0 beta0 sd0).alpha ((3 * a.nx * a.ny * a.nz + ni4 a) * r + c)
        = alpha0 ((3 * a.nx * a.ny * a.nz + ni4 a) * r + c)) ∧
    (∀ r c, r < c → c < 3 * a.nx * a.ny + ni4 a →
      (accumulate a alpha0 beta0 sd0).alphaxy ((3 * a.nx * a.ny + ni4 a) * r + c) = 0) ∧
    (∀ r c, r < c → c < 3 * a.nx + ni4 a →
      (accumulate a alpha0 beta0 sd0).alphax ((3 * a.nx + ni4 a) * r + c) = 0) :=
  ⟨fun m ab _ h => zeroHalf_fst_frame m ab h,
    fun dvdt dv ab _ h => accumX_fst_frame _ dvdt dv ab h,
    fun w src srcb dst _ h => kron_frame _ _ _ _ _ w src srcb dst (le_refl _) h,
    fun w src srcb dst _ h => kron_frame _ _ _ _ _ w src srcb dst (m1_ge a) h,
    fun sz st => ⟨fun _ h => plane_alphax_frame a sz st h,
      fun _ h => plane_alphaxy_frame a sz st h, fun _ h => plane_alpha_frame a sz st h⟩,
    fun _ _ hrc hc => (acc_frame a alpha0 beta0 sd0).1 _ (upper_outside hc hrc),
    fun _ _ hrc hc => (acc_frame a alpha0 beta0 sd0).2.1 _ (upper_outside hc hrc),
    fun _ _ hrc hc => (acc_frame a alpha0 beta0 sd0).2.2 _ (upper_outside hc hrc)⟩

theorem accumulation_writes_lower_triangle_witness :
    (accumulate degenerateArgs (fun k => (k : ℤ)) zeroBuf zeroBuf).alpha
        ((3 * degenerateArgs.nx * degenerateArgs.ny * degenerateArgs.nz + ni4 degenerateArgs) * 0
          + 1)
      = ((fun k => (k : ℤ)) : Nat → ℤ)
        ((3 * degenerateArgs.nx * degenerateArgs.ny * degenerateArgs.nz + ni4 degenerateArgs) * 0
          + 1) :=
  (accumulation_writes_lower_triangle degenerateArgs (fun k => (k : ℤ)) zeroBuf
    zeroBuf).2.2.2.2.2.1 0 1 (by decide) (by decide)

end LowerTriangle

end SpmBrainwarp

namespace SpmBrainwarp

/-! ## What the symmetrizer keeps and what it writes -/

section SymmetrizerKeeps

variable {R : Type} [LinearOrderedCommRing R]

/-- Before the symmetrizer, the entries of `alpha` that the z stage computed - those ordered on
every level, and the intensity rows up to the diagonal - hold the naive matrix. -/
theorem acc_alpha_computed (a : Args R) (alpha0 beta0 sd0 : Nat → R) :
    (∀ i1 z1 y1 x1 i2 z2 y2 x2, i1 < 3 → i2 ≤ i1 → z1 < a.nz → z2 ≤ z1 → y1 < a.ny →
      y2 ≤ y1 → x1 < a.nx → x2 ≤ x1 →
      (accumulate a alpha0 beta0 sd0).alpha ((3 * a.nx * a.ny * a.nz + ni4 a)
          * (a.nx * a.ny * (a.nz * i1 + z1) + (a.nx * y1 + x1))
          + (a.nx * a.ny * (a.nz * i2 + z2) + (a.nx * y2 + x2)))
        = naiveAlpha a (a.nx * a.ny * (a.nz * i1 + z1) + (a.nx * y1 + x1))
            (a.nx * a.ny * (a.nz * i2 + z2) + (a.nx * y2 + x2))) ∧
    (∀ t c, t < ni4 a → c ≤ 3 * a.nx * a.ny * a.nz + t →
      (accumulate a alpha0 beta0 sd0).alpha ((3 * a.nx * a.ny * a.nz + ni4 a)
          * (3 * a.nx * a.ny * a.nz + t) + c)
        = naiveAlpha a (3 * a.nx * a.ny * a.nz + t) c) := by
  constructor
  · intro i1 z1 y1 x1 i2 z2 y2 x2 hi1 hi2 hz1 hz2 hy1 hy2 hx1 hx2
    rw [acc_alpha_ss a alpha0 beta0 sd0 hi1 hi2 hz1 hz2 hy1 hy2 hx1 hx2]
    unfold naiveAlpha
    refine voxelSum_congr a (fun sx sy sz _ => ?_)
    rw [designRow_dS a sx sy sz hi1 hz1 hy1 hx1,
      designRow_dS a sx sy sz (by omega) (by omega) (by omega) (by omega)]
  · intro t c ht hc
    unfold naiveAlpha
    by_cases hq3 : c < 3 * a.nx * a.ny * a.nz
    · obtain ⟨i, z, y, x, hi, hz, hy, hx, rfl⟩ := spatial_decomp hq3
      rw [acc_alpha_si a alpha0 beta0 sd0 ht hi hz hy hx]
      refine voxelSum_congr a (fun sx sy sz _ => ?_)
      rw [designRow_dI a sx sy sz ht, designRow_dS a sx sy sz hi hz hy hx]
    · obtain ⟨t2, rfl⟩ : ∃ t2, c = 3 * a.nx * a.ny * a.nz + t2 :=
        ⟨c - 3 * a.nx * a.ny * a.nz, by omega⟩
      rw [acc_alpha_ii a alpha0 beta0 sd0 ht (by omega : t2 ≤ t)]
      refine voxelSum_congr a (fun sx sy sz _ => ?_)
      rw [designRow_dI a sx sy sz ht, designRow_dI a sx sy sz (by omega)]

/-- C15 (as the code has it): the symmetrizer leaves unchanged every entry of `alpha` that
the accumulation computed: the entries whose row `(i1, z1, y1, x1)` and column
`(i2, z2, y2, x2)` are ordered on every level of the tensor layout (`i2 <= i1`, `z2 <= z1`,
`y2 <= y1`, `x2 <= x1`), and the entries `c <= r` of the intensity rows.  The other entries
are the ones it writes, and some of them lie below the diagonal. -/
theorem symmetrizer_keeps_computed_entries (a : Args R) (alpha0 beta0 sd0 : Nat → R) :
    (∀ i1 z1 y1 x1 i2 z2 y2 x2, i1 < 3 → i2 ≤ i1 → z1 < a.nz → z2 ≤ z1 → y1 < a.ny →
      y2 ≤ y1 → x1 < a.nx → x2 ≤ x1 →
      (mrqcof a alpha0 beta0 sd0).alpha ((3 * a.nx * a.ny * a.nz + ni4 a)
          * (a.nx * a.ny * (a.nz * i1 + z1) + (a.nx * y1 + x1))
          + (a.nx * a.ny * (a.nz * i2 + z2) + (a.nx * y2 + x2)))
        = (accumulate a alpha0 beta0 sd0).alpha ((3 * a.nx * a.ny * a.nz + ni4 a)
          * (a.nx * a.ny * (a.nz * i1 + z1) + (a.nx * y1 + x1))
          + (a.nx * a.ny * (a.nz * i2 + z2) + (a.nx * y2 + x2)))) ∧
    (∀ t c, t < ni4 a → c ≤ 3 * a.nx * a.ny * a.nz + t →
      (mrqcof a alpha0 beta0 sd0).alpha ((3 * a.nx * a.ny * a.nz + ni4 a)
          * (3 * a.nx * a.ny * a.nz + t) + c)
        = (accumulate a alpha0 beta0 sd0).alpha ((3 * a.nx * a.ny * a.nz + ni4 a)
          * (3 * a.nx * a.ny * a.nz + t) + c)) := by
  have e0 : 3 * (a.nx * a.ny) * a.nz = 3 * a.nx * a.ny * a.nz := by ring
  constructor
  · intro i1 z1 y1 x1 i2 z2 y2 x2 hi1 hi2 hz1 hz2 hy1 hy2 hx1 hx2
    have hp := digits3_lt (n := a.nx * a.ny) (k := a.nz) hi1 hz1 (xy_lt hy1 hx1)
    have hq := digits3_lt (n := a.nx * a.ny) (k := a.nz) (i := i2) (y := z2)
      (x := a.nx * y2 + x2) (by omega) (by omega) (xy_lt (by omega) (by omega))
    rw [alpha_entry a alpha0 beta0 sd0 (by omega) (by omega),
      (acc_alpha_computed a alpha0 beta0 sd0).1 i1 z1 y1 x1 i2 z2 y2 x2 hi1 hi2 hz1 hz2 hy1 hy2
        hx1 hx2]
  · intro t c ht hc
    rw [alpha_entry a alpha0 beta0 sd0 (by omega) (by omega),
      (acc_alpha_computed a alpha0 beta0 sd0).2 t c ht hc]

end SymmetrizerKeeps

theorem symmetrizer_keeps_computed_entries_witness :
    (mrqcof twoBasisArgs zeroBuf zeroBuf zeroBuf).alpha
        ((3 * twoBasisArgs.nx * twoBasisArgs.ny * twoBasisArgs.nz + ni4 twoBasisArgs)
          * (twoBasisArgs.nx * twoBasisArgs.ny * (twoBasisArgs.nz * 1 + 0)
            + (twoBasisArgs.nx * 0 + 1))
          + (twoBasisArgs.nx * twoBasisArgs.ny * (twoBasisArgs.nz * 0 + 0)
            + (twoBasisArgs.nx * 0 + 0)))
      = (accumulate twoBasisArgs zeroBuf zeroBuf zeroBuf).alpha
        ((3 * twoBasisArgs.nx * twoBasisArgs.ny * twoBasisArgs.nz + ni4 twoBasisArgs)
          * (twoBasisArgs.nx * twoBasisArgs.ny * (twoBasisArgs.nz * 1 + 0)
            + (twoBasisArgs.nx * 0 + 1))
          + (twoBasisArgs.nx * twoBasisArgs.ny * (twoBasisArgs.nz * 0 + 0)
            + (twoBasisArgs.nx * 0 + 0))) :=
  (symmetrizer_keeps_computed_entries twoBasisArgs zeroBuf zeroBuf zeroBuf).1 1 0 0 1 0 0 0 0
    (by decide) (by decide) (by decide) (by decide) (by decide) (by decide) (by decide)
    (by decide)

/-- C15 as stated fails: for `twoBasisArgs` the matrix has side `m = 10`, and the entry
`alpha[10*2 + 1]` of row 2 and column 1, below the diagonal, holds 0 when the z stage of the
last plane is done and 8 after the symmetrizer. -/
theorem symmetrizer_writes_lower_entry :
    3 * twoBasisArgs.nx * twoBasisArgs.ny * twoBasisArgs.nz + ni4 twoBasisArgs = 10 ∧
    (accumulate twoBasisArgs zeroBuf zeroBuf zeroBuf).alpha (10 * 2 + 1) = 0 ∧
    (mrqcof twoBasisArgs zeroBuf zeroBuf zeroBuf).alpha (10 * 2 + 1) = 8 := by
  refine ⟨by decide, ?_, ?_⟩
  · rw [acc_alpha_miss twoBasisArgs zeroBuf zeroBuf zeroBuf (j := 10 * 2 + 1)]
    · exact zeroHalf_fst_hit 10 (zeroBuf, zeroBuf) (by decide : 2 < 10) (by decide : 1 ≤ 2)
    · intro i1 z1 x1 i2 z2 x2 h1 h2 h3 h4 h5 h6
      simp only [twoBasisArgs, ni4] at h3 h5 ⊢
      omega
    · intro t i z x h1 h2 h3 h4
      simp only [twoBasisArgs, ni4] at h1 h3 h4 ⊢
      omega
    · intro t1 t2 h1 h2
      simp only [twoBasisArgs, ni4] at h1 ⊢
      omega
  · have h := alpha_entry twoBasisArgs zeroBuf zeroBuf zeroBuf (p := 2) (q := 1) (by decide)
      (by decide)
    exact h.trans (by decide)

end SpmBrainwarp

namespace SpmBrainwarp

/-! ## The range test -/

section RangeTest

variable {R : Type} [LinearOrderedCommRing R]

/-- The range test, axis by axis. -/
theorem inRange_iff (a : Args R) (s2 : Nat → R) :
    inRange a s2 ↔ ∀ k, k < 3 → ((1 + a.edgeskip k : Int) : R) ≤ s2 k ∧
      s2 k < (((a.vol2.dim k : Int) - a.edgeskip k : Int) : R) := by
  unfold inRange
  constructor
  · rintro ⟨a0, b0, a1, b1, a2, b2⟩ k hk
    interval_cases k
    · exact ⟨a0, b0⟩
    · exact ⟨a1, b1⟩
    · exact ⟨a2, b2⟩
  · intro h
    exact ⟨(h 0 (by omega)).1, (h 0 (by omega)).2, (h 1 (by omega)).1, (h 1 (by omega)).2,
      (h 2 (by omega)).1, (h 2 (by omega)).2⟩

/-- C14 (as the code has it): a sampled voxel is accepted if and only if, on every axis `k`,
`1 + edgeskip[k] <= s2[k] < D[k] - edgeskip[k]`, where `D` is the dimension vector of the
moving volume `vol2`, the volume that is sampled at `s2`.  A voxel that fails the test
leaves the whole state as it is (no contribution to `alphax`, `betax`, `ss`, `ss_deriv` or
the count, and so none to `alpha`, `beta`); a voxel that passes it adds one to the count and
its squared residual to `ss`; and the count returned is the number of accepted voxels of
the grid (`voxelSum` adds over the accepted voxels). -/
theorem voxel_accepted_iff_in_moving_volume (a : Args R) (alpha0 beta0 sd0 : Nat → R) :
    (∀ sx sy sz, accepted a sx sy sz ↔
      ∀ k, k < 3 → ((1 + a.edgeskip k : Int) : R) ≤ s2At a sx sy sz k ∧
        s2At a sx sy sz k < (((a.vol2.dim k : Int) - a.edgeskip k : Int) : R)) ∧
    (∀ (sy sz sx : Nat) (st : State R),
      ((∀ k, k < 3 →
          ((1 + a.edgeskip k : Int) : R) ≤ affine a (trans a st.Ty (s0v sx sy sz)) k ∧
          affine a (trans a st.Ty (s0v sx sy sz)) k
            < (((a.vol2.dim k : Int) - a.edgeskip k : Int) : R)) →
        (pixel a sy sz sx st).nsamp = st.nsamp + 1 ∧
        (pixel a sy sz sx st).ss = st.ss
          + (voxel a st.Ty st.Jy st.dvdt (s0v sx sy sz)).dv
            * (voxel a st.Ty st.Jy st.dvdt (s0v sx sy sz)).dv) ∧
      (¬(∀ k, k < 3 →
          ((1 + a.edgeskip k : Int) : R) ≤ affine a (trans a st.Ty (s0v sx sy sz)) k ∧
          affine a (trans a st.Ty (s0v sx sy sz)) k
            < (((a.vol2.dim k : Int) - a.edgeskip k : Int) : R)) →
        pixel a sy sz sx st = st)) ∧
    (mrqcof a alpha0 beta0 sd0).nsamp = voxelSum a (fun _ _ _ => 1) := by
  refine ⟨fun sx sy sz => inRange_iff a _, fun sy sz sx st => ⟨fun h => ?_, fun h => ?_⟩, ?_⟩
  · have hr := (inRange_iff a _).mpr h
    unfold pixel
    dsimp only
    rw [if_pos hr]
    exact ⟨rfl, rfl⟩
  · have hr : ¬inRange a (affine a (trans a st.Ty (s0v sx sy sz))) :=
      fun hin => h ((inRange_iff a _).mp hin)
    unfold pixel
    dsimp only
    rw [if_neg hr]
  · exact mrqcof_nsamp a alpha0 beta0 sd0

end RangeTest

theorem voxel_accepted_iff_in_moving_volume_witness :
    (pixel offsetArgs 2 2 2 (initState offsetArgs zeroBuf zeroBuf zeroBuf)).nsamp
        = (initState offsetArgs zeroBuf zeroBuf zeroBuf).nsamp + 1 ∧
    (pixel offsetArgs 2 2 2 (initState offsetArgs zeroBuf zeroBuf zeroBuf)).ss
      = (initState offsetArgs zeroBuf zeroBuf zeroBuf).ss
        + (voxel offsetArgs (initState offsetArgs zeroBuf zeroBuf zeroBuf).Ty
            (initState offsetArgs zeroBuf zeroBuf zeroBuf).Jy
            (initState offsetArgs zeroBuf zeroBuf zeroBuf).dvdt (s0v 2 2 2)).dv
          * (voxel offsetArgs (initState offsetArgs zeroBuf zeroBuf zeroBuf).Ty
            (initState offsetArgs zeroBuf zeroBuf zeroBuf).Jy
            (initState offsetArgs zeroBuf zeroBuf zeroBuf).dvdt (s0v 2 2 2)).dv :=
  ((voxel_accepted_iff_in_moving_volume offsetArgs zeroBuf zeroBuf zeroBuf).2.1 2 2 2
    (initState offsetArgs zeroBuf zeroBuf zeroBuf)).1 (by decide)

/-- C14 as stated fails: for `offsetArgs` the template has 3 voxels on every axis and the
moving volume 5; the grid voxel `(2, 2, 2)` is transformed to `s2 = (3, 3, 3)`, which is not
below `D[0] - edgeskip[0] = 3` for the template's `D`, yet the voxel is accepted, and all 8
grid voxels are counted. -/
theorem range_test_not_template_dims :
    dim1 offsetArgs 0 = 3 ∧ offsetArgs.vol2.dim 0 = 5 ∧ offsetArgs.edgeskip 0 = 0 ∧
    s2At offsetArgs 2 2 2 0 = 3 ∧
    ¬(s2At offsetArgs 2 2 2 0 < (((dim1 offsetArgs 0 : Int) - offsetArgs.edgeskip 0 : Int) : ℤ)) ∧
    accepted offsetArgs 2 2 2 ∧
    (mrqcof offsetArgs zeroBuf zeroBuf zeroBuf).nsamp = 8 := by
  decide

end SpmBrainwarp

namespace SpmBrainwarp

/-! ## Independence of the intensity parameters -/

section Outside

variable {R : Type} [LinearOrderedCommRing R]

/-- Outside the matrix, `mrqcof` returns `alpha` as the caller passed it. -/
theorem mrqcof_alpha_outside (a : Args R) (alpha0 beta0 sd0 : Nat → R) {j : Nat}
    (h : ∀ p q, p < 3 * a.nx * a.ny * a.nz + ni4 a → q < 3 * a.nx * a.ny * a.nz + ni4 a →
      j ≠ (3 * a.nx * a.ny * a.nz + ni4 a) * p + q) :
    (mrqcof a alpha0 beta0 sd0).alpha j = alpha0 j := by
  have e3 : a.nx * a.ny * a.nz * 3 = 3 * a.nx * a.ny * a.nz := by ring
  have hframe := (symLoops_fix (R := R) (3 * a.nx * a.ny * a.nz + ni4 a)
    (a.nx * a.ny * a.nz) 3 (symBlock (3 * a.nx * a.ny * a.nz + ni4 a) a.nx a.ny a.nz) _ _
    (symBlock_blockFix _ a.nx a.ny a.nz)).1
  unfold mrqcof symmetrize
  dsimp only
  rw [mirror_miss _ 0 _ _ (fun x1 hx1 x2 hx2 => by
      rw [Nat.zero_add]
      exact h x2 x1 (by omega) (by omega)),
    hframe 0 _ j (fun P Q hP hQ => by
      rw [Nat.zero_add]
      exact h P Q (by omega) (by omega))]
  exact (acc_frame a alpha0 beta0 sd0).1 j (fun r c hc hr => h r c hr (by omega))

end Outside

section Intensity

variable {R : Type} [LinearOrderedCommRing R]

/-- The warped coordinate reads only the first `3*nx*ny*nz` entries of `T`. -/
theorem transAt_T_congr (a : Args R) (T' : Nat → R)
    (h : ∀ k, k < 3 * a.nx * a.ny * a.nz → T' k = a.T k) (sx sy sz : Nat) {i : Nat}
    (hi : i < 3) : transAt { a with T := T' } sx sy sz i = transAt a sx sy sz i := by
  rw [transAt_eq_sum _ sx sy sz hi, transAt_eq_sum a sx sy sz hi]
  congr 2
  refine Finset.sum_congr rfl (fun x hx => ?_)
  refine Finset.sum_congr rfl (fun y hy => ?_)
  refine Finset.sum_congr rfl (fun z hz => ?_)
  have hlt : i * a.nx * a.ny * a.nz + x + a.nx * y + a.nx * a.ny * z
      < 3 * a.nx * a.ny * a.nz :=
    flat3_lt hi (Finset.mem_range.mp hx) (Finset.mem_range.mp hy) (Finset.mem_range.mp hz)
  show T' _ * _ * _ * _ = _
  rw [h _ hlt]
  rfl

/-- The transformed position reads only the first `3*nx*ny*nz` entries of `T`. -/
theorem s2At_T_congr (a : Args R) (T' : Nat → R)
    (h : ∀ k, k < 3 * a.nx * a.ny * a.nz → T' k = a.T k) (sx sy sz : Nat) :
    s2At { a with T := T' } sx sy sz = s2At a sx sy sz := by
  have h0 := transAt_T_congr a T' h sx sy sz (by omega : 0 < 3)
  have h1 := transAt_T_congr a T' h sx sy sz (by omega : 1 < 3)
  have h2 := transAt_T_congr a T' h sx sy sz (by omega : 2 < 3)
  unfold transAt at h0 h1 h2
  unfold s2At
  exact affine_congr a h0 h1 h2

/-- The range test reads only the first `3*nx*ny*nz` entries of `T`. -/
theorem accepted_T_congr (a : Args R) (T' : Nat → R)
    (h : ∀ k, k < 3 * a.nx * a.ny * a.nz → T' k = a.T k) (sx sy sz : Nat) :
    accepted { a with T := T' } sx sy sz ↔ accepted a sx sy sz := by
  unfold accepted
  rw [s2At_T_congr a T' h]
  exact Iff.rfl

/-- A sum over the accepted voxels reads only the first `3*nx*ny*nz` entries of `T`, if its
terms do. -/
theorem voxelSum_T_congr {β : Type} [AddCommMonoid β] (a : Args R) (T' : Nat → R)
    (h : ∀ k, k < 3 * a.nx * a.ny * a.nz → T' k = a.T k) {f g : Nat → Nat → Nat → β}
    (hfg : ∀ sx sy sz, f sx sy sz = g sx sy sz) :
    voxelSum { a with T := T' } f = voxelSum a g := by
  unfold voxelSum dim1
  dsimp only
  refine congrArg List.sum (List.map_congr_left (fun sz _ => ?_))
  refine congrArg List.sum (List.map_congr_left (fun sy _ => ?_))
  refine congrArg List.sum (List.map_congr_left (fun sx _ => ?_))
  by_cases hacc : accepted a sx sy sz
  · rw [if_pos hacc, if_pos ((accepted_T_congr a T' h sx sy sz).mpr hacc), hfg]
  · rw [if_neg hacc, if_neg (fun hc => hacc ((accepted_T_congr a T' h sx sy sz).mp hc))]

/-- The dense design row reads only the first `3*nx*ny*nz` entries of `T`. -/
theorem designRow_T_congr (a : Args R) (T' : Nat → R)
    (h : ∀ k, k < 3 * a.nx * a.ny * a.nz → T' k = a.T k) (sx sy sz p : Nat) :
    designRow { a with T := T' } sx sy sz p = designRow a sx sy sz p := by
  unfold designRow gradAt tmplVal
  rw [s2At_T_congr a T' h]
  rfl

/-- C18: in exact arithmetic the matrix `alpha` and the sample count that `mrqcof` returns do
not depend on the intensity parameters: if `T'` agrees with `T` on the first `3*nx*ny*nz`
entries, then with all other inputs equal the returned array `alpha` (every entry of the
matrix, and the caller's storage beyond it) and the returned `nsamp` are the same for `T'` as
for `T`. -/
theorem alpha_nsamp_independent_of_intensity (a : Args R) (T' : Nat → R)
    (alpha0 beta0 sd0 : Nat → R) (h : ∀ k, k < 3 * a.nx * a.ny * a.nz → T' k = a.T k) :
    (mrqcof { a with T := T' } alpha0 beta0 sd0).alpha = (mrqcof a alpha0 beta0 sd0).alpha ∧
    (mrqcof { a with T := T' } alpha0 beta0 sd0).nsamp = (mrqcof a alpha0 beta0 sd0).nsamp := by
  constructor
  · funext j
    by_cases hj : ∃ p q, p < 3 * a.nx * a.ny * a.nz + ni4 a ∧
        q < 3 * a.nx * a.ny * a.nz + ni4 a ∧ j = (3 * a.nx * a.ny * a.nz + ni4 a) * p + q
    · obtain ⟨p, q, hp, hq, rfl⟩ := hj
      have h1 := alpha_entry { a with T := T' } alpha0 beta0 sd0 (p := p) (q := q) hp hq
      have h2 := alpha_entry a alpha0 beta0 sd0 hp hq
      rw [h2]
      refine h1.trans ?_
      unfold naiveAlpha
      refine voxelSum_T_congr a T' h (fun sx sy sz => ?_)
      rw [designRow_T_congr a T' h, designRow_T_congr a T' h]
    · have hout : ∀ p q, p < 3 * a.nx * a.ny * a.nz + ni4 a →
          q < 3 * a.nx * a.ny * a.nz + ni4 a →
          j ≠ (3 * a.nx * a.ny * a.nz + ni4 a) * p + q :=
        fun p q hp hq heq => hj ⟨p, q, hp, hq, heq⟩
      have h1 : (mrqcof { a with T := T' } alpha0 beta0 sd0).alpha j = alpha0 j :=
        mrqcof_alpha_outside { a with T := T' } alpha0 beta0 sd0 hout
      rw [h1, mrqcof_alpha_outside a alpha0 beta0 sd0 hout]
  · rw [mrqcof_nsamp, mrqcof_nsamp]
    exact voxelSum_T_congr a T' h (fun _ _ _ => rfl)

end Intensity

theorem alpha_nsamp_independent_of_intensity_witness :
    (mrqcof { twoBasisArgs with T := fun k => if k = 6 then 5 else 0 } zeroBuf zeroBuf
        zeroBuf).nsamp
      = (mrqcof twoBasisArgs zeroBuf zeroBuf zeroBuf).nsamp :=
  (alpha_nsamp_independent_of_intensity twoBasisArgs (fun k => if k = 6 then 5 else 0) zeroBuf
    zeroBuf zeroBuf (by decide)).2

end SpmBrainwarp

namespace SpmBrainwarp

/-! ## Degenerate degrees of freedom -/

section Degenerate

variable {R : Type} [LinearOrderedCommRing R]

/-- A sum over the accepted voxels is zero when no voxel is accepted. -/
theorem voxelSum_none {β : Type} [AddCommMonoid β] (a : Args R)
    (h : ∀ sx sy sz, ¬accepted a sx sy sz) (f : Nat → Nat → Nat → β) : voxelSum a f = 0 := by
  unfold voxelSum
  simp [h]

/-- The count of accepted voxels is the number of grid voxels when all of them are
accepted. -/
theorem voxelSum_all (a : Args R)
    (h : ∀ sx, sx ∈ grid (dim1 a 0) (a.samp 0) → ∀ sy, sy ∈ grid (dim1 a 1) (a.samp 1) →
      ∀ sz, sz ∈ grid (dim1 a 2) (a.samp 2) → accepted a sx sy sz) :
    voxelSum a (fun _ _ _ => 1)
      = (grid (dim1 a 2) (a.samp 2)).length * ((grid (dim1 a 1) (a.samp 1)).length
          * (grid (dim1 a 0) (a.samp 0)).length) := by
  unfold voxelSum
  have e : ∀ sz, sz ∈ grid (dim1 a 2) (a.samp 2) → ∀ sy, sy ∈ grid (dim1 a 1) (a.samp 1) →
      ((grid (dim1 a 0) (a.samp 0)).map fun sx => if accepted a sx sy sz then 1 else 0)
        = (grid (dim1 a 0) (a.samp 0)).map (fun _ => 1) :=
    fun sz hz sy hy => List.map_congr_left (fun sx hx => if_pos (h sx hx sy hy sz hz))
  have e2 : ∀ sz, sz ∈ grid (dim1 a 2) (a.samp 2) →
      ((grid (dim1 a 1) (a.samp 1)).map fun sy =>
        ((grid (dim1 a 0) (a.samp 0)).map fun sx =>
          if accepted a sx sy sz then 1 else 0).sum)
        = (grid (dim1 a 1) (a.samp 1)).map
            (fun _ => (grid (dim1 a 0) (a.samp 0)).length) := by
    intro sz hz
    refine List.map_congr_left (fun sy hy => ?_)
    rw [e sz hz sy hy]
    simp
  rw [List.map_congr_left (fun sz hz => congrArg List.sum (e2 sz hz))]
  simp

/-- No voxel passes the range test when the margins leave no room on the first axis. -/
theorem not_accepted_of_margin (a : Args R)
    (h : (a.vol2.dim 0 : Int) - a.edgeskip 0 ≤ 1 + a.edgeskip 0) (sx sy sz : Nat) :
    ¬accepted a sx sy sz := by
  intro hacc
  obtain ⟨a0, b0, _⟩ := hacc
  have hlt : ((1 + a.edgeskip 0 : Int) : R) < (((a.vol2.dim 0 : Int) - a.edgeskip 0 : Int) : R) :=
    lt_of_le_of_lt a0 b0
  have := Int.cast_lt.mp hlt
  omega

/-- With all deformation coefficients zero the warped coordinate is the grid index plus
one. -/
theorem transAt_zero (a : Args R) (hT : ∀ k, k < 3 * a.nx * a.ny * a.nz → a.T k = 0)
    (sx sy sz : Nat) {i : Nat} (hi : i < 3) :
    transAt a sx sy sz i = 1 + (s0v sx sy sz i : R) := by
  rw [transAt_eq_sum a sx sy sz hi]
  have hz : (∑ x in Finset.range a.nx, ∑ y in Finset.range a.ny, ∑ z in Finset.range a.nz,
      a.T (i * a.nx * a.ny * a.nz + x + a.nx * y + a.nx * a.ny * z)
        * a.BX (dim1 a 0 * x + sx) * a.BY (dim1 a 1 * y + sy) * a.BZ (dim1 a 2 * z + sz)) = 0 := by
    refine Finset.sum_eq_zero (fun x hx => Finset.sum_eq_zero (fun y hy =>
      Finset.sum_eq_zero (fun z hz => ?_)))
    rw [hT _ (flat3_lt hi (Finset.mem_range.mp hx) (Finset.mem_range.mp hy)
      (Finset.mem_range.mp hz))]
    simp
  rw [hz, add_zero]

/-- With zero deformation and the identity affine matrix, the transformed position is the
grid index plus one on each axis. -/
theorem s2At_plain (a : Args R) (hT : ∀ k, k < 3 * a.nx * a.ny * a.nz → a.T k = 0)
    (hM : ∀ k, a.M k = if k = 0 ∨ k = 5 ∨ k = 10 ∨ k = 15 then 1 else 0)
    (sx sy sz : Nat) {k : Nat} (hk : k < 3) :
    s2At a sx sy sz k = ((1 + (s0v sx sy sz k : Int) : Int) : R) := by
  have h0 := transAt_zero a hT sx sy sz (by omega : 0 < 3)
  have h1 := transAt_zero a hT sx sy sz (by omega : 1 < 3)
  have h2 := transAt_zero a hT sx sy sz (by omega : 2 < 3)
  unfold transAt at h0 h1 h2
  unfold s2At
  interval_cases k
  · simp [affine, hM, h0]
  · simp [affine, hM, h1]
  · simp [affine, hM, h2]

/-- With zero deformation and the identity affine matrix, the range test is a test on the
grid index. -/
theorem accepted_plain (a : Args R) (hT : ∀ k, k < 3 * a.nx * a.ny * a.nz → a.T k = 0)
    (hM : ∀ k, a.M k = if k = 0 ∨ k = 5 ∨ k = 10 ∨ k = 15 then 1 else 0)
    (sx sy sz : Nat)
    (h : ∀ k, k < 3 → a.edgeskip k ≤ (s0v sx sy sz k : Int) ∧
      1 + (s0v sx sy sz k : Int) < (a.vol2.dim k : Int) - a.edgeskip k) :
    accepted a sx sy sz := by
  unfold accepted
  rw [inRange_iff]
  intro k hk
  rw [s2At_plain a hT hM sx sy sz hk]
  exact ⟨Int.cast_le.mpr (by have := (h k hk).1; omega), Int.cast_lt.mpr (h k hk).2⟩

end Degenerate

/-- The indices a sampling loop visits lie between its start and the length of the axis. -/
theorem mem_gridLoop {fuel s dim samp k : Nat} (h : k ∈ gridLoop fuel s dim samp) :
    s ≤ k ∧ k < dim := by
  induction fuel generalizing s with
  | zero => simp [gridLoop] at h
  | succ fuel ih =>
    unfold gridLoop at h
    split at h
    · rcases List.mem_cons.mp h with h | h
      · omega
      · have := ih h
        omega
    · simp at h

theorem plainEnv_rint_quarter : plainEnv.rint (1 / 4) = 0 := by
  show ⌊(1 / 4 : ℚ) + 1 / 2⌋ = 0
  rw [Int.floor_eq_iff]
  constructor <;> norm_num

theorem plainEnv_rint_eighth : plainEnv.rint (1 / 8) = 0 := by
  show ⌊(1 / 8 : ℚ) + 1 / 2⌋ = 0
  rw [Int.floor_eq_iff]
  constructor <;> norm_num

theorem longInput_configError : configError longInput = none := by decide

theorem longInput_fwhm : fwhmOf longInput = 1 / 4 := by
  simp [fwhmOf, longInput, fullArray]

theorem longInput_samp (k : Nat) : sampOf plainEnv longInput k = 1 := by
  have e : fwhmOf longInput / 2 / plainEnv.voxdim (longInput.map1 0) k = 1 / 8 := by
    rw [longInput_fwhm]
    show (1 / 4 : ℚ) / 2 / 1 = 1 / 8
    norm_num
  unfold sampOf
  rw [e, plainEnv_rint_eighth]
  rfl

theorem longInput_edgeskip (k : Nat) : edgeskipOf plainEnv longInput k = 0 := by
  have e : fwhmOf longInput / plainEnv.voxdim (longInput.map2 0) k = 1 / 4 := by
    rw [longInput_fwhm]
    show (1 / 4 : ℚ) / 1 = 1 / 4
    norm_num
  unfold edgeskipOf
  rw [e, plainEnv_rint_quarter]
  rfl

/-- In the call `longInput` every voxel of the grid is accepted and the count is 7, the
number of parameters. -/
theorem longInput_nsamp : (mrqcofOut plainEnv longInput).nsamp = 7 := by
  have hs : ∀ k, (mrqcofArgs plainEnv longInput).samp k = 1 := by
    intro k
    show (sampOf plainEnv longInput k).toNat = 1
    rw [longInput_samp]
    rfl
  have he : ∀ k, (mrqcofArgs plainEnv longInput).edgeskip k = 0 := longInput_edgeskip
  have hT : ∀ k, k < 3 * (mrqcofArgs plainEnv longInput).nx * (mrqcofArgs plainEnv longInput).ny
      * (mrqcofArgs plainEnv longInput).nz → (mrqcofArgs plainEnv longInput).T k = 0 := by
    intro k hk
    have hk3 : k < 3 := hk
    show (if k = 3 then (1 : ℚ) else 0) = 0
    rw [if_neg (by omega)]
  have hM : ∀ k, (mrqcofArgs plainEnv longInput).M k
      = if k = 0 ∨ k = 5 ∨ k = 10 ∨ k = 15 then 1 else 0 := fun _ => rfl
  have hacc : ∀ sx, sx ∈ grid (dim1 (mrqcofArgs plainEnv longInput) 0)
        ((mrqcofArgs plainEnv longInput).samp 0) →
      ∀ sy, sy ∈ grid (dim1 (mrqcofArgs plainEnv longInput) 1)
        ((mrqcofArgs plainEnv longInput).samp 1) →
      ∀ sz, sz ∈ grid (dim1 (mrqcofArgs plainEnv longInput) 2)
        ((mrqcofArgs plainEnv longInput).samp 2) →
      accepted (mrqcofArgs plainEnv longInput) sx sy sz := by
    intro sx hx sy hy sz hz
    have hx' : sx < 8 := (mem_gridLoop hx).2
    have hy' : sy < 2 := (mem_gridLoop hy).2
    have hz' : sz < 2 := (mem_gridLoop hz).2
    refine accepted_plain _ hT hM sx sy sz (fun k hk => ?_)
    rw [he k]
    interval_cases k
    · exact ⟨by omega, by show 1 + (sx : Int) < ((9 : Nat) : Int) - 0; omega⟩
    · exact ⟨by omega, by show 1 + (sy : Int) < ((3 : Nat) : Int) - 0; omega⟩
    · exact ⟨by omega, by show 1 + (sz : Int) < ((3 : Nat) : Int) - 0; omega⟩
  unfold mrqcofOut
  rw [mrqcof_nsamp, voxelSum_all _ hacc, hs 0, hs 1, hs 2]
  decide


/-- In the call `gatewayInput` the margin 8 leaves no room in the 5x5x5 moving volume: no
voxel is accepted. -/
theorem gatewayInput_rejects (sx sy sz : Nat) :
    ¬accepted (mrqcofArgs plainEnv gatewayInput) sx sy sz := by
  refine not_accepted_of_margin _ ?_ sx sy sz
  show ((5 : Nat) : Int) - edgeskipOf plainEnv gatewayInput 0
    ≤ 1 + edgeskipOf plainEnv gatewayInput 0
  rw [gatewayInput_edgeskip]
  decide

theorem gatewayInput_nsamp : (mrqcofOut plainEnv gatewayInput).nsamp = 0 := by
  unfold mrqcofOut
  rw [mrqcof_nsamp, voxelSum_none _ gatewayInput_rejects]

theorem gatewayInput_ss : (mrqcofOut plainEnv gatewayInput).ss = 0 := by
  unfold mrqcofOut
  rw [mrqcof_ss, voxelSum_none _ gatewayInput_rejects]

section Unguarded

variable {R : Type} [LinearOrderedField R]

/-- With as many samples as parameters the degrees of freedom are zero. -/
theorem dfOf_zero (env : Env R) (inp : Input R)
    (h : (mrqcofOut env inp).nsamp = 3 * nxOf inp * nyOf inp * nzOf inp + inp.ni * 4) :
    dfOf env inp = 0 := by
  unfold dfOf
  rw [h, sub_self, Int.cast_zero, mul_zero]

/-- With a zero sum of squares the variance is zero. -/
theorem chi2Of_zero (env : Env R) (inp : Input R) (h : (mrqcofOut env inp).ss = 0) :
    chi2Of env inp = 0 := by
  unfold chi2Of
  rw [h, zero_div]

end Unguarded

/-- C17: degenerate degrees of freedom are not guarded.  The call `longInput` passes every
check and has as many samples as parameters (`nsamp = 3*nx*ny*nz + 4*N = 7`); the call
`gatewayInput` passes every check and has every voxel rejected by the range test, so that
`nsamp = 0` and the sum of squares is 0.  And every call that passes the checks produces the
outputs, with the variance `chi2/df` and the arrays scaled by `1.0/chi2`, whatever `df` and
`chi2` are: when `nsamp = 3*nx*ny*nz + 4*N` the divisor `df` is zero, and when the sum of
squares is zero the divisor `df` or the divisor `chi2` is zero; no error is reported. -/
theorem degenerate_df_unguarded :
    (configError longInput = none ∧
      (mrqcofOut plainEnv longInput).nsamp
        = 3 * nxOf longInput * nyOf longInput * nzOf longInput + longInput.ni * 4) ∧
    (configError gatewayInput = none ∧ (mrqcofOut plainEnv gatewayInput).nsamp = 0 ∧
      (mrqcofOut plainEnv gatewayInput).ss = 0) ∧
    ∀ (R : Type) [LinearOrderedField R] (env : Env R) (inp : Input R),
      configError inp = none →
        mexFunction env inp = .ok (finish env inp) ∧
        (finish env inp).chi2 = (mrqcofOut env inp).ss / dfOf env inp ∧
        (finish env inp).alpha
          = scale ((3 * nxOf inp * nyOf inp * nzOf inp + inp.ni * 4)
              * (3 * nxOf inp * nyOf inp * nzOf inp + inp.ni * 4))
            (mrqcofOut env inp).alpha (1 / chi2Of env inp) ∧
        (finish env inp).beta
          = scale (3 * nxOf inp * nyOf inp * nzOf inp + inp.ni * 4)
            (mrqcofOut env inp).beta (1 / chi2Of env inp) ∧
        ((mrqcofOut env inp).nsamp = 3 * nxOf inp * nyOf inp * nzOf inp + inp.ni * 4 →
          dfOf env inp = 0) ∧
        ((mrqcofOut env inp).ss = 0 → dfOf env inp = 0 ∨ chi2Of env inp = 0) :=
  ⟨⟨longInput_configError, longInput_nsamp⟩,
    ⟨gatewayInput_configError, gatewayInput_nsamp, gatewayInput_ss⟩,
    fun _ _ env inp hc => ⟨mexFunction_ok env inp hc, rfl, rfl, rfl,
      fun h => dfOf_zero env inp h, fun h => Or.inr (chi2Of_zero env inp h)⟩⟩

theorem degenerate_df_unguarded_witness :
    dfOf plainEnv longInput = 0 ∧
    (dfOf plainEnv gatewayInput = 0 ∨ chi2Of plainEnv gatewayInput = 0) :=
  ⟨(degenerate_df_unguarded.2.2 ℚ plainEnv longInput longInput_configError).2.2.2.2.1
      longInput_nsamp,
    (degenerate_df_unguarded.2.2 ℚ plainEnv gatewayInput gatewayInput_configError).2.2.2.2.2
      gatewayInput_ss⟩

end SpmBrainwarp
